import Mathlib

/-!
# Shallow embedding of the MagpieApp pattern-generation core

This file embeds, in Lean 4, the parts of the `src-tauri` Rust sources that
the specification's claims are about:

* `selection.rs` — the magic-wand flood fill and the mask post-processing
  (island removal, hole filling, majority smoothing);
* `embroidery.rs` — the quantization pipeline `process_pattern` from the
  LAB pixel buffer onward (training-sample selection, deterministic
  k-means++, small-region removal, palette recomputation, stitch and
  legend construction);
* `stage4.rs` — component analysis and the global region merger
  `enforce_region_constraints`;
* `regions.rs` — the bounded in-memory region cache of
  `extract_regions_cached`;
* `image_processor.rs` — the cache-handling control flow of
  `process_image_pipeline`.

Modelling conventions:

* Machine integers (`u8`, `u16`, `u32`, `usize`) are `Nat`; the label grids
  of `stage4.rs` use `i32` with `-1` as sentinel and are modelled as
  `Array Int`.  None of the embedded computations approach the overflow
  range of the original types on the inputs considered.
* The binary masks of `selection.rs` (`Vec<u8>` holding only `0`/`1`) are
  modelled as natural-number bitsets: mask `m` has cell `i` set iff bit `i`
  of `m` is set.  `bitGet`/`bitSet1`/`bitClear` below are the cell
  read/write operations.
* `f32`/`f64` quantities that the embedded control flow branches on are
  modelled as exact rationals represented by the fraction type `FVal`
  (integer numerator over positive natural denominator, not reduced;
  comparisons are value comparisons by cross multiplication).  The
  floating-point colour subroutines whose numeric output cannot be
  reproduced exactly (CIEDE2000 `difference`, sRGB↔LAB conversion, the DMC
  catalogue snap) are passed as explicit parameters; every theorem below
  either holds for all values of these parameters or instantiates them
  with concrete representative values that are documented at their
  definition sites.
* Imperative loops become folds or fuel-indexed recursions.  Fuel bounds
  are chosen so that they are never exhausted on the loops' actual
  reachable states (each BFS pops each cell at most once, so `n + 1` fuel
  suffices for an `n`-cell grid).
* Rust `HashMap` iteration order is unspecified; wherever the source
  iterates a `HashMap` (the legend accumulator of `process_pattern`), the
  iteration order is an explicit parameter constrained to be a permutation
  of the keys.
-/

set_option maxRecDepth 100000

namespace Magpie

/-! ## Numeric model -/

/-- Exact rational value standing for an `f32`/`f64` quantity: numerator
over positive denominator, not necessarily reduced.  Only the operations
below are used on it; the derived structural equality is representation
equality and is never used to compare results of distinct computations. -/
structure FVal where
  num : Int
  den : Nat
deriving DecidableEq, Repr

/-- Integer literal as an `FVal`. -/
def fv (n : Int) : FVal := ⟨n, 1⟩

def fadd (a b : FVal) : FVal := ⟨a.num * b.den + b.num * a.den, a.den * b.den⟩

def fsub (a b : FVal) : FVal := ⟨a.num * b.den - b.num * a.den, a.den * b.den⟩

def fmul (a b : FVal) : FVal := ⟨a.num * b.num, a.den * b.den⟩

/-- Exact division; the sign moves to the numerator so the denominator
stays a natural number. -/
def fdiv (a b : FVal) : FVal :=
  if b.num < 0 then ⟨-(a.num * b.den), a.den * b.num.natAbs⟩
  else ⟨a.num * b.den, a.den * b.num.natAbs⟩

def flt (a b : FVal) : Bool := decide (a.num * (b.den : Int) < b.num * (a.den : Int))

def fle (a b : FVal) : Bool := decide (a.num * (b.den : Int) ≤ b.num * (a.den : Int))

/-- Comparator on `FVal` (the embedded counterpart of `partial_cmp`
followed by `unwrap_or(Equal)`: exact rationals are never NaN, so the
fallback is inert). -/
def fcmp (a b : FVal) : Ordering :=
  if flt a b then Ordering.lt else if flt b a then Ordering.gt else Ordering.eq

/-- Rust `f32::clamp` (callers always pass `lo ≤ hi`). -/
def fclamp (x lo hi : FVal) : FVal :=
  if flt x lo then lo else if flt hi x then hi else x

/-- `⌊x⌋` of an `FVal`. -/
def ffloor (x : FVal) : Int := x.num.fdiv x.den

/-- Rust `f32::round` (round half away from zero) of a nonnegative value,
as a natural number: `⌊x + 1/2⌋`. -/
def froundNat (x : FVal) : Nat := (ffloor (fadd x ⟨1, 2⟩)).toNat

/-! ## Grid helpers -/

/-- `Array.getD`-style read used for all grid indexing (the Rust code only
indexes in bounds; the default is never consulted on the embedded runs). -/
def aget {α : Type} (a : Array α) (i : Nat) (d : α) : α := a.getD i d

/-- In-bounds array write; out of bounds leaves the array unchanged (the
Rust code only writes in bounds). -/
def aset {α : Type} (a : Array α) (i : Nat) (v : α) : Array α :=
  if h : i < a.size then a.set ⟨i, h⟩ v else a

/-- Cell `i` of the bitset mask `m` (`0` or `1`). -/
def bitGet (m i : Nat) : Nat := (m >>> i) % 2

/-- Write `1` into cell `i` of the bitset mask `m`. -/
def bitSet1 (m i : Nat) : Nat := m ||| (1 <<< i)

/-- Write `0` into cell `i` of the bitset mask `m`. -/
def bitClear (m i : Nat) : Nat := if bitGet m i = 1 then m - (1 <<< i) else m

/-- Stable insertion of `e` into `l`: `e` goes before the first element `x`
with `cmp x e = .gt`, hence after every earlier element comparing `≤ eq`.
Together with `stableSortBy` this has exactly the stable-sort semantics of
Rust's `sort_by`. -/
def ordInsert {α : Type} (cmp : α → α → Ordering) (e : α) : List α → List α
  | [] => [e]
  | x :: xs => if cmp x e = Ordering.gt then e :: x :: xs else x :: ordInsert cmp e xs

/-- Stable sort with comparator `cmp` (model of Rust `slice::sort_by`). -/
def stableSortBy {α : Type} (cmp : α → α → Ordering) (l : List α) : List α :=
  l.foldl (fun acc e => ordInsert cmp e acc) []

/-- A LAB colour triple; the `f32` components are modelled exactly. -/
structure Lab3 where
  l : FVal
  a : FVal
  b : FVal
deriving DecidableEq, Repr

/-! ## Selection engine (`selection.rs`) -/

/-- Mirror of `SelectionWorkspace`: LAB buffer and gradient map are stored,
precomputed, exactly as the Rust struct stores the outputs of
`init_workspace` (whose float conversions are not re-derived here). -/
structure SelectionWorkspace where
  id : String
  width : Nat
  height : Nat
  lab_pixels : Array Lab3
  gradient_map : Array FVal
deriving Repr

/-- Mirror of `MagicWandParams` (`tolerance`, `edge_stop` are `f32`). -/
structure MagicWandParams where
  seed_x : Nat
  seed_y : Nat
  tolerance : FVal
  edge_stop : FVal
deriving Repr

/-- Mirror of `RefinementParams`. -/
structure RefinementParams where
  min_island_area : Nat
  hole_fill_area : Nat
  smoothing_passes : Nat
deriving Repr

/-- The fixed neighbour offsets `[(-1,0),(1,0),(0,-1),(0,1)]` used by every
four-connected sweep in the sources. -/
def neighborOffsets : List (Int × Int) := [(-1, 0), (1, 0), (0, -1), (0, 1)]

/-- Bounds test `nx < 0 || nx >= width || ny < 0 || ny >= height`, negated. -/
def inBounds (width height : Nat) (nx ny : Int) : Bool :=
  decide (0 ≤ nx) && decide (nx < (width : Int)) &&
  decide (0 ≤ ny) && decide (ny < (height : Int))

/-- One neighbour step of the magic-wand BFS of `magic_wand_click`
(`selection.rs:132-159`): mark visited on first inspection, reject on
gradient, admit on squared LAB distance to the seed colour.  State:
(visited bitset, mask bitset, queue). -/
def wandVisit (ws : SelectionWorkspace) (seedColor : Lab3) (tolSq edgeStop : FVal)
    (idx : Nat) (st : Nat × Nat × List Nat) (d : Int × Int) :
    Nat × Nat × List Nat :=
  let (visited, mask, queue) := st
  let nx : Int := Int.ofNat (idx % ws.width) + d.1
  let ny : Int := Int.ofNat (idx / ws.width) + d.2
  if inBounds ws.width ws.height nx ny then
    let nidx := ny.toNat * ws.width + nx.toNat
    if bitGet visited nidx = 1 then st
    else
      let visited := bitSet1 visited nidx
      if flt edgeStop (aget ws.gradient_map nidx (fv 0)) then (visited, mask, queue)
      else
        let c := aget ws.lab_pixels nidx ⟨fv 0, fv 0, fv 0⟩
        let dl := fsub seedColor.l c.l
        let da := fsub seedColor.a c.a
        let db := fsub seedColor.b c.b
        if flt (fadd (fadd (fmul dl dl) (fmul da da)) (fmul db db)) tolSq then
          (visited, bitSet1 mask nidx, queue ++ [nidx])
        else (visited, mask, queue)
  else st

/-- The magic-wand BFS loop (`while let Some(idx) = queue.pop_front()`). -/
def wandLoop (ws : SelectionWorkspace) (seedColor : Lab3) (tolSq edgeStop : FVal) :
    Nat → List Nat → Nat → Nat → Nat
  | 0, _, _, mask => mask
  | _ + 1, [], _, mask => mask
  | fuel + 1, idx :: queue, visited, mask =>
    let st := neighborOffsets.foldl (wandVisit ws seedColor tolSq edgeStop idx)
      (visited, mask, queue)
    wandLoop ws seedColor tolSq edgeStop fuel st.2.2 st.1 st.2.1

/-- The raw edge-bounded flood-fill mask computed by `magic_wand_click`
before its final post-processing call (`selection.rs:116-160`). -/
def magicWandFlood (ws : SelectionWorkspace) (p : MagicWandParams) : Nat :=
  let n := ws.width * ws.height
  let seedIdx := p.seed_y * ws.width + p.seed_x
  let seedColor := aget ws.lab_pixels seedIdx ⟨fv 0, fv 0, fv 0⟩
  wandLoop ws seedColor (fmul p.tolerance p.tolerance) p.edge_stop (n + 1) [seedIdx]
    (bitSet1 0 seedIdx) (bitSet1 0 seedIdx)

/-- One neighbour step of the region-collecting BFS used by the island and
hole passes of `post_process_mask`: admit neighbours whose grid value is
`v` and are unvisited, appending them to queue and region.  State:
(visited bitset, queue, region). -/
def regionVisit (width height : Nat) (grid : Nat) (v : Nat) (idx : Nat)
    (st : Nat × List Nat × List Nat) (d : Int × Int) :
    Nat × List Nat × List Nat :=
  let (visited, queue, region) := st
  let nx : Int := Int.ofNat (idx % width) + d.1
  let ny : Int := Int.ofNat (idx / width) + d.2
  if inBounds width height nx ny then
    let nidx := ny.toNat * width + nx.toNat
    if bitGet grid nidx = v && !(bitGet visited nidx = 1) then
      (bitSet1 visited nidx, queue ++ [nidx], region ++ [nidx])
    else st
  else st

/-- BFS of the island pass (`selection.rs:196-211`), collecting the
four-connected region of `1`-cells; returns updated visited flags and the
region's cell list. -/
def islandFlood (width height : Nat) (grid : Nat) :
    Nat → List Nat → Nat → List Nat → Nat × List Nat
  | 0, _, visited, region => (visited, region)
  | _ + 1, [], visited, region => (visited, region)
  | fuel + 1, idx :: queue, visited, region =>
    let st := neighborOffsets.foldl (regionVisit width height grid 1 idx)
      (visited, queue, region)
    islandFlood width height grid fuel st.2.1 st.1 st.2.2

/-- BFS of the hole pass (`selection.rs:233-251`), collecting a
four-connected region of `0`-cells and recording whether any popped cell
lies on the image border. -/
def holeFlood (width height : Nat) (grid : Nat) :
    Nat → List Nat → Nat → List Nat → Bool → Nat × List Nat × Bool
  | 0, _, visited, region, touches => (visited, region, touches)
  | _ + 1, [], visited, region, touches => (visited, region, touches)
  | fuel + 1, idx :: queue, visited, region, touches =>
    let x := idx % width
    let y := idx / width
    let touches := touches || x = 0 || x = width - 1 || y = 0 || y = height - 1
    let st := neighborOffsets.foldl (regionVisit width height grid 0 idx)
      (visited, queue, region)
    holeFlood width height grid fuel st.2.1 st.1 st.2.2 touches

/-- Step of the island-removal scan: at an unvisited `1`-cell, flood its
region; if the region is smaller than `min_island_area`, zero it out. -/
def islandStep (width height minIsland : Nat) (st : Nat × Nat) (i : Nat) :
    Nat × Nat :=
  let (result, visited) := st
  if bitGet result i = 1 && !(bitGet visited i = 1) then
    let fl := islandFlood width height result (width * height + 1) [i]
      (bitSet1 visited i) [i]
    if fl.2.length < minIsland then
      (fl.2.foldl (fun r j => bitClear r j) result, fl.1)
    else (result, fl.1)
  else st

/-- Pass 1 of `post_process_mask` (`selection.rs:186-219`): remove
four-connected `1`-regions smaller than `min_island_area`. -/
def islandPass (width height minIsland : Nat) (mask : Nat) : Nat :=
  if minIsland > 0 then
    ((List.range (width * height)).foldl (islandStep width height minIsland)
      (mask, 0)).1
  else mask

/-- Step of the hole-fill scan: at an unvisited `0`-cell, flood its region;
if it does not touch the border and is smaller than `hole_fill_area`, set
it to `1`. -/
def holeStep (width height holeFill : Nat) (st : Nat × Nat) (i : Nat) :
    Nat × Nat :=
  let (result, visited) := st
  if bitGet result i = 0 && !(bitGet visited i = 1) then
    let fl := holeFlood width height result (width * height + 1) [i]
      (bitSet1 visited i) [i] false
    if !fl.2.2 && fl.2.1.length < holeFill then
      (fl.2.1.foldl (fun r j => bitSet1 r j) result, fl.1)
    else (result, fl.1)
  else st

/-- Pass 2 of `post_process_mask` (`selection.rs:222-259`): fill
four-connected `0`-regions smaller than `hole_fill_area` that do not touch
the image border. -/
def holePass (width height holeFill : Nat) (mask : Nat) : Nat :=
  if holeFill > 0 then
    ((List.range (width * height)).foldl (holeStep width height holeFill)
      (mask, 0)).1
  else mask

/-- 3×3 count of `1`-cells around the interior cell `(x, y)` of `m`. -/
def neighborhoodCount (width : Nat) (m : Nat) (x y : Nat) : Nat :=
  ([-1, 0, 1] : List Int).foldl (fun acc dy =>
    ([-1, 0, 1] : List Int).foldl (fun acc dx =>
      if bitGet m ((Int.ofNat y + dy).toNat * width + (Int.ofNat x + dx).toNat) = 1
      then acc + 1 else acc) acc) 0

/-- One majority-smoothing sweep of `post_process_mask`
(`selection.rs:263-280`): interior cells become `1` iff at least 5 of their
3×3 neighbourhood (in the previous mask) are `1`; border cells keep their
previous value. -/
def smoothOnce (width height : Nat) (m : Nat) : Nat :=
  (List.range (width * height)).foldl (fun sm i =>
    let x := i % width
    let y := i / width
    if 1 ≤ x ∧ x + 1 < width ∧ 1 ≤ y ∧ y + 1 < height then
      if neighborhoodCount width m x y ≥ 5 then bitSet1 sm i else bitClear sm i
    else sm) m

/-- `smoothing_passes` iterated majority sweeps. -/
def smoothPass (width height passes : Nat) (m : Nat) : Nat :=
  (List.range passes).foldl (fun r _ => smoothOnce width height r) m

/-- Mirror of `post_process_mask` (`selection.rs:181-284`): island removal,
then hole filling, then majority smoothing. -/
def postProcessMask (mask : Nat) (width height : Nat) (p : RefinementParams) :
    Nat :=
  smoothPass width height p.smoothing_passes
    (holePass width height p.hole_fill_area
      (islandPass width height p.min_island_area mask))

/-- Mirror of `refine_mask` (`selection.rs:177-179`). -/
def refineMask (mask : Nat) (width height : Nat) (p : RefinementParams) : Nat :=
  postProcessMask mask width height p

/-- Mirror of `magic_wand_click` (`selection.rs:99-175`): workspace lookup
(the single-slot global holder is modelled by passing the stored workspace
and the requested id), seed bounds check, edge-bounded flood fill, then the
unconditional post-processing call with parameters 16/16/1. -/
def magicWandClick (ws : SelectionWorkspace) (workspaceId : String)
    (p : MagicWandParams) : Except String Nat :=
  if ws.id ≠ workspaceId then Except.error "Workspace not found or ID mismatch"
  else if p.seed_x ≥ ws.width ∨ p.seed_y ≥ ws.height then
    Except.error "Seed out of bounds"
  else
    Except.ok (postProcessMask (magicWandFlood ws p) ws.width ws.height
      ⟨16, 16, 1⟩)

/-! ## Embroidery pipeline (`embroidery.rs`) -/

/-- Mirror of `DmcThread` (code, name, hex, rgb, precomputed LAB). -/
structure DmcThread where
  code : String
  name : String
  hex : String
  rgb : Nat × Nat × Nat
  lab : Lab3
deriving DecidableEq, Repr

/-- Mirror of `DmcMetadata`. -/
structure DmcMetadata where
  code : String
  name : String
  hex : String
deriving DecidableEq, Repr

/-- Mirror of `ColorMapping`. -/
structure ColorMapping where
  original_hex : String
  mapped_hex : String
  dmc : DmcMetadata
deriving DecidableEq, Repr

/-- Mirror of `Stitch`. -/
structure Stitch where
  x : Nat
  y : Nat
  dmc_code : String
  marker : String
  hex : String
deriving DecidableEq, Repr

/-- Mirror of `LegendEntry`; `coverage` is the `f32` ratio
`stitch_count / total_stitches`, modelled exactly. -/
structure LegendEntry where
  dmc_code : String
  name : String
  hex : String
  stitch_count : Nat
  coverage : FVal
deriving DecidableEq, Repr

/-- Mirror of `ProcessingConfig`. -/
structure ProcessingConfig where
  color_count : Nat
  use_dmc_palette : Bool
  smoothing_amount : FVal
  simplify_amount : FVal
  min_region_size : Nat
deriving Repr

/-- Mirror of `PatternResult` (the wall-clock `processing_time_ms` field is
not modelled). -/
structure PatternResult where
  width : Nat
  height : Nat
  stitches : List Stitch
  palette : List String
  dmc_palette : List String
  legend : List LegendEntry
  color_mappings : List ColorMapping
  total_stitches : Nat
deriving Repr

/-- The floating-point colour subroutines of `embroidery.rs`, passed as
parameters because their `f32` numerics cannot be reproduced exactly:
`distF` stands for CIEDE2000 `Lab::difference`, `labToHex` for the
LAB→sRGB→hex conversion of `process_pattern` (lines 750-759), and
`findClosest` for `DmcPalette::find_closest` over the fixed catalogue. -/
structure ColorOps where
  distF : Lab3 → Lab3 → FVal
  labToHex : Lab3 → String
  findClosest : Lab3 → DmcThread

def defaultLab : Lab3 := ⟨fv 0, fv 0, fv 0⟩

def defaultThread : DmcThread := ⟨"", "", "", (0, 0, 0), defaultLab⟩

/-- Stand-in for `f32::MAX` as the initial best distance of the
nearest-centre searches; every actual distance value is smaller. -/
def fMax : FVal := ⟨10 ^ 40, 1⟩

/-- `min(color_count as usize, 30)` — the cluster-count clamp applied by
`process_pattern` before calling the quantizer (`embroidery.rs:690`). -/
def effectiveK (colorCount : Nat) : Nat := min colorCount 30

/-- `iter().step_by(stride)`: every `stride`-th element starting at index
0 (`stride ≥ 1` at every call site, by construction `.max(1)`). -/
def stepBy {α : Type} (stride : Nat) (l : List α) : List α :=
  (l.enum.filter (fun ie => ie.1 % stride = 0)).map (fun ie => ie.2)

/-- Mirror of `KMeansCenter`. -/
structure KCenter where
  lab : Lab3
  sum_l : FVal
  sum_a : FVal
  sum_b : FVal
  count : Nat
deriving Repr

/-- `KMeansCenter::new`. -/
def KCenter.make (lab : Lab3) : KCenter := ⟨lab, fv 0, fv 0, fv 0, 0⟩

/-- `KMeansCenter::add_sample`. -/
def KCenter.addSample (c : KCenter) (p : Lab3) : KCenter :=
  { c with
    sum_l := fadd c.sum_l p.l, sum_a := fadd c.sum_a p.a,
    sum_b := fadd c.sum_b p.b, count := c.count + 1 }

/-- `KMeansCenter::update_centroid`: mean when `count > 0`, otherwise the
LAB coordinate is kept; running sums are zeroed either way. -/
def KCenter.updateCentroid (c : KCenter) : KCenter :=
  if c.count > 0 then
    ⟨⟨fdiv c.sum_l (fv c.count), fdiv c.sum_a (fv c.count), fdiv c.sum_b (fv c.count)⟩,
      fv 0, fv 0, fv 0, 0⟩
  else ⟨c.lab, fv 0, fv 0, fv 0, 0⟩

/-- In-place update of the `i`-th list element (out of bounds: no-op). -/
def updateNth {α : Type} (f : α → α) : List α → Nat → List α
  | [], _ => []
  | x :: xs, 0 => f x :: xs
  | x :: xs, i + 1 => x :: updateNth f xs i

/-- `Iterator::max_by` with keep-last-on-ties semantics (the `std`
documented behaviour: "if several elements are equally maximum, the last
element is returned"). -/
def maxByLast {α : Type} (cmp : α → α → Ordering) (l : List α) : Option α :=
  l.foldl (fun acc x =>
    match acc with
    | none => some x
    | some a => if cmp a x = Ordering.gt then some a else some x) none

/-- Index of the nearest k-means centre (`embroidery.rs:445-456`): initial
best distance `f32::MAX`, strict `<`, first index wins ties. -/
def nearestCenterIdx (distF : Lab3 → Lab3 → FVal) (centers : List KCenter)
    (p : Lab3) : Nat :=
  (centers.foldl (fun (st : Nat × Nat × FVal) c =>
    let d := distF p c.lab
    if flt d st.2.2 then (st.1 + 1, st.1, d) else (st.1 + 1, st.2.1, st.2.2))
    (0, 0, fMax)).2.1

/-- Same nearest-centre search over a plain LAB palette (the full-image
assignment of `process_pattern`, lines 697-711). -/
def nearestLabIdx (distF : Lab3 → Lab3 → FVal) (pal : List Lab3) (p : Lab3) : Nat :=
  (pal.foldl (fun (st : Nat × Nat × FVal) c =>
    let d := distF p c
    if flt d st.2.2 then (st.1 + 1, st.1, d) else (st.1 + 1, st.2.1, st.2.2))
    (0, 0, fMax)).2.1

/-- The farthest-point loop of `kmeans_plus_plus_init`
(`embroidery.rs:515-540`): repeatedly pick the unchosen sample with the
largest minimum distance to the chosen centres (`max_by` keeps the last
maximum; `unwrap_or((0, &0.0))` gives index 0 on an empty candidate set),
then refresh the minimum distances. -/
def kppLoop (distF : Lab3 → Lab3 → FVal) (pixels : List Lab3) (k : Nat) :
    Nat → List KCenter → List FVal → List Nat → List KCenter
  | 0, centers, _, _ => centers
  | fuel + 1, centers, minD, chosen =>
    if centers.length < k then
      let best := maxByLast (fun a b => fcmp a.2 b.2)
        (minD.enum.filter (fun id => ¬ chosen.contains id.1))
      let bestIdx := (best.getD (0, fv 0)).1
      let newCenter := KCenter.make (pixels.getD bestIdx defaultLab)
      let minD := (minD.zip pixels).map (fun mp =>
        let d := distF mp.2 newCenter.lab
        if flt d mp.1 then d else mp.1)
      kppLoop distF pixels k fuel (centers ++ [newCenter]) minD (chosen ++ [bestIdx])
    else centers

/-- Mirror of `kmeans_plus_plus_init` (`embroidery.rs:494-543`): first
centre at the sample of median luminance (stable sort by `l`, pick index
`n / 2`), then deterministic farthest-point picks. -/
def kppInit (distF : Lab3 → Lab3 → FVal) (pixels : List Lab3) (k : Nat) :
    List KCenter :=
  let n := pixels.length
  let sortedByL := stableSortBy (fun a b => fcmp a.2 b.2)
    (pixels.enum.map (fun ip => (ip.1, ip.2.l)))
  let firstIdx := (sortedByL.getD (n / 2) (0, fv 0)).1
  let c0 := KCenter.make (pixels.getD firstIdx defaultLab)
  let minD := pixels.map (fun p => distF p c0.lab)
  kppLoop distF pixels k k [c0] minD [firstIdx]

/-- The centre update of a k-means round (`embroidery.rs:472-487`): zero
all running sums, accumulate each sample into its labelled centre, then
recompute every centroid. -/
def updateCenters (pixels : List Lab3) (labels : List Nat)
    (centers : List KCenter) : List KCenter :=
  let zeroed := centers.map (fun c =>
    { c with sum_l := fv 0, sum_a := fv 0, sum_b := fv 0, count := 0 })
  let acc := (pixels.zip labels).foldl
    (fun cs pl => updateNth (fun c => c.addSample pl.1) cs pl.2) zeroed
  acc.map KCenter.updateCentroid

/-- The iteration loop of `kmeans_quantize` (`embroidery.rs:441-487`):
assign every sample to its nearest centre, stop as soon as no label
changed (the labels start as all zeros, so a first all-zero assignment
stops immediately), otherwise update the centroids and repeat. -/
def kmeansIter (distF : Lab3 → Lab3 → FVal) (pixels : List Lab3) :
    Nat → List KCenter → List Nat → List KCenter × List Nat
  | 0, centers, labels => (centers, labels)
  | fuel + 1, centers, labels =>
    let newLabels := pixels.map (nearestCenterIdx distF centers)
    let changed := ((newLabels.zip labels).filter (fun ab => ab.1 ≠ ab.2)).length
    if changed = 0 then (centers, newLabels)
    else kmeansIter distF pixels fuel (updateCenters pixels newLabels centers) newLabels

/-- Mirror of `kmeans_quantize` (`embroidery.rs:425-491`): empty input or
`k = 0` gives an empty result; otherwise `k` is further capped by the
sample count, centres are seeded deterministically and iterated at most
`max_iterations` rounds. -/
def kmeansQuantize (distF : Lab3 → Lab3 → FVal) (pixels : List Lab3)
    (k0 maxIter : Nat) : List Lab3 × List Nat :=
  if pixels.isEmpty ∨ k0 = 0 then ([], [])
  else
    let k := min k0 pixels.length
    let centers := kppInit distF pixels k
    let r := kmeansIter distF pixels maxIter centers
      (List.replicate pixels.length 0)
    (r.1.map (fun c => c.lab), r.2)

/-- Insertion-ordered association increment: the model of
`*neighbor_counts.entry(nlabel).or_insert(0) += 1` with `HashMap`
iteration order taken to be first-insertion order (one admissible order of
the unordered map; the sources' own tie-breaking below is what consumes
the order). -/
def incAssoc : List (Nat × Nat) → Nat → List (Nat × Nat)
  | [], key => [(key, 1)]
  | (k, c) :: rest, key =>
    if k = key then (k, c + 1) :: rest else (k, c) :: incAssoc rest key

/-- The comparator of the best-neighbour search of `remove_small_regions`
(`embroidery.rs:601-623`): boundary count ascending-as-`max`, ties broken
by reversed colour distance (so the maximum favours the perceptually
closer neighbour); missing palette entries compare equal. -/
def rsrCmp (distF : Lab3 → Lab3 → FVal) (currentLab : Option Lab3)
    (palette : List Lab3) (a b : Nat × Nat) : Ordering :=
  match compare a.2 b.2 with
  | Ordering.eq =>
    match currentLab, palette.get? a.1, palette.get? b.1 with
    | some cur, some la, some lb => fcmp (distF cur lb) (distF cur la)
    | _, _, _ => Ordering.eq
  | o => o

/-- The flood fill of `remove_small_regions` (`embroidery.rs:569-594`): a
stack-based (`Vec::pop`) traversal of the `target_label` region that also
tallies the labels across its boundary.  State: (visited bitset, stack,
region, neighbour tallies). -/
def rsrFlood (width height : Nat) (labels : Array Nat) (targetLabel : Nat) :
    Nat → List Nat → Nat → List Nat → List (Nat × Nat) →
    Nat × List Nat × List (Nat × Nat)
  | 0, _, visited, region, ncounts => (visited, region, ncounts)
  | _ + 1, [], visited, region, ncounts => (visited, region, ncounts)
  | fuel + 1, idx :: stack, visited, region, ncounts =>
    let st := neighborOffsets.foldl (fun (st : Nat × List Nat × List Nat × List (Nat × Nat)) d =>
      let (visited, stack, region, ncounts) := st
      let nx : Int := Int.ofNat (idx % width) + d.1
      let ny : Int := Int.ofNat (idx / width) + d.2
      if inBounds width height nx ny then
        let nidx := ny.toNat * width + nx.toNat
        let nlabel := aget labels nidx 0
        if nlabel = targetLabel then
          if bitGet visited nidx = 1 then st
          else (bitSet1 visited nidx, nidx :: stack, region ++ [nidx], ncounts)
        else (visited, stack, region, incAssoc ncounts nlabel)
      else st) (visited, stack, region, ncounts)
    rsrFlood width height labels targetLabel fuel st.2.1 st.1 st.2.2.1 st.2.2.2

/-- Mirror of `remove_small_regions` (`embroidery.rs:546-633`): flood every
unvisited region; regions smaller than `min_region_size` are relabelled to
the best neighbour (most shared boundary, ties by closer colour,
`max_by` keeps the last maximum of the tally order). -/
def removeSmallRegions (distF : Lab3 → Lab3 → FVal) (labels : Array Nat)
    (width height : Nat) (palette : List Lab3) (minRegionSize : Nat) : Array Nat :=
  let n := width * height
  ((List.range n).foldl (fun (st : Array Nat × Nat) start =>
    let (labels, visited) := st
    if bitGet visited start = 1 then st
    else
      let target := aget labels start 0
      let fl := rsrFlood width height labels target (n + 1) [start]
        (bitSet1 visited start) [start] []
      let (visited, region, ncounts) := fl
      if region.length < minRegionSize ∧ ncounts ≠ [] then
        let best := maxByLast (rsrCmp distF (palette.get? target) palette) ncounts
        match best with
        | some kv => (region.foldl (fun ls idx => aset ls idx kv.1) labels, visited)
        | none => (labels, visited)
      else (labels, visited)) (labels, 0)).1

/-- The fixed marker alphabet of `process_pattern` (`embroidery.rs:786-789`). -/
def markers : List String :=
  ["S", "O", "T", "*", "D", "X", "+", "#", "%", "@", "A", "B", "C", "E", "H",
   "K", "M", "N", "P", "R", "U", "V", "W", "Y", "Z", "0", "1", "2", "3", "4"]

/-- The non-`"Fabric"` stitches (the comparison is exact string equality,
as in `embroidery.rs:832/852`). -/
def nonFabric (stitches : List Stitch) : List Stitch :=
  stitches.filter (fun s => s.dmc_code ≠ "Fabric")

/-- Number of stitches carrying `code`. -/
def codeCount (stitches : List Stitch) (code : String) : Nat :=
  (stitches.filter (fun s => s.dmc_code = code)).length

/-- `total_stitches`: the number of non-fabric stitches
(`embroidery.rs:852`). -/
def totalNonFabric (stitches : List Stitch) : Nat := (nonFabric stitches).length

/-- The distinct non-fabric codes in first-occurrence order: the key set of
the legend `HashMap`. -/
def nonFabricCodes (stitches : List Stitch) : List String :=
  ((nonFabric stitches).map (fun s => s.dmc_code)).dedup

/-- The legend name lookup (`embroidery.rs:843-849`): the first
`dmc_matches` entry with this code, else `"Quantized Color"`. -/
def legendNameFor (dmcMatches : List DmcThread) (code : String) : String :=
  match dmcMatches.find? (fun d => d.code = code) with
  | some d => d.name
  | none => "Quantized Color"

/-- The hex recorded for a legend code: the hex of the first stitch with
that code (captured by `or_insert` at entry creation). -/
def firstHexFor (stitches : List Stitch) (code : String) : String :=
  match stitches.find? (fun s => s.dmc_code = code) with
  | some s => s.hex
  | none => ""

/-- The legend sort comparator `|a, b| b.stitch_count.cmp(&a.stitch_count)`
(count descending; no further key). -/
def legendCmp (a b : LegendEntry) : Ordering := compare b.stitch_count a.stitch_count

/-- One legend entry of `process_pattern` for code `code`: per-code count,
first-seen hex, name from the `dmc_matches` lookup, coverage over the
non-fabric total. -/
def legendEntryFor (stitches : List Stitch) (dmcMatches : List DmcThread)
    (code : String) : LegendEntry :=
  { dmc_code := code,
    name := legendNameFor dmcMatches code,
    hex := firstHexFor stitches code,
    stitch_count := codeCount stitches code,
    coverage := fdiv (fv (codeCount stitches code)) (fv (totalNonFabric stitches)) }

/-- The legend construction of `process_pattern` (`embroidery.rs:830-866`):
group the non-fabric stitches by code in a `HashMap` (per-code count,
first-seen hex, name from the `dmc_matches` lookup), emit the entries in
the map's iteration order — the explicit `order` parameter, a permutation
of the distinct codes — and stable-sort by count descending. -/
def buildLegend (order : List String) (stitches : List Stitch)
    (dmcMatches : List DmcThread) : List LegendEntry :=
  stableSortBy legendCmp (order.map (legendEntryFor stitches dmcMatches))

/-- The stitch construction of `process_pattern` (`embroidery.rs:791-827`):
one stitch per cell; a cell whose mask byte is 0 becomes a `"Fabric"`
stitch with empty marker and white hex, every other cell carries its
cluster's DMC code (or a synthetic `RAW-<n>` code), marker
`markers[label % markers.len()]`, and the catalogue or cluster hex. -/
def buildStitches (config : ProcessingConfig) (mask : Option (List Nat))
    (labels : Array Nat) (dmcMatches : List DmcThread)
    (paletteHex : List String) (width n : Nat) : List Stitch :=
  (List.range n).map (fun i =>
    let x := i % width
    let y := i / width
    let label := aget labels i 0
    let isFabric := match mask with
      | some m => m.getD i 0 == 0
      | none => false
    if isFabric then
      { x := x, y := y, dmc_code := "Fabric", marker := "", hex := "#FFFFFF" }
    else
      let dmc := dmcMatches.getD label defaultThread
      { x := x, y := y,
        dmc_code := if config.use_dmc_palette then dmc.code
          else "RAW-" ++ toString (label + 1),
        marker := markers.getD (label % markers.length) "",
        hex := if config.use_dmc_palette then dmc.hex
          else paletteHex.getD label "" })

/-- Per-cluster running sums of the final palette recomputation. -/
structure PSum where
  sl : FVal
  sa : FVal
  sb : FVal
  cnt : Nat
deriving Repr

/-- Mirror of `process_pattern` (`embroidery.rs:636-881`) from the LAB
pixel buffer onward (decoding and the LAB conversion itself are outside
the model; `pixels` is the converted buffer, of length `width * height`).
`ops` carries the floating-point colour subroutines and `legendOrder` the
iteration order of the legend `HashMap` (see `buildLegend`). -/
def processPatternCore (ops : ColorOps) (legendOrder : List String)
    (pixels : List Lab3) (width height : Nat) (config : ProcessingConfig)
    (mask : Option (List Nat)) : PatternResult :=
  let n := width * height
  let detailBias := fclamp (fsub (fv 1) config.simplify_amount) (fv 0) (fv 1)
  let colorBias := fclamp (fdiv (fsub (fv config.color_count) (fv 2)) (fv 62)) (fv 0) (fv 1)
  let qualityBias := fclamp (fmul (fadd detailBias colorBias) ⟨1, 2⟩) (fv 0) (fv 1)
  let maxTrain := froundNat (fadd (fv 8000) (fmul (fv 42000) qualityBias))
  let stride := max (n / max maxTrain 1) 1
  let training0 := match mask with
    | some m => stepBy stride ((pixels.zip m).filterMap
        (fun pm => if pm.2 > 0 then some pm.1 else none))
    | none => stepBy stride pixels
  let training := if training0.isEmpty then stepBy stride pixels else training0
  let k := effectiveK config.color_count
  let maxIterations := max (froundNat (fadd (fadd (fv 10) (fmul qualityBias (fv 10)))
    (fmul (fclamp config.smoothing_amount (fv 0) (fv 1)) (fv 4)))) 8
  let paletteLab := (kmeansQuantize ops.distF training k maxIterations).1
  let labelsA := (pixels.map (nearestLabIdx ops.distF paletteLab)).toArray
  let labels := if config.min_region_size > 1 then
      removeSmallRegions ops.distF labelsA width height paletteLab config.min_region_size
    else labelsA
  let sums := (pixels.zip labels.toList).foldl
    (fun ss pl => updateNth (fun s => ⟨fadd s.sl pl.1.l, fadd s.sa pl.1.a,
      fadd s.sb pl.1.b, s.cnt + 1⟩) ss pl.2)
    (List.replicate k (⟨fv 0, fv 0, fv 0, 0⟩ : PSum))
  let finalPaletteLab := sums.map (fun s =>
    if s.cnt > 0 then
      (⟨fdiv s.sl (fv s.cnt), fdiv s.sa (fv s.cnt), fdiv s.sb (fv s.cnt)⟩ : Lab3)
    else ⟨fv 50, fv 0, fv 0⟩)
  let paletteHex := finalPaletteLab.map ops.labToHex
  let dmcMatches := finalPaletteLab.map ops.findClosest
  let dmcPaletteHex := dmcMatches.map (fun t => t.hex)
  let colorMappings := (paletteHex.zip dmcMatches).map (fun ph =>
    { original_hex := ph.1, mapped_hex := ph.2.hex,
      dmc := ⟨ph.2.code, ph.2.name, ph.2.hex⟩ })
  let stitches := buildStitches config mask labels dmcMatches paletteHex width n
  { width := width, height := height, stitches := stitches,
    palette := paletteHex, dmc_palette := dmcPaletteHex,
    legend := buildLegend legendOrder stitches dmcMatches,
    color_mappings := colorMappings,
    total_stitches := totalNonFabric stitches }

/-! ## Stage 4: component analysis and global region merger (`stage4.rs`) -/

/-- Mirror of `Stage4Config` (`f32` knobs modelled exactly). -/
structure Stage4Config where
  target_region_count : Nat
  min_region_area : Nat
  simplify_epsilon : FVal
  smoothing_strength : FVal
  smoothing_passes : Nat
  max_merge_passes : Nat
deriving Repr

/-- Mirror of `Stage4FallbackReason`. -/
inductive Stage4FallbackReason where
  | noStitches
  | noConnectedRegions
  | targetExceedsFeasible
  | mergeConvergenceLimit
  | minAreaConflict
deriving DecidableEq, Repr

/-- Mirror of `Component` (`stage4.rs:178-191`); the `f64` centroid sums
are modelled exactly. -/
structure Component where
  id : Nat
  label : Nat
  area : Nat
  min_x : Nat
  min_y : Nat
  max_x : Nat
  max_y : Nat
  sum_x : FVal
  sum_y : FVal
  pixels : List Nat
  neighbors : List (Nat × Nat)
deriving DecidableEq, Repr

/-- Mirror of `ComponentAnalysis`. -/
structure ComponentAnalysis where
  components : List Component
  component_grid : Array Int
deriving Repr

/-- State of one component BFS of `analyze_components`
(`stage4.rs:622-703`). -/
structure CompBfsState where
  visited : Nat
  grid : Array Int
  queue : List Nat
  pixels : List Nat
  mnx : Nat
  mny : Nat
  mxx : Nat
  mxy : Nat
  sx : FVal
  sy : FVal
deriving Repr

/-- Enqueue candidate `n` if `!visited[n] && labels[n] == label`. -/
def compTry (labels : Array Int) (label : Int) (s : CompBfsState) (n : Nat) :
    CompBfsState :=
  if bitGet s.visited n ≠ 1 ∧ aget labels n (-1) = label then
    { s with visited := bitSet1 s.visited n, queue := s.queue ++ [n] }
  else s

/-- Process one popped cell: the redundant `labels[idx] != label` guard of
the source, the grid write, the bookkeeping, and the four neighbour checks
in the source's order (left, right, up, down). -/
def compPop (width height : Nat) (labels : Array Int) (label : Int)
    (compId : Nat) (s : CompBfsState) (idx : Nat) : CompBfsState :=
  if aget labels idx (-1) ≠ label then s
  else
    let x := idx % width
    let y := idx / width
    let s := { s with
      grid := aset s.grid idx (Int.ofNat compId),
      pixels := s.pixels ++ [idx],
      mnx := min s.mnx x, mny := min s.mny y,
      mxx := max s.mxx x, mxy := max s.mxy y,
      sx := fadd s.sx ⟨2 * x + 1, 2⟩, sy := fadd s.sy ⟨2 * y + 1, 2⟩ }
    let s := if x > 0 then compTry labels label s (idx - 1) else s
    let s := if x + 1 < width then compTry labels label s (idx + 1) else s
    let s := if y > 0 then compTry labels label s (idx - width) else s
    if y + 1 < height then compTry labels label s (idx + width) else s

/-- The FIFO BFS loop of one component. -/
def compLoop (width height : Nat) (labels : Array Int) (label : Int)
    (compId : Nat) : Nat → CompBfsState → CompBfsState
  | 0, s => s
  | fuel + 1, s =>
    match s.queue with
    | [] => s
    | idx :: rest =>
      compLoop width height labels label compId fuel
        (compPop width height labels label compId { s with queue := rest } idx)

/-- One step of the row-major scan for unvisited starts
(`stage4.rs:622-703`): skip visited cells and `-1` labels, otherwise flood
a new component and append it when its pixel list is nonempty.  State:
(visited bitset, component grid, components so far). -/
def analyzeStep (width height : Nat) (labels : Array Int)
    (st : Nat × Array Int × List Component) (start : Nat) :
    Nat × Array Int × List Component :=
  let (visited, grid, comps) := st
  if bitGet visited start = 1 ∨ aget labels start (-1) < 0 then st
  else
    let label := aget labels start (-1)
    let compId := comps.length
    let s0 : CompBfsState :=
      ⟨bitSet1 visited start, grid, [start], [], width, height, 0, 0, fv 0, fv 0⟩
    let s := compLoop width height labels label compId (width * height + 1) s0
    if s.pixels.isEmpty then (s.visited, s.grid, comps)
    else
      (s.visited, s.grid, comps ++ [⟨compId, label.toNat, s.pixels.length,
        s.mnx, s.mny, s.mxx, s.mxy, s.sx, s.sy, s.pixels, []⟩])

/-- Increment the tally of `key` in slot `i` of the adjacency table. -/
def incAdj (adj : Array (List (Nat × Nat))) (i key : Nat) :
    Array (List (Nat × Nat)) :=
  aset adj i (incAssoc (aget adj i []) key)

/-- The adjacency sweep of `analyze_components` (`stage4.rs:705-729`):
each horizontal and vertical boundary between different components bumps
both directed counts. -/
def adjacencySweep (width height : Nat) (grid : Array Int) (ncomps : Nat) :
    Array (List (Nat × Nat)) :=
  (List.range (width * height)).foldl (fun adj idx =>
    let x := idx % width
    let y := idx / width
    let a := aget grid idx (-1)
    if a < 0 then adj
    else
      let adj := if x + 1 < width then
          let b := aget grid (idx + 1) (-1)
          if b ≥ 0 ∧ a ≠ b then incAdj (incAdj adj a.toNat b.toNat) b.toNat a.toNat
          else adj
        else adj
      if y + 1 < height then
        let b := aget grid (idx + width) (-1)
        if b ≥ 0 ∧ a ≠ b then incAdj (incAdj adj a.toNat b.toNat) b.toNat a.toNat
        else adj
      else adj) (Array.mkArray ncomps [])

/-- Attach each component's neighbour list, sorted by neighbour id
ascending (`stage4.rs:731-735`). -/
def attachNeighbors : List Component → List (List (Nat × Nat)) → List Component
  | [], _ => []
  | c :: cs, [] => c :: cs
  | c :: cs, nb :: nbs =>
    { c with neighbors := stableSortBy (fun a b => compare a.1 b.1) nb } ::
      attachNeighbors cs nbs

/-- Mirror of `analyze_components` (`stage4.rs:615-741`). -/
def analyzeComponents (labels : Array Int) (width height : Nat) :
    ComponentAnalysis :=
  let init : Nat × Array Int × List Component :=
    (0, Array.mkArray (width * height) (-1), [])
  let r := (List.range (width * height)).foldl (analyzeStep width height labels) init
  let comps := r.2.2
  let adj := adjacencySweep width height r.2.1 comps.length
  ⟨attachNeighbors comps adj.toList, r.2.1⟩

/-- `merge_priority` (`stage4.rs:563-571`): the deterministic candidate
key `(area, min_y, min_x, label, id)`, compared lexicographically. -/
def mergePriorityCmp (a b : Component) : Ordering :=
  (compare a.area b.area).then ((compare a.min_y b.min_y).then
    ((compare a.min_x b.min_x).then ((compare a.label b.label).then
      (compare a.id b.id))))

/-- One candidate row of `choose_merge_target`. -/
structure MergeOption where
  dest_label : Nat
  boundary : Nat
  dist : FVal
  area : Nat
  min_y : Nat
  min_x : Nat
  id : Nat
deriving Repr

/-- The sort of `choose_merge_target` (`stage4.rs:604-611`): boundary
descending, colour distance ascending, area descending, then
`(min_y, min_x, id)` ascending. -/
def mergeOptionCmp (a b : MergeOption) : Ordering :=
  (compare b.boundary a.boundary).then ((fcmp a.dist b.dist).then
    ((compare b.area a.area).then ((compare a.min_y b.min_y).then
      ((compare a.min_x b.min_x).then (compare a.id b.id)))))

/-- Mirror of `choose_merge_target` (`stage4.rs:573-613`); the palette is
reduced to its LAB coordinates (the only `ColorMeta` field the function
reads) and `distF` stands for CIEDE2000. -/
def chooseMergeTarget (distF : Lab3 → Lab3 → FVal) (sourceId : Nat)
    (components : List Component) (selectedSources : List Nat)
    (palette : List Lab3) (allowSourceTarget : Bool) : Option Nat :=
  match components.get? sourceId with
  | none => none
  | some source =>
    let options := source.neighbors.filterMap (fun nb =>
      if ¬ allowSourceTarget ∧ selectedSources.contains nb.1 then none
      else
        match components.get? nb.1, palette.get? source.label with
        | some neighbor, some sourceMeta =>
          match palette.get? neighbor.label with
          | some neighborMeta =>
            some (⟨neighbor.label, nb.2, distF sourceMeta neighborMeta,
              neighbor.area, neighbor.min_y, neighbor.min_x, neighbor.id⟩ : MergeOption)
          | none => none
        | _, _ => none)
    ((stableSortBy mergeOptionCmp options).head?).map (fun c => c.dest_label)

/-- The post-loop fallback classification of `enforce_region_constraints`
(`stage4.rs:545-560`). -/
def enforceFinalize (labels : Array Int) (width height : Nat)
    (cfg : Stage4Config) (passes : Nat) :
    Array Int × Nat × Option Stage4FallbackReason :=
  let analysis := analyzeComponents labels width height
  let regionCount := analysis.components.length
  let target := max cfg.target_region_count 1
  if regionCount > target then (labels, passes, some .mergeConvergenceLimit)
  else if regionCount < target then (labels, passes, some .targetExceedsFeasible)
  else if analysis.components.any (fun c => c.area < max cfg.min_region_area 1) then
    (labels, passes, some .minAreaConflict)
  else (labels, passes, none)

/-- The merge-pass loop of `enforce_region_constraints`
(`stage4.rs:449-543`).  The middle component of the result is
instrumentation absent from the source: the number of loop iterations that
applied at least one relabelling ("merge passes"). -/
def enforceLoop (distF : Lab3 → Lab3 → FVal) (palette : List Lab3)
    (width height : Nat) (cfg : Stage4Config) :
    Nat → Array Int → Nat → Array Int × Nat × Option Stage4FallbackReason
  | 0, labels, passes => enforceFinalize labels width height cfg passes
  | fuel + 1, labels, passes =>
    let analysis := analyzeComponents labels width height
    let regionCount := analysis.components.length
    let target := max cfg.target_region_count 1
    let smallCount := (analysis.components.filter
      (fun c => c.area < max cfg.min_region_area 1)).length
    if regionCount ≤ target ∧ smallCount = 0 then (labels, passes, none)
    else if regionCount = 0 then (labels, passes, some .noConnectedRegions)
    else
      let mergesNeededForTarget := regionCount - target
      let candidates := stableSortBy (fun a b =>
        match analysis.components.get? a, analysis.components.get? b with
        | some ca, some cb => mergePriorityCmp ca cb
        | _, _ => Ordering.eq) (analysis.components.map (fun c => c.id))
      let smalls := candidates.filter (fun cid =>
        match analysis.components.get? cid with
        | some c => c.area < max cfg.min_region_area 1
        | none => false)
      let extras := (candidates.filter (fun cid => ¬ smalls.contains cid)).take
        (mergesNeededForTarget - smalls.length)
      let selected := smalls ++ extras
      if selected.isEmpty then enforceFinalize labels width height cfg passes
      else
        let relabels := selected.filterMap (fun sourceId =>
          match chooseMergeTarget distF sourceId analysis.components selected
            palette false with
          | some dl => some (sourceId, (dl : Int))
          | none =>
            match chooseMergeTarget distF sourceId analysis.components selected
              palette true with
            | some dl => some (sourceId, (dl : Int))
            | none => none)
        if relabels.isEmpty then enforceFinalize labels width height cfg passes
        else
          let labels := relabels.foldl (fun ls rl =>
            match analysis.components.get? rl.1 with
            | some c => c.pixels.foldl (fun ls2 p => aset ls2 p rl.2) ls
            | none => ls) labels
          enforceLoop distF palette width height cfg fuel labels (passes + 1)

/-- Mirror of `enforce_region_constraints` (`stage4.rs:440-561`), returning
(final labels, number of merge passes applied, fallback reason). -/
def enforceRegionConstraints (distF : Lab3 → Lab3 → FVal) (palette : List Lab3)
    (labels : Array Int) (width height : Nat) (cfg : Stage4Config) :
    Array Int × Nat × Option Stage4FallbackReason :=
  enforceLoop distF palette width height cfg cfg.max_merge_passes labels 0

/-! ## Region cache (`regions.rs`) -/

/-- `REGION_CACHE_LIMIT` (`regions.rs:51`). -/
def regionCacheLimit : Nat := 12

/-- Mirror of `RegionCache`: the `HashMap` is an association list (only
lookup/insert/remove by key are performed on it); `order` is the
`VecDeque` of insertion order.  Keys are the 64-bit FNV payload hashes,
modelled as `Nat`; cached values are abstract (`α`). -/
structure RegionCacheState (α : Type) where
  by_hash : List (Nat × α)
  order : List Nat
deriving Repr

def lookupAssoc {α : Type} : List (Nat × α) → Nat → Option α
  | [], _ => none
  | (k, v) :: rest, key => if k = key then some v else lookupAssoc rest key

/-- `HashMap::insert`: replace in place or append. -/
def insertAssoc {α : Type} : List (Nat × α) → Nat → α → List (Nat × α)
  | [], key, v => [(key, v)]
  | (k, w) :: rest, key, v =>
    if k = key then (k, v) :: rest else (k, w) :: insertAssoc rest key v

/-- `HashMap::remove` by key. -/
def removeAssoc {α : Type} : List (Nat × α) → Nat → List (Nat × α)
  | [], _ => []
  | (k, w) :: rest, key => if k = key then rest else (k, w) :: removeAssoc rest key

/-- The eviction loop of `extract_regions_cached` (`regions.rs:79-83`):
`while order.len() > REGION_CACHE_LIMIT`, pop the front key and remove its
entry. -/
def evictLoop {α : Type} : List (Nat × α) → List Nat → List (Nat × α) × List Nat
  | byHash, [] => (byHash, [])
  | byHash, k :: rest =>
    if (k :: rest).length > regionCacheLimit then evictLoop (removeAssoc byHash k) rest
    else (byHash, k :: rest)

/-- One sequential call of `extract_regions_cached` (`regions.rs:61-87`)
at payload hash `h` whose freshly computed region list is `computed`: hit
returns the cached value unchanged; miss records insertion order, inserts,
and evicts down to capacity.  Returns (result, next cache state). -/
def extractRegionsCachedStep {α : Type} (s : RegionCacheState α) (h : Nat)
    (computed : α) : α × RegionCacheState α :=
  match lookupAssoc s.by_hash h with
  | some v => (v, s)
  | none =>
    let order := if (lookupAssoc s.by_hash h).isNone then s.order ++ [h] else s.order
    let byHash := insertAssoc s.by_hash h computed
    let r := evictLoop byHash order
    (computed, ⟨r.1, r.2⟩)

/-- The cache state after a sequence of `extract_regions_cached` calls
(pairs of payload hash and the value computation would produce), starting
from the empty cache. -/
def runRegionCache {α : Type} (accesses : List (Nat × α)) : RegionCacheState α :=
  accesses.foldl (fun s a => (extractRegionsCachedStep s a.1 a.2).2) ⟨[], []⟩

/-! ## Pipeline cache control flow (`image_processor.rs`) -/

/-- The cache-handling skeleton of `process_image_pipeline`
(`image_processor.rs:94-98` and `233-234`): `read_cache(app, &cache_key)?`
propagates a read/parse error with `?`; a hit returns the cached value; a
miss runs the computation (itself fallible: decode and size checks), then
`write_cache(...)?` propagates a write error before the result is
returned.  The decode/quantize/contour middle of the function is abstracted
into `compute`; cached values are abstract (`α` stands for `RegionData`). -/
def processImagePipelineCacheFlow {α : Type}
    (readRes : Except String (Option α)) (compute : Except String α)
    (writeRes : α → Except String Unit) : Except String α :=
  match readRes with
  | Except.error e => Except.error e
  | Except.ok (some cached) => Except.ok cached
  | Except.ok none =>
    match compute with
    | Except.error e => Except.error e
    | Except.ok result =>
      match writeRes result with
      | Except.error e => Except.error e
      | Except.ok _ => Except.ok result

/-! ## Concrete instances used by the claims

The floating-point colour data below are concrete *representative*
rationals: their exact values never matter to the statements, only the
comparisons the control flow makes on them (distances against squared
tolerances, gradients against edge stops, luminances against each other),
and those comparisons agree with the true `f32` values. -/

/-- Bitset with cells `0 ≤ i < n` satisfying `f` set. -/
def maskOfFn (n : Nat) (f : Nat → Bool) : Nat :=
  (List.range n).foldl (fun m i => if f i then bitSet1 m i else m) 0

/-- Representative LAB of pure red `rgb(255,0,0)` (true value ≈
`(53.24, 80.09, 67.20)`). -/
def redLab : Lab3 := ⟨fv 53, fv 80, fv 67⟩

/-- Representative LAB of white `rgb(255,255,255)` (true value
`(100, 0, 0)`). -/
def whiteLab : Lab3 := ⟨fv 100, fv 0, fv 0⟩

/-- Cell `i` of the 10×10 scenario image lies in the 5×5 top-left red
square. -/
def isRed (i : Nat) : Bool := i % 10 < 5 && i / 10 < 5

/-- LAB buffer of the spec's 10×10 magic-wand scenario image: a 5×5 red
square at the top-left, white elsewhere. -/
def redSquareLabs : Array Lab3 :=
  Array.ofFn (n := 100) fun i => if isRed i.val then redLab else whiteLab

/-- Representative gradient magnitude `√s` for the squared centred
differences arising in the scenario image: `s = 0 ↦ 0`,
`s = 47² = 2209 ↦ 47`, `s = 2·47² = 4418 ↦ 66.5` (true value ≈ 66.47) —
every value is `≤ 100`, as the true `f32` gradients are. -/
def gradRep (s : FVal) : FVal :=
  if s = fv 0 then fv 0 else if s = fv 2209 then fv 47 else ⟨133, 2⟩

/-- Gradient map of the scenario workspace, computed from the LAB buffer
by the centred-difference scheme of `init_workspace` (`selection.rs:66-82`)
with `gradRep` standing for the final `sqrt`; border cells get 0. -/
def redSquareGradient : Array FVal :=
  Array.ofFn (n := 100) fun i =>
    let x := i.val % 10
    let y := i.val / 10
    if x = 0 ∨ x = 9 ∨ y = 0 ∨ y = 9 then fv 0
    else
      let dx := fsub (aget redSquareLabs (y * 10 + x + 1) whiteLab).l
        (aget redSquareLabs (y * 10 + x - 1) whiteLab).l
      let dy := fsub (aget redSquareLabs ((y + 1) * 10 + x) whiteLab).l
        (aget redSquareLabs ((y - 1) * 10 + x) whiteLab).l
      gradRep (fadd (fmul dx dx) (fmul dy dy))

/-- The scenario workspace. -/
def redSquareWorkspace : SelectionWorkspace :=
  ⟨"coord-test", 10, 10, redSquareLabs, redSquareGradient⟩

/-- The scenario request: seed `(2,2)`, tolerance 5, edge stop 100. -/
def wandScenarioParams : MagicWandParams := ⟨2, 2, fv 5, fv 100⟩

/-- The mask of exactly the 25 red pixels (what the claim asserts the wand
returns). -/
def redMask25 : Nat := maskOfFn 100 isRed

/-- The mask the wand actually returns: the red square minus its inner
corner `(4,4)` (cell 44), which the default majority-smoothing pass
clears. -/
def wandScenarioMask : Nat := maskOfFn 100 (fun i => isRed i && i != 44)

/-- A 10×10 mask holding a 4×4 block at `x, y ∈ {2..5}` (16 cells). -/
def blockMask16 : Nat :=
  maskOfFn 100 (fun i => 2 ≤ i % 10 && i % 10 ≤ 5 && 2 ≤ i / 10 && i / 10 ≤ 5)

/-- The refinement parameters `magic_wand_click` hard-codes. -/
def defaultRefinement : RefinementParams := ⟨16, 16, 1⟩

/-- The stitch list of the spec's scenario 1 (4-pixel strip
`[red, red, green, green]` with `color_count = 2`): two stitches of DMC
666 and two of DMC 699 — the two legend codes have equal counts. -/
def stripStitches : List Stitch :=
  [⟨0, 0, "666", "S", "#EC2130"⟩, ⟨1, 0, "666", "S", "#EC2130"⟩,
   ⟨2, 0, "699", "O", "#136C00"⟩, ⟨3, 0, "699", "O", "#136C00"⟩]

/-- The per-cluster DMC matches of that run (LAB coordinates
representative). -/
def stripMatches : List DmcThread :=
  [⟨"666", "Bright Red", "#EC2130", (236, 33, 48), ⟨fv 50, fv 63, fv 39⟩⟩,
   ⟨"699", "Green", "#136C00", (19, 108, 0), ⟨fv 39, fv (-45), fv 43⟩⟩]

/-- Colour subroutine stand-ins for the noninterference counterexample:
squared Euclidean LAB distance for CIEDE2000 (0 on equal colours, large on
distinct ones — the only facts the run consults), a luminance-threshold
hex conversion (the true sRGB conversion likewise maps the two cluster
means that arise, greys of L = 30 and L = 45, to distinct hex strings),
and a constant catalogue snap. -/
def c4Ops : ColorOps :=
  { distF := fun p q =>
      fadd (fadd (fmul (fsub p.l q.l) (fsub p.l q.l))
        (fmul (fsub p.a q.a) (fsub p.a q.a)))
        (fmul (fsub p.b q.b) (fsub p.b q.b)),
    labToHex := fun c => if flt c.l (fv 40) then "#1E1E1E" else "#2D2D2D",
    findClosest := fun _ => ⟨"310", "Black", "#000000", (0, 0, 0), defaultLab⟩ }

/-- Configuration of the noninterference counterexample: 2 colours, raw
(non-catalogue) palette, `min_region_size = 1`. -/
def c4Config : ProcessingConfig := ⟨2, false, ⟨3, 10⟩, fv 0, 1⟩

/-- The counterexample mask: pixel 0 in scope, pixel 1 out of scope. -/
def c4Mask : List Nat := [1, 0]

/-- 2×1 image A: black in-scope pixel, grey (L = 60) out-of-scope pixel. -/
def c4PixelsA : List Lab3 := [⟨fv 0, fv 0, fv 0⟩, ⟨fv 60, fv 0, fv 0⟩]

/-- 2×1 image B: identical in-scope pixel, different out-of-scope pixel
(L = 90). -/
def c4PixelsB : List Lab3 := [⟨fv 0, fv 0, fv 0⟩, ⟨fv 90, fv 0, fv 0⟩]

/-- The zero distance function (used where the merger run at hand never
consults distances, or consults them only on a single candidate). -/
def distZero : Lab3 → Lab3 → FVal := fun _ _ => fv 0

/-- Two-colour palette for the merger counterexample. -/
def c3Palette : List Lab3 := [⟨fv 0, fv 0, fv 0⟩, ⟨fv 100, fv 0, fv 0⟩]

/-- Merger configuration: target 1 region, minimum area 1, 8 passes. -/
def c3Config : Stage4Config := ⟨1, 1, fv 0, fv 0, 1, 8⟩

/-- The 2×1 label grid with two distinct single-pixel regions. -/
def c3Labels : Array Int := #[0, 1]

/-- Merger configuration for the zero-pass witness: target 1, minimum
area 1, 8 passes, on a 1×1 grid. -/
def c3WitnessLabels : Array Int := #[0]

instance {ε α : Type} [DecidableEq ε] [DecidableEq α] : DecidableEq (Except ε α) :=
  fun a b =>
    match a, b with
    | Except.error e, Except.error f =>
      if h : e = f then Decidable.isTrue (by rw [h])
      else Decidable.isFalse (by simp [h])
    | Except.ok x, Except.ok y =>
      if h : x = y then Decidable.isTrue (by rw [h])
      else Decidable.isFalse (by simp [h])
    | Except.error _, Except.ok _ => Decidable.isFalse (by simp)
    | Except.ok _, Except.error _ => Decidable.isFalse (by simp)

/-- The cache invariant of C9: the `order` deque is duplicate-free, lists
exactly the keys of the map (as a permutation), and respects the capacity.
-/
def cacheInv {α : Type} (s : RegionCacheState α) : Prop :=
  List.Perm (s.by_hash.map Prod.fst) s.order ∧ s.order.Nodup ∧
  s.order.length ≤ regionCacheLimit

/-! ## Connectivity model for the selection post-process
Proof-layer definitions: four-connected adjacency and reachability over
the bitset grids, and the invariants of the BFS floods and scans of
`post_process_mask`. -/

/-! ### New definitions (to go in the definitions zone) -/

/-- Border test for cell `idx` of a `width × height` grid, as the hole-fill
BFS of `post_process_mask` computes it on every popped cell
(`x == 0 || x == width-1 || y == 0 || y == height-1`). -/

def onBorder (width height idx : Nat) : Bool :=
  decide (idx % width = 0) || decide (idx % width = width - 1) ||
  decide (idx / width = 0) || decide (idx / width = height - 1)

/-- The cell a neighbour offset `d` of `regionVisit` points to from `idx`. -/

def offTarget (width idx : Nat) (d : Int × Int) : Nat :=
  (Int.ofNat (idx / width) + d.2).toNat * width +
    (Int.ofNat (idx % width) + d.1).toNat

/-- Whether the neighbour offset `d` of `regionVisit` stays in bounds. -/

def offOk (width height idx : Nat) (d : Int × Int) : Bool :=
  inBounds width height (Int.ofNat (idx % width) + d.1)
    (Int.ofNat (idx / width) + d.2)

/-- Cell `b` is an in-bounds four-neighbour of cell `a`, via one of the
offsets that `regionVisit` enumerates. -/

def cellAdj (width height a b : Nat) : Prop :=
  ∃ d ∈ neighborOffsets, offOk width height a d = true ∧
    b = offTarget width a d

/-- One step of four-connected reachability through cells of value `v`. -/

def cellStep (width height g v a b : Nat) : Prop :=
  cellAdj width height a b ∧ bitGet g b = v

/-- Four-connected reachability from `i` through cells of value `v` of the
grid `g` (the start cell's own value is not constrained). -/

def Reach (width height g v i j : Nat) : Prop :=
  Relation.ReflTransGen (cellStep width height g v) i j

/-- The four-connected `1`-component of `i` in `g` is enumerated by a
duplicate-free list of at least `minA` cells. -/

def CompBig (width height g i minA : Nat) : Prop :=
  ∃ R : List Nat, R.Nodup ∧ (∀ j, j ∈ R ↔ Reach width height g 1 i j) ∧
    minA ≤ R.length

/-- The four-connected `0`-component of `i` in `g` is enumerated by a
duplicate-free list that reaches the image border or holds at least `minA`
cells: such a component is left alone by the hole-fill pass. -/

def HoleOk (width height g i minA : Nat) : Prop :=
  ∃ R : List Nat, R.Nodup ∧ (∀ j, j ∈ R ↔ Reach width height g 0 i j) ∧
    ((∃ t ∈ R, onBorder width height t = true) ∨ minA ≤ R.length)

/-- Invariant of the region-collecting BFS of `post_process_mask`, relative
to source `i`, grid `g`, cell value `v` and the visited set `V` as it was
when the flood started. -/

def FloodInv (width height g v i V : Nat) (queue : List Nat) (visited : Nat)
    (region : List Nat) : Prop :=
  region.Nodup ∧ queue.Nodup ∧ (∀ j, j ∈ queue → j ∈ region) ∧
  (∀ j, j ∈ region → Reach width height g v i j) ∧
  (∀ j, bitGet visited j = 1 ↔ (bitGet V j = 1 ∨ j ∈ region)) ∧
  (∀ j, j ∈ region → j ∈ queue ∨
    ∀ k, cellStep width height g v j k → k ∈ region)

/-- Invariant of the `touches_edge` flag of the hole-fill BFS: it is set
exactly when some already-popped region cell lies on the border. -/

def TouchInv (width height : Nat) (queue region : List Nat)
    (touches : Bool) : Prop :=
  (touches = true → ∃ j ∈ region, onBorder width height j = true) ∧
  (∀ j, j ∈ region → j ∉ queue → onBorder width height j = true →
    touches = true)

/-! ### Flood-fill machinery -/

/-- Mid-fold state of one BFS iteration at popped cell `root`: queue and
region have received the same new cells, each a `v`-valued in-bounds
neighbour of `root`, unvisited before its insertion. -/

def FloodMid (width height g v V root : Nat) (rest region0 : List Nat)
    (st : Nat × List Nat × List Nat) : Prop :=
  ∃ new : List Nat,
    st.2.1 = rest ++ new ∧ st.2.2 = region0 ++ new ∧
    (region0 ++ new).Nodup ∧ (rest ++ new).Nodup ∧
    (∀ j, j ∈ new → cellStep width height g v root j) ∧
    (∀ j, bitGet st.1 j = 1 ↔ (bitGet V j = 1 ∨ j ∈ region0 ++ new))

/-! ### Pass fixpoint lemmas -/

/-- Invariant of the island scan over a mask `m` all of whose 1-components
are large: the mask never changes and the visited set holds whole
1-components of `m`. -/

def IslandFixInv (width height m : Nat) (st : Nat × Nat) : Prop :=
  st.1 = m ∧
  (∀ j, bitGet st.2 j = 1 → j < width * height ∧ bitGet m j = 1 ∧
    ∀ t, Reach width height m 1 j t → bitGet st.2 t = 1)

/-- Invariant of the hole scan over a mask `m` all of whose 0-components
touch the border or are large. -/

def HoleFixInv (width height m : Nat) (st : Nat × Nat) : Prop :=
  st.1 = m ∧
  (∀ j, bitGet st.2 j = 1 → j < width * height ∧ bitGet m j = 0 ∧
    ∀ t, Reach width height m 0 j t → bitGet st.2 t = 1)

/-! ### Island pass postcondition -/

/-- Invariant of the island-removal scan: visited surviving cells lie in
large, fully-visited 1-components of the current mask. -/

def IslandScanInv (width height minIsland : Nat) (st : Nat × Nat) : Prop :=
  (∀ j, bitGet st.2 j = 1 → j < width * height) ∧
  (∀ j, bitGet st.2 j = 1 → bitGet st.1 j = 1 →
    (CompBig width height st.1 j minIsland ∧
     ∀ t, Reach width height st.1 1 j t → bitGet st.2 t = 1))

/-- Invariant of the hole-fill scan over the island-pass output `m1`:
`1`-cells only grow, filled cells route to an original `1`-cell, and
visited `0`-cells lie in fully-visited components that touch the border or
are large. -/

def HoleScanInv (width height holeFill m1 : Nat) (st : Nat × Nat) : Prop :=
  (∀ j, bitGet m1 j = 1 → bitGet st.1 j = 1) ∧
  (∀ j, bitGet st.1 j = 1 → bitGet m1 j = 1 ∨
    (j < width * height ∧ ∃ c, c < width * height ∧ bitGet m1 c = 1 ∧
      Reach width height st.1 1 j c)) ∧
  (∀ j, bitGet st.2 j = 1 → j < width * height) ∧
  (∀ j, bitGet st.2 j = 1 → bitGet st.1 j = 0 →
    (HoleOk width height st.1 j holeFill ∧
     ∀ t, Reach width height st.1 0 j t → bitGet st.2 t = 1))

/-! # Theorems -/

/-! ## Generic helper lemmas -/

theorem foldl_invariant {α β : Type} (g : β → α → β) (P : β → Prop)
    (hstep : ∀ st x, P st → P (g st x)) :
    ∀ (l : List α) (init : β), P init → P (l.foldl g init) := by
  intro l
  induction l with
  | nil => intro init h; exact h
  | cons x xs ih => intro init h; exact ih (g init x) (hstep init x h)

/-! ## C5 / C7 / C10: selection engine -/

/-- C5 (counterexample): on the 10×10 red-square workspace, seeded at
`(2,2)` with tolerance 5 and edge stop 100, `magic_wand_click` does not
return the 25-red-pixel mask: it returns the red square minus cell
`(4,4)` — a red pixel that ends up off — because the hard-coded majority
smoothing pass clears that inner corner. -/
theorem c5_counterexample :
    magicWandClick redSquareWorkspace "coord-test" wandScenarioParams =
      Except.ok wandScenarioMask ∧
    wandScenarioMask ≠ redMask25 ∧
    isRed 44 = true ∧
    bitGet wandScenarioMask 44 = 0 := by decide

/-- C5 (amended): on that workspace the wand returns exactly the 24 red
pixels other than `(4,4)`; in particular pixel `(0,0)` is on, the seed
pixel `(2,2)` is on, and pixel `(6,6)` is off. -/
theorem c5_magic_wand_scenario :
    magicWandClick redSquareWorkspace "coord-test" wandScenarioParams =
      Except.ok wandScenarioMask ∧
    bitGet wandScenarioMask 0 = 1 ∧
    bitGet wandScenarioMask 22 = 1 ∧
    bitGet wandScenarioMask 66 = 0 ∧
    (List.range 100).countP (fun i => bitGet wandScenarioMask i = 1) = 24 ∧
    (List.range 100).countP
      (fun i => bitGet wandScenarioMask i = 1 && ! isRed i) = 0 := by
  decide

/-- C7 (counterexample): `post_process_mask` is not idempotent.  On a
10×10 grid holding a 4×4 block (16 cells) with parameters
`min_island_area = 16`, `hole_fill_area = 16`, `smoothing_passes = 1`, the
first application keeps the block (area 16 ≥ 16) but the smoothing pass
shaves its four corners, leaving 12 cells; the second application's island
pass then erases the whole remnant (12 < 16). -/
theorem c7_counterexample :
    postProcessMask (postProcessMask blockMask16 10 10 defaultRefinement) 10 10
      defaultRefinement ≠
    postProcessMask blockMask16 10 10 defaultRefinement := by decide

/-! ## C1: legend ordering depends on hash-map iteration order -/

/-- C1 (code bug): the legend of `process_pattern` is emitted from a
`HashMap` and sorted only by `stitch_count` descending with a stable sort,
so entries with equal counts keep the map's iteration order — which Rust
leaves unspecified and randomizes per map.  On the spec's own scenario-1
stitches (counts `{2, 2}`), the two admissible iteration orders of the
code set produce different legends, so two runs on identical inputs need
not be byte-identical. -/
theorem c1_legend_order_dependence :
    List.Perm ["666", "699"] (nonFabricCodes stripStitches) ∧
    List.Perm ["699", "666"] (nonFabricCodes stripStitches) ∧
    buildLegend ["666", "699"] stripStitches stripMatches ≠
      buildLegend ["699", "666"] stripStitches stripMatches := by decide

/-! ## C6: the cluster-count clamp -/

/-- C6 (counterexample): the quantizer's cluster count is
`min(color_count, 30)` — there is no lower clamp to 1.  With
`color_count = 0` the effective count is 0, not ≥ 1, and the quantizer
returns an empty palette even on nonempty input. -/
theorem c6_counterexample :
    effectiveK 0 = 0 ∧
    ¬ 1 ≤ effectiveK 0 ∧
    kmeansQuantize distZero [defaultLab] (effectiveK 0) 8 = ([], []) := by decide

/-! ## C3: the merger on already-satisfied constraints -/

/-- C3 (counterexample): the claim's precondition has the inequality
backwards.  On a 2×1 grid with two distinct single-pixel regions, target
region count 1 and minimum area 1, the claim's hypotheses hold (target 1 ≤
2 regions, min area 1 ≤ smallest area 1), yet `enforce_region_constraints`
performs one merge pass and changes the labels (the code only exits with
zero passes when the region count is already ≤ the target). -/
theorem c3_counterexample :
    max c3Config.target_region_count 1 ≤
      (analyzeComponents c3Labels 2 1).components.length ∧
    (∀ c ∈ (analyzeComponents c3Labels 2 1).components,
      c3Config.min_region_area ≤ c.area) ∧
    enforceRegionConstraints distZero c3Palette c3Labels 2 1 c3Config =
      (#[1, 1], 1, none) ∧
    (#[1, 1] : Array Int) ≠ c3Labels := by decide

/-! ## C4: fabric preservation and its failed noninterference half -/

/-- C4 (counterexample): the non-fabric legend is *not* independent of the
colours of mask-0 pixels.  Two 2×1 runs that agree on every mask-1 pixel
and differ only in the single mask-0 pixel produce different legends: the
final per-cluster means are recomputed over *all* pixels
(`embroidery.rs:726`, no mask filter), so the out-of-mask pixel shifts the
cluster mean and hence the legend's colour.  (`["RAW-1"]` is the only
admissible legend iteration order of both runs, as the permutation
conjuncts record.) -/
theorem c4_counterexample :
    (∀ i, i < 2 → c4Mask.getD i 0 ≠ 0 →
      c4PixelsA.getD i defaultLab = c4PixelsB.getD i defaultLab) ∧
    List.Perm ["RAW-1"] (nonFabricCodes
      (processPatternCore c4Ops ["RAW-1"] c4PixelsA 2 1 c4Config (some c4Mask)).stitches) ∧
    List.Perm ["RAW-1"] (nonFabricCodes
      (processPatternCore c4Ops ["RAW-1"] c4PixelsB 2 1 c4Config (some c4Mask)).stitches) ∧
    (processPatternCore c4Ops ["RAW-1"] c4PixelsA 2 1 c4Config (some c4Mask)).legend ≠
    (processPatternCore c4Ops ["RAW-1"] c4PixelsB 2 1 c4Config (some c4Mask)).legend := by
  decide

/-! ## C8: cache failures are fatal, not warnings -/

/-- C8 (counterexample): when reading/parsing the cached pipeline result
fails, `process_image_pipeline` does *not* recompute — the `?` on
`read_cache` surfaces the error to the caller even though the computation
would succeed. -/
theorem c8_counterexample :
    processImagePipelineCacheFlow (α := Nat)
      (Except.error "Failed to parse cache file: truncated") (Except.ok 7)
      (fun _ => Except.ok ()) =
      Except.error "Failed to parse cache file: truncated" ∧
    processImagePipelineCacheFlow (α := Nat)
      (Except.error "Failed to parse cache file: truncated") (Except.ok 7)
      (fun _ => Except.ok ()) ≠ Except.ok 7 := by
  exact ⟨rfl, by decide⟩

/-- C8 (amended): a cache read/parse failure is fatal for the request:
`process_image_pipeline` propagates the error and never reaches the
recomputation, for every computation and writer. -/
theorem c8_cache_error_propagates {α : Type} (e : String)
    (compute : Except String α) (writeRes : α → Except String Unit) :
    processImagePipelineCacheFlow (Except.error e) compute writeRes =
      Except.error e := rfl

/-! ## Selection-engine lemmas for C7 and C10 -/

theorem regionVisit_region_len (width height grid v idx : Nat)
    (st : Nat × List Nat × List Nat) (d : Int × Int) :
    st.2.2.length ≤ (regionVisit width height grid v idx st d).2.2.length := by
  obtain ⟨visited, queue, region⟩ := st
  unfold regionVisit
  dsimp only
  split
  · split
    · simp
    · exact Nat.le_refl _
  · exact Nat.le_refl _

theorem regionVisitFold_region_len (width height grid v idx : Nat)
    (offs : List (Int × Int)) (st : Nat × List Nat × List Nat) :
    st.2.2.length ≤
      ((offs.foldl (regionVisit width height grid v idx) st)).2.2.length := by
  induction offs generalizing st with
  | nil => exact Nat.le_refl _
  | cons d ds ih =>
    exact Nat.le_trans (regionVisit_region_len width height grid v idx st d) (ih _)

theorem islandFlood_region_len (width height grid : Nat) :
    ∀ (fuel : Nat) (q : List Nat) (vis : Nat) (region : List Nat),
    region.length ≤ (islandFlood width height grid fuel q vis region).2.length := by
  intro fuel
  induction fuel with
  | zero => intro q vis region; exact Nat.le_refl _
  | succ n ih =>
    intro q vis region
    cases q with
    | nil => exact Nat.le_refl _
    | cons idx rest =>
      simp only [islandFlood]
      exact Nat.le_trans
        (regionVisitFold_region_len width height grid 1 idx neighborOffsets
          (vis, rest, region)) (ih _ _ _)

theorem holeFlood_region_len (width height grid : Nat) :
    ∀ (fuel : Nat) (q : List Nat) (vis : Nat) (region : List Nat) (t : Bool),
    region.length ≤ (holeFlood width height grid fuel q vis region t).2.1.length := by
  intro fuel
  induction fuel with
  | zero => intro q vis region t; exact Nat.le_refl _
  | succ n ih =>
    intro q vis region t
    cases q with
    | nil => exact Nat.le_refl _
    | cons idx rest =>
      simp only [holeFlood]
      exact Nat.le_trans
        (regionVisitFold_region_len width height grid 0 idx neighborOffsets
          (vis, rest, region)) (ih _ _ _ _)

theorem islandStep_fst (width height : Nat) (st : Nat × Nat) (i : Nat) :
    (islandStep width height 1 st i).1 = st.1 := by
  obtain ⟨result, visited⟩ := st
  unfold islandStep
  dsimp only
  split
  · split
    · next hlt =>
      exfalso
      have h1 := islandFlood_region_len width height result (width * height + 1)
        [i] (bitSet1 visited i) [i]
      simp at h1
      omega
    · rfl
  · rfl

theorem holeStep_fst (width height : Nat) (st : Nat × Nat) (i : Nat) :
    (holeStep width height 1 st i).1 = st.1 := by
  obtain ⟨result, visited⟩ := st
  unfold holeStep
  dsimp only
  split
  · split
    · next hlt =>
      exfalso
      have h1 := holeFlood_region_len width height result (width * height + 1)
        [i] (bitSet1 visited i) [i] false
      simp only [Bool.and_eq_true, decide_eq_true_eq] at hlt
      simp at h1
      omega
    · rfl
  · rfl

theorem islandPass_id (width height mi m : Nat) (hmi : mi ≤ 1) :
    islandPass width height mi m = m := by
  match mi, hmi with
  | 0, _ => simp [islandPass]
  | 1, _ =>
    simp only [islandPass, gt_iff_lt, Nat.zero_lt_one, if_pos]
    exact foldl_invariant (islandStep width height 1) (fun st => st.1 = m)
      (fun st x hp => (islandStep_fst width height st x).trans hp) _ (m, 0) rfl

theorem holePass_id (width height hf m : Nat) (hhf : hf ≤ 1) :
    holePass width height hf m = m := by
  match hf, hhf with
  | 0, _ => simp [holePass]
  | 1, _ =>
    simp only [holePass, gt_iff_lt, Nat.zero_lt_one, if_pos]
    exact foldl_invariant (holeStep width height 1) (fun st => st.1 = m)
      (fun st x hp => (holeStep_fst width height st x).trans hp) _ (m, 0) rfl

/-- C10: `magic_wand_click` never returns the raw flood mask: for every
stored workspace, matching id, and in-bounds seed, its result is exactly
`post_process_mask` applied to the edge-bounded flood mask with the
hard-coded parameters `min_island_area = 16`, `hole_fill_area = 16`,
`smoothing_passes = 1`. -/
theorem c10_wand_always_postprocessed (ws : SelectionWorkspace) (wsId : String)
    (p : MagicWandParams) (hid : ws.id = wsId) (hx : p.seed_x < ws.width)
    (hy : p.seed_y < ws.height) :
    magicWandClick ws wsId p =
      Except.ok (postProcessMask (magicWandFlood ws p) ws.width ws.height
        ⟨16, 16, 1⟩) := by
  unfold magicWandClick
  rw [if_neg (by simp [hid]), if_neg (by omega)]

/-- Witness for `c10_wand_always_postprocessed` at the red-square
workspace and scenario parameters. -/
theorem c10_wand_always_postprocessed_witness :
    redSquareWorkspace.id = "coord-test" ∧
    wandScenarioParams.seed_x < redSquareWorkspace.width ∧
    wandScenarioParams.seed_y < redSquareWorkspace.height ∧
    magicWandClick redSquareWorkspace "coord-test" wandScenarioParams =
      Except.ok (postProcessMask
        (magicWandFlood redSquareWorkspace wandScenarioParams)
        redSquareWorkspace.width redSquareWorkspace.height ⟨16, 16, 1⟩) :=
  ⟨rfl, by decide, by decide,
    c10_wand_always_postprocessed redSquareWorkspace "coord-test"
      wandScenarioParams rfl (by decide) (by decide)⟩

/-! ## Legend lemmas for C2 -/

theorem ordInsert_perm {α : Type} (cmp : α → α → Ordering) (e : α) (l : List α) :
    List.Perm (ordInsert cmp e l) (e :: l) := by
  induction l with
  | nil => exact List.Perm.refl _
  | cons x xs ih =>
    unfold ordInsert
    split
    · exact List.Perm.refl _
    · exact List.Perm.trans (List.Perm.cons x ih) (List.Perm.swap e x xs)

theorem stableSortBy_foldl_perm {α : Type} (cmp : α → α → Ordering) :
    ∀ (l acc : List α),
      List.Perm (l.foldl (fun a e => ordInsert cmp e a) acc) (acc ++ l) := by
  intro l
  induction l with
  | nil => intro acc; simp
  | cons x xs ih =>
    intro acc
    simp only [List.foldl_cons]
    refine List.Perm.trans (ih (ordInsert cmp x acc)) ?_
    refine List.Perm.trans (List.Perm.append_right xs (ordInsert_perm cmp x acc)) ?_
    exact List.perm_middle.symm

theorem stableSortBy_perm {α : Type} (cmp : α → α → Ordering) (l : List α) :
    List.Perm (stableSortBy cmp l) l := by
  have h := stableSortBy_foldl_perm cmp l []
  simpa [stableSortBy] using h

theorem countP_eq_one_of_nodup {α : Type} [DecidableEq α] {l : List α} {a : α}
    (hn : l.Nodup) (ha : a ∈ l) : l.countP (fun x => x = a) = 1 := by
  induction l with
  | nil => cases ha
  | cons x xs ih =>
    rw [List.countP_cons]
    rcases List.mem_cons.mp ha with h | h
    · subst h
      have hx : a ∉ xs := (List.nodup_cons.mp hn).1
      have h0 : xs.countP (fun y => y = a) = 0 := by
        rw [List.countP_eq_zero]
        intro b hb
        simp only [decide_eq_true_eq]
        intro hab; exact hx (hab ▸ hb)
      simp [h0]
    · have hn' := (List.nodup_cons.mp hn).2
      have hax : x ≠ a := by
        intro he; exact (List.nodup_cons.mp hn).1 (he ▸ h)
      rw [ih hn' h]
      simp [hax]

theorem sum_map_add {α : Type} (f g : α → Nat) (l : List α) :
    (l.map (fun x => f x + g x)).sum = (l.map f).sum + (l.map g).sum := by
  induction l with
  | nil => rfl
  | cons x xs ih =>
    simp only [List.map_cons, List.sum_cons, ih]
    omega

theorem sum_map_ite_eq {α : Type} [DecidableEq α] (a : α) (l : List α) :
    (l.map (fun c => if a = c then 1 else 0)).sum = l.countP (fun c => c = a) := by
  induction l with
  | nil => rfl
  | cons x xs ih =>
    rw [List.countP_cons]
    simp only [List.map_cons, List.sum_cons, ih, decide_eq_true_eq]
    by_cases h : a = x
    · simp [h]; omega
    · simp [h, Ne.symm h]

theorem nonFabricCodes_ne_fabric {stitches : List Stitch} {c : String}
    (hc : c ∈ nonFabricCodes stitches) : c ≠ "Fabric" := by
  unfold nonFabricCodes nonFabric at hc
  obtain ⟨s, hsmem, hsc⟩ := List.mem_map.mp (List.mem_dedup.mp hc)
  have h2 := (List.mem_filter.mp hsmem).2
  simp only [decide_eq_true_eq] at h2
  exact hsc ▸ h2

theorem mem_nonFabricCodes {stitches : List Stitch} {s : Stitch}
    (hs : s ∈ stitches) (hnf : s.dmc_code ≠ "Fabric") :
    s.dmc_code ∈ nonFabricCodes stitches := by
  unfold nonFabricCodes nonFabric
  apply List.mem_dedup.mpr
  refine List.mem_map.mpr ⟨s, ?_, rfl⟩
  refine List.mem_filter.mpr ⟨hs, ?_⟩
  simpa using hnf

theorem sum_codeCounts (l : List Stitch) (codes : List String)
    (hn : codes.Nodup) (hc : ∀ s ∈ l, s.dmc_code ∈ codes) :
    (codes.map (fun c => l.countP (fun s => s.dmc_code = c))).sum = l.length := by
  induction l with
  | nil => simp
  | cons s l ih =>
    have hc' : ∀ t ∈ l, t.dmc_code ∈ codes := fun t ht => hc t (List.mem_cons_of_mem s ht)
    have hs : s.dmc_code ∈ codes := hc s (List.mem_cons_self s l)
    have hmap : codes.map (fun c => (s :: l).countP (fun t => t.dmc_code = c)) =
        codes.map (fun c => l.countP (fun t => t.dmc_code = c) +
          if s.dmc_code = c then 1 else 0) := by
      apply List.map_congr_left
      intro c _
      rw [List.countP_cons]
      simp
    rw [hmap, sum_map_add, sum_map_ite_eq, countP_eq_one_of_nodup hn hs, ih hc']
    simp

theorem codeCount_eq_countP (stitches : List Stitch) (c : String) :
    codeCount stitches c = stitches.countP (fun s => s.dmc_code = c) := by
  rw [codeCount, List.countP_eq_length_filter]

theorem codeCount_eq_nonFabric_countP (stitches : List Stitch) (c : String)
    (hc : c ≠ "Fabric") :
    codeCount stitches c = (nonFabric stitches).countP (fun s => s.dmc_code = c) := by
  rw [codeCount_eq_countP, nonFabric, List.countP_filter]
  apply List.countP_congr
  intro s _
  by_cases h : s.dmc_code = c
  · simp [h, hc]
  · simp [h]

/-- C2: in the legend built by `process_pattern`, for every admissible
hash-map iteration order (a permutation of the distinct non-fabric codes),
every non-Fabric stitch's code appears as exactly one legend entry, and
the legend's stitch counts sum to the number of non-Fabric stitches. -/
theorem c2_legend_partition (stitches : List Stitch) (dmcMatches : List DmcThread)
    (order : List String)
    (horder : List.Perm order (nonFabricCodes stitches)) :
    (∀ s ∈ stitches, s.dmc_code ≠ "Fabric" →
      ((buildLegend order stitches dmcMatches).filter
        (fun e => e.dmc_code = s.dmc_code)).length = 1) ∧
    ((buildLegend order stitches dmcMatches).map
      (fun e => e.stitch_count)).sum = totalNonFabric stitches := by
  have hperm := stableSortBy_perm legendCmp
    (order.map (legendEntryFor stitches dmcMatches))
  constructor
  · intro s hs hnf
    rw [buildLegend, ← List.countP_eq_length_filter, hperm.countP_eq,
      List.countP_map]
    have hpt : ((fun e => decide (e.dmc_code = s.dmc_code)) ∘
        legendEntryFor stitches dmcMatches) = fun c => decide (c = s.dmc_code) := by
      funext c; rfl
    rw [hpt, horder.countP_eq]
    exact countP_eq_one_of_nodup (List.nodup_dedup _)
      (mem_nonFabricCodes hs hnf)
  · rw [buildLegend, (hperm.map (fun e => e.stitch_count)).sum_eq, List.map_map]
    have hpt : ((fun e => e.stitch_count) ∘ legendEntryFor stitches dmcMatches) =
        fun c => codeCount stitches c := by
      funext c; rfl
    rw [hpt]
    have hmap : order.map (fun c => codeCount stitches c) =
        order.map (fun c => (nonFabric stitches).countP (fun t => t.dmc_code = c)) := by
      apply List.map_congr_left
      intro c hco
      exact codeCount_eq_nonFabric_countP stitches c
        (nonFabricCodes_ne_fabric (horder.mem_iff.mp hco))
    rw [hmap,
      ((horder.map (fun c => (nonFabric stitches).countP
        (fun t => t.dmc_code = c)))).sum_eq]
    rw [totalNonFabric]
    apply sum_codeCounts
    · exact List.nodup_dedup _
    · intro t ht
      unfold nonFabricCodes
      exact List.mem_dedup.mpr (List.mem_map.mpr ⟨t, ht, rfl⟩)

/-- Witness for `c2_legend_partition` at the scenario-1 strip stitches. -/
theorem c2_legend_partition_witness :
    List.Perm ["666", "699"] (nonFabricCodes stripStitches) ∧
    ((∀ s ∈ stripStitches, s.dmc_code ≠ "Fabric" →
      ((buildLegend ["666", "699"] stripStitches stripMatches).filter
        (fun e => e.dmc_code = s.dmc_code)).length = 1) ∧
    ((buildLegend ["666", "699"] stripStitches stripMatches).map
      (fun e => e.stitch_count)).sum = totalNonFabric stripStitches) :=
  ⟨by decide, c2_legend_partition stripStitches stripMatches ["666", "699"] (by decide)⟩

/-! ## C4 amended: fabric preservation -/

theorem buildStitches_fabric (config : ProcessingConfig) (m : List Nat)
    (labels : Array Nat) (dmcMatches : List DmcThread) (paletteHex : List String)
    (width n i : Nat) (hm : m[i]? = some 0) (hi : i < n) :
    (buildStitches config (some m) labels dmcMatches paletteHex width n)[i]? =
      some ⟨i % width, i / width, "Fabric", "", "#FFFFFF"⟩ := by
  have hm0 : (m.getD i 0 == 0) = true := by
    rw [List.getD_eq_getElem?_getD]
    simp [hm]
  unfold buildStitches
  rw [List.getElem?_map, List.getElem?_range hi]
  simp only [Option.map_some', hm0]
  simp [hm0]

/-- C4 (amended): every pixel whose mask byte is 0 becomes a stitch with
code `"Fabric"`, empty marker and white hex, regardless of the colour
configuration, the pixel colours, and the colour subroutines.  (The
`1 ≤ color_count` hypothesis keeps the run inside the panic-free zone of
the Rust code: with `color_count = 0` and a nonempty image the original
`process_pattern` would index an empty `palette_sums` vector and panic.)
The noninterference half of the claim is refuted separately. -/
theorem c4_fabric_preservation (ops : ColorOps) (legendOrder : List String)
    (pixels : List Lab3) (width height : Nat) (config : ProcessingConfig)
    (m : List Nat) (i : Nat) (_hcc : 1 ≤ config.color_count)
    (hm : m[i]? = some 0) (hi : i < width * height) :
    (processPatternCore ops legendOrder pixels width height config
      (some m)).stitches[i]? =
      some ⟨i % width, i / width, "Fabric", "", "#FFFFFF"⟩ := by
  simp only [processPatternCore]
  exact buildStitches_fabric _ _ _ _ _ _ _ _ hm hi

/-- Witness for `c4_fabric_preservation` at the 2×1 counterexample run. -/
theorem c4_fabric_preservation_witness :
    1 ≤ c4Config.color_count ∧ c4Mask[1]? = some 0 ∧ 1 < 2 * 1 ∧
    (processPatternCore c4Ops ["RAW-1"] c4PixelsA 2 1 c4Config
      (some c4Mask)).stitches[1]? =
      some ⟨1 % 2, 1 / 2, "Fabric", "", "#FFFFFF"⟩ :=
  ⟨by decide, by decide, by decide,
    c4_fabric_preservation c4Ops ["RAW-1"] c4PixelsA 2 1 c4Config c4Mask 1
      (by decide) (by decide) (by decide)⟩

/-! ## C3 amended: zero passes when constraints already hold -/

theorem attachNeighbors_area_pos :
    ∀ (cs : List Component) (nbs : List (List (Nat × Nat))),
    (∀ c ∈ cs, 1 ≤ c.area) → ∀ c ∈ attachNeighbors cs nbs, 1 ≤ c.area := by
  intro cs
  induction cs with
  | nil => intro nbs h c hc; cases hc
  | cons c0 cs ih =>
    intro nbs h c hc
    cases nbs with
    | nil => exact h c hc
    | cons nb nbs =>
      rcases List.mem_cons.mp hc with h1 | h1
      · subst h1; exact h c0 (List.mem_cons_self _ _)
      · exact ih nbs (fun d hd => h d (List.mem_cons_of_mem _ hd)) c h1

theorem analyzeStep_area_pos (width height : Nat) (labels : Array Int)
    (st : Nat × Array Int × List Component) (start : Nat)
    (hP : ∀ c ∈ st.2.2, 1 ≤ c.area) :
    ∀ c ∈ (analyzeStep width height labels st start).2.2, 1 ≤ c.area := by
  obtain ⟨visited, grid, comps⟩ := st
  unfold analyzeStep
  dsimp only
  split
  · exact hP
  · split
    · exact hP
    · next hne =>
      intro c hc
      rcases List.mem_append.mp hc with h1 | h1
      · exact hP c h1
      · have hc' := List.mem_singleton.mp h1
        subst hc'
        have hnz : (compLoop width height labels (aget labels start (-1))
            comps.length (width * height + 1)
            ⟨bitSet1 visited start, grid, [start], [], width, height, 0, 0,
              fv 0, fv 0⟩).pixels ≠ [] := by
          intro he
          exact hne (by simp [he])
        exact List.length_pos.mpr hnz

theorem analyzeComponents_area_pos (labels : Array Int) (width height : Nat) :
    ∀ c ∈ (analyzeComponents labels width height).components, 1 ≤ c.area := by
  unfold analyzeComponents
  dsimp only
  apply attachNeighbors_area_pos
  exact foldl_invariant (analyzeStep width height labels)
    (fun st => ∀ c ∈ st.2.2, 1 ≤ c.area)
    (fun st x hst => analyzeStep_area_pos width height labels st x hst)
    _ _ (by intro c hc; cases hc)

/-- C3 (amended): if the number of distinct connected regions is already
`≤ target_region_count` and `min_region_area` is `≤` every region's area,
then (given a positive pass budget, as every preset has)
`enforce_region_constraints` returns on its very first check: zero merge
passes, labels unchanged, no fallback reason. -/
theorem c3_merger_zero_passes (distF : Lab3 → Lab3 → FVal) (palette : List Lab3)
    (labels : Array Int) (width height : Nat) (cfg : Stage4Config)
    (hp : 1 ≤ cfg.max_merge_passes)
    (hcount : (analyzeComponents labels width height).components.length ≤
      cfg.target_region_count)
    (harea : ∀ c ∈ (analyzeComponents labels width height).components,
      cfg.min_region_area ≤ c.area) :
    enforceRegionConstraints distF palette labels width height cfg =
      (labels, 0, none) := by
  obtain ⟨fuel, hfuel⟩ : ∃ f, cfg.max_merge_passes = f + 1 :=
    ⟨cfg.max_merge_passes - 1, by omega⟩
  unfold enforceRegionConstraints
  rw [hfuel]
  have hcond : (analyzeComponents labels width height).components.length ≤
      max cfg.target_region_count 1 ∧
      ((analyzeComponents labels width height).components.filter
        (fun c => c.area < max cfg.min_region_area 1)).length = 0 := by
    constructor
    · exact le_trans hcount (Nat.le_max_left _ _)
    · rw [List.length_eq_zero, List.filter_eq_nil_iff]
      intro c hc
      simp only [decide_eq_true_eq, Nat.not_lt]
      exact Nat.max_le.mpr
        ⟨harea c hc, analyzeComponents_area_pos labels width height c hc⟩
  simp only [enforceLoop]
  rw [if_pos hcond]

/-- Witness for `c3_merger_zero_passes`: a 1×1 grid with one region,
target 1, minimum area 1, pass budget 8. -/
theorem c3_merger_zero_passes_witness :
    1 ≤ c3Config.max_merge_passes ∧
    (analyzeComponents c3WitnessLabels 1 1).components.length ≤
      c3Config.target_region_count ∧
    (∀ c ∈ (analyzeComponents c3WitnessLabels 1 1).components,
      c3Config.min_region_area ≤ c.area) ∧
    enforceRegionConstraints distZero c3Palette c3WitnessLabels 1 1 c3Config =
      (c3WitnessLabels, 0, none) :=
  ⟨by decide, by decide, by decide,
    c3_merger_zero_passes distZero c3Palette c3WitnessLabels 1 1 c3Config
      (by decide) (by decide) (by decide)⟩

/-! ## C6 amended: the clamp is min(·, 30), with no lower bound -/

theorem updateNth_length {α : Type} (f : α → α) :
    ∀ (l : List α) (i : Nat), (updateNth f l i).length = l.length := by
  intro l
  induction l with
  | nil => intro i; rfl
  | cons x xs ih =>
    intro i
    cases i with
    | zero => rfl
    | succ j => simp [updateNth, ih]

theorem updateCenters_length (pixels : List Lab3) (labels : List Nat)
    (centers : List KCenter) :
    (updateCenters pixels labels centers).length = centers.length := by
  unfold updateCenters
  rw [List.length_map]
  have := foldl_invariant
    (fun (cs : List KCenter) (pl : Lab3 × Nat) =>
      updateNth (fun c => c.addSample pl.1) cs pl.2)
    (fun cs => cs.length = centers.length)
    (fun cs pl hcs => (updateNth_length _ _ _).trans hcs)
    (pixels.zip labels)
    (centers.map (fun c =>
      { c with sum_l := fv 0, sum_a := fv 0, sum_b := fv 0, count := 0 }))
    (by simp)
  exact this

theorem kmeansIter_length (distF : Lab3 → Lab3 → FVal) (pixels : List Lab3) :
    ∀ (fuel : Nat) (centers : List KCenter) (labels : List Nat),
    (kmeansIter distF pixels fuel centers labels).1.length = centers.length := by
  intro fuel
  induction fuel with
  | zero => intro centers labels; rfl
  | succ n ih =>
    intro centers labels
    simp only [kmeansIter]
    split
    · rfl
    · rw [ih, updateCenters_length]

theorem kppLoop_length_le (distF : Lab3 → Lab3 → FVal) (pixels : List Lab3)
    (k : Nat) :
    ∀ (fuel : Nat) (centers : List KCenter) (minD : List FVal) (chosen : List Nat),
    centers.length ≤ k →
    (kppLoop distF pixels k fuel centers minD chosen).length ≤ k := by
  intro fuel
  induction fuel with
  | zero => intro c m ch h; exact h
  | succ n ih =>
    intro c m ch h
    simp only [kppLoop]
    split
    · next hlt => exact ih _ _ _ (by simp; omega)
    · exact h

/-- C6 (amended): inside `process_pattern` the effective cluster count is
`min(color_count, 30)`: at most 30 always (and the quantizer's palette is
never longer than 30), at least 1 whenever `color_count ≥ 1` — but there
is no lower clamp, so `color_count = 0` gives 0 clusters, not 1. -/
theorem c6_cluster_clamp (colorCount : Nat) :
    effectiveK colorCount = min colorCount 30 ∧
    effectiveK colorCount ≤ 30 ∧
    (1 ≤ colorCount → 1 ≤ effectiveK colorCount) ∧
    ∀ (distF : Lab3 → Lab3 → FVal) (pixels : List Lab3) (maxIter : Nat),
      (kmeansQuantize distF pixels (effectiveK colorCount) maxIter).1.length ≤ 30 := by
  refine ⟨rfl, Nat.min_le_right _ _, fun h => le_min h (by omega), ?_⟩
  intro distF pixels maxIter
  unfold kmeansQuantize
  split
  · simp
  · next hne =>
    dsimp only
    rw [List.length_map, kmeansIter_length]
    push_neg at hne
    have hpix : pixels ≠ [] := by
      intro he
      subst he
      exact hne.1 rfl
    have hk1 : 1 ≤ min (effectiveK colorCount) pixels.length :=
      le_min (Nat.one_le_iff_ne_zero.mpr hne.2) (List.length_pos.mpr hpix)
    unfold kppInit
    dsimp only
    refine le_trans (kppLoop_length_le distF pixels _ _ _ _ _ (by simpa using hk1)) ?_
    calc min (effectiveK colorCount) pixels.length
        ≤ effectiveK colorCount := Nat.min_le_left _ _
      _ ≤ 30 := Nat.min_le_right _ _

/-- Witness for `c6_cluster_clamp` at `color_count = 5`. -/
theorem c6_cluster_clamp_witness :
    1 ≤ 5 ∧ 1 ≤ effectiveK 5 ∧
    (kmeansQuantize distZero [defaultLab] (effectiveK 5) 3).1.length ≤ 30 :=
  ⟨by decide, (c6_cluster_clamp 5).2.2.1 (by decide),
    (c6_cluster_clamp 5).2.2.2 distZero [defaultLab] 3⟩

/-! ## C9: the region cache invariant -/

theorem lookupAssoc_eq_none {α : Type} :
    ∀ (l : List (Nat × α)) (k : Nat),
    lookupAssoc l k = none ↔ k ∉ l.map Prod.fst := by
  intro l
  induction l with
  | nil => intro k; simp [lookupAssoc]
  | cons kv rest ih =>
    intro k
    obtain ⟨k0, v0⟩ := kv
    by_cases h : k0 = k
    · subst h
      simp [lookupAssoc]
    · simp only [lookupAssoc, if_neg h, List.map_cons, List.mem_cons]
      rw [ih]
      constructor
      · intro hn hc
        rcases hc with hc | hc
        · exact h hc.symm
        · exact hn hc
      · intro hn hc
        exact hn (Or.inr hc)

theorem insertAssoc_keys_fresh {α : Type} (v : α) :
    ∀ (l : List (Nat × α)) (k : Nat), k ∉ l.map Prod.fst →
    (insertAssoc l k v).map Prod.fst = l.map Prod.fst ++ [k] := by
  intro l
  induction l with
  | nil => intro k _; rfl
  | cons kv rest ih =>
    intro k hk
    obtain ⟨k0, v0⟩ := kv
    simp only [List.map_cons, List.mem_cons] at hk
    push_neg at hk
    simp only [insertAssoc, if_neg (Ne.symm hk.1), List.map_cons, List.cons_append,
      List.cons.injEq, true_and]
    exact ih k hk.2

theorem removeAssoc_keys {α : Type} :
    ∀ (l : List (Nat × α)) (k : Nat),
    (removeAssoc l k).map Prod.fst = (l.map Prod.fst).erase k := by
  intro l
  induction l with
  | nil => intro k; rfl
  | cons kv rest ih =>
    intro k
    obtain ⟨k0, v0⟩ := kv
    by_cases h : k0 = k
    · subst h
      simp [removeAssoc, List.erase_cons]
    · simp [removeAssoc, List.erase_cons, h, ih]

theorem lookupAssoc_insert_self {α : Type} (v : α) :
    ∀ (l : List (Nat × α)) (k : Nat),
    lookupAssoc (insertAssoc l k v) k = some v := by
  intro l
  induction l with
  | nil => intro k; simp [insertAssoc, lookupAssoc]
  | cons kv rest ih =>
    intro k
    obtain ⟨k0, v0⟩ := kv
    by_cases h : k0 = k
    · subst h
      simp [insertAssoc, lookupAssoc]
    · simp [insertAssoc, lookupAssoc, h, ih]

theorem lookupAssoc_remove_ne {α : Type} :
    ∀ (l : List (Nat × α)) (k k' : Nat), k' ≠ k →
    lookupAssoc (removeAssoc l k) k' = lookupAssoc l k' := by
  intro l
  induction l with
  | nil => intro k k' _; rfl
  | cons kv rest ih =>
    intro k k' hne
    obtain ⟨k0, v0⟩ := kv
    by_cases h : k0 = k
    · subst h
      rw [removeAssoc, if_pos rfl, lookupAssoc,
        if_neg (by intro he; exact hne he.symm)]
    · rw [removeAssoc, if_neg h, lookupAssoc, lookupAssoc]
      by_cases h2 : k0 = k'
      · simp [h2]
      · simp [h2, ih k k' hne]

theorem evictLoop_le {α : Type} :
    ∀ (o : List Nat) (b : List (Nat × α)), o.length ≤ regionCacheLimit + 1 →
    (evictLoop b o).2.length ≤ regionCacheLimit := by
  intro o
  induction o with
  | nil => intro b _; simp [evictLoop]
  | cons k rest ih =>
    intro b h
    simp only [evictLoop]
    split
    · exact ih _ (by simp at h ⊢; omega)
    · next hnot =>
      simp only [gt_iff_lt, Nat.not_lt] at hnot
      simpa using hnot

theorem evictLoop_id {α : Type} (o : List Nat) (b : List (Nat × α))
    (h : o.length ≤ regionCacheLimit) : evictLoop b o = (b, o) := by
  cases o with
  | nil => rfl
  | cons k rest =>
    simp only [evictLoop]
    rw [if_neg (by simp at h ⊢; omega)]

theorem evictLoop_inv {α : Type} :
    ∀ (o : List Nat) (b : List (Nat × α)),
    List.Perm (b.map Prod.fst) o → o.Nodup →
    List.Perm ((evictLoop b o).1.map Prod.fst) (evictLoop b o).2 ∧
      (evictLoop b o).2.Nodup := by
  intro o
  induction o with
  | nil =>
    intro b hp hn
    exact ⟨by simpa [evictLoop] using hp, by simp [evictLoop]⟩
  | cons k rest ih =>
    intro b hp hn
    simp only [evictLoop]
    split
    · apply ih
      · rw [removeAssoc_keys]
        have he := hp.erase k
        rwa [List.erase_cons_head] at he
      · exact (List.nodup_cons.mp hn).2
    · exact ⟨hp, hn⟩

theorem extractStep_inv {α : Type} (s : RegionCacheState α) (h : Nat) (v : α)
    (hs : cacheInv s) : cacheInv (extractRegionsCachedStep s h v).2 := by
  obtain ⟨hperm, hnd, hlen⟩ := hs
  unfold extractRegionsCachedStep
  cases hl : lookupAssoc s.by_hash h with
  | some w => exact ⟨hperm, hnd, hlen⟩
  | none =>
    simp only [hl, Option.isNone_none, if_pos]
    have hfresh : h ∉ s.by_hash.map Prod.fst := (lookupAssoc_eq_none _ _).mp hl
    have hfresho : h ∉ s.order := fun hh => hfresh (hperm.mem_iff.mpr hh)
    have hperm' : List.Perm ((insertAssoc s.by_hash h v).map Prod.fst)
        (s.order ++ [h]) := by
      rw [insertAssoc_keys_fresh v _ _ hfresh]
      exact hperm.append_right [h]
    have hnd' : (s.order ++ [h]).Nodup := by
      refine List.Nodup.append hnd (List.nodup_singleton h) ?_
      intro a ha hb
      rw [List.mem_singleton] at hb
      exact hfresho (hb ▸ ha)
    refine ⟨(evictLoop_inv _ _ hperm' hnd').1, (evictLoop_inv _ _ hperm' hnd').2, ?_⟩
    apply evictLoop_le
    simp only [List.length_append, List.length_singleton]
    omega

/-- C9: under every sequence of sequential `extract_regions_cached` calls
starting from the empty cache, the cache never holds more than 12 entries;
and when an insertion of a fresh key hits a full cache, the evicted entry
is exactly the one whose key was inserted earliest (the front of the FIFO
order): afterwards the oldest key is gone, the new key is present, and the
order is the old order's tail followed by the new key. -/
theorem c9_cache_bound_fifo {α : Type} (accesses : List (Nat × α)) :
    (runRegionCache accesses).by_hash.length ≤ regionCacheLimit ∧
    ∀ (h : Nat) (v : α),
      lookupAssoc (runRegionCache accesses).by_hash h = none →
      (runRegionCache accesses).order.length = regionCacheLimit →
      ∃ oldest rest,
        (runRegionCache accesses).order = oldest :: rest ∧
        (extractRegionsCachedStep (runRegionCache accesses) h v).2.order =
          rest ++ [h] ∧
        lookupAssoc (extractRegionsCachedStep (runRegionCache accesses) h v).2.by_hash
          oldest = none ∧
        lookupAssoc (extractRegionsCachedStep (runRegionCache accesses) h v).2.by_hash
          h = some v := by
  have hinv : cacheInv (runRegionCache accesses) := by
    unfold runRegionCache
    exact foldl_invariant _ cacheInv
      (fun st x hst => extractStep_inv st x.1 x.2 hst) accesses ⟨[], []⟩
      ⟨by simp, by simp, by simp [regionCacheLimit]⟩
  obtain ⟨hperm, hnd, hlen⟩ := hinv
  constructor
  · calc (runRegionCache accesses).by_hash.length
        = ((runRegionCache accesses).by_hash.map Prod.fst).length :=
          (List.length_map _ _).symm
      _ = (runRegionCache accesses).order.length := hperm.length_eq
      _ ≤ regionCacheLimit := hlen
  · intro h v hnone hfull
    obtain ⟨oldest, rest, horder⟩ :
        ∃ a r, (runRegionCache accesses).order = a :: r := by
      cases ho : (runRegionCache accesses).order with
      | nil => rw [ho] at hfull; simp [regionCacheLimit] at hfull
      | cons a r => exact ⟨a, r, rfl⟩
    have hrest : rest.length = 11 := by
      have h12 : (runRegionCache accesses).order.length = 12 := by
        simpa [regionCacheLimit] using hfull
      rw [horder] at h12
      simp at h12
      omega
    have hfresh : h ∉ (runRegionCache accesses).by_hash.map Prod.fst :=
      (lookupAssoc_eq_none _ _).mp hnone
    have hfresho : h ∉ (runRegionCache accesses).order :=
      fun hh => hfresh (hperm.mem_iff.mpr hh)
    have hstep : (extractRegionsCachedStep (runRegionCache accesses) h v).2 =
        ⟨removeAssoc (insertAssoc (runRegionCache accesses).by_hash h v) oldest,
          rest ++ [h]⟩ := by
      unfold extractRegionsCachedStep
      simp only [hnone, Option.isNone_none, if_pos]
      rw [horder, List.cons_append]
      rw [evictLoop]
      rw [if_pos (by simp [regionCacheLimit]; omega)]
      rw [evictLoop_id _ _ (by simp [regionCacheLimit]; omega)]
    rw [hstep]
    dsimp only
    refine ⟨oldest, rest, horder, rfl, ?_, ?_⟩
    · have hkeys : (removeAssoc (insertAssoc (runRegionCache accesses).by_hash h v)
          oldest).map Prod.fst =
          ((runRegionCache accesses).by_hash.map Prod.fst ++ [h]).erase oldest := by
        rw [removeAssoc_keys, insertAssoc_keys_fresh v _ _ hfresh]
      rw [lookupAssoc_eq_none, hkeys]
      have hndk : ((runRegionCache accesses).by_hash.map Prod.fst ++ [h]).Nodup := by
        refine List.Nodup.append (hperm.nodup_iff.mpr hnd) (List.nodup_singleton h) ?_
        intro a ha hb
        rw [List.mem_singleton] at hb
        exact hfresh (hb ▸ ha)
      intro hmem
      have hh := (List.Nodup.mem_erase_iff hndk).mp hmem
      exact hh.1 rfl
    · have hno : oldest ∈ (runRegionCache accesses).order := by
        rw [horder]; exact List.mem_cons_self _ _
      have hho : h ≠ oldest := fun he => hfresho (he ▸ hno)
      rw [lookupAssoc_remove_ne _ _ _ hho]
      exact lookupAssoc_insert_self v _ h

/-- Witness for `c9_cache_bound_fifo`: fill the cache with 12 distinct
keys, then insert a 13th. -/
theorem c9_cache_bound_fifo_witness :
    (runRegionCache ((List.range 12).map (fun i => (i, i)))).by_hash.length ≤
      regionCacheLimit ∧
    lookupAssoc (runRegionCache ((List.range 12).map (fun i => (i, i)))).by_hash
      99 = none ∧
    (runRegionCache ((List.range 12).map (fun i => (i, i)))).order.length =
      regionCacheLimit ∧
    ∃ oldest rest,
      (runRegionCache ((List.range 12).map (fun i => (i, i)))).order =
        oldest :: rest ∧
      (extractRegionsCachedStep
        (runRegionCache ((List.range 12).map (fun i => (i, i)))) 99 99).2.order =
        rest ++ [99] ∧
      lookupAssoc (extractRegionsCachedStep
        (runRegionCache ((List.range 12).map (fun i => (i, i)))) 99 99).2.by_hash
        oldest = none ∧
      lookupAssoc (extractRegionsCachedStep
        (runRegionCache ((List.range 12).map (fun i => (i, i)))) 99 99).2.by_hash
        99 = some 99 :=
  ⟨(c9_cache_bound_fifo ((List.range 12).map (fun i => (i, i)))).1,
    by decide, by decide,
    (c9_cache_bound_fifo ((List.range 12).map (fun i => (i, i)))).2 99 99
      (by decide) (by decide)⟩

/-! ## C7: idempotence of the selection post-process without smoothing -/

/-! ### Bit lemmas -/

theorem bitGet_eq_div_mod (m i : Nat) : bitGet m i = m / 2 ^ i % 2 := by
  simp [bitGet, Nat.shiftRight_eq_div_pow]

theorem bitGet_lt_two (m i : Nat) : bitGet m i < 2 := by
  rw [bitGet_eq_div_mod]; exact Nat.mod_lt _ (by norm_num)

theorem bitGet_eq_testBit (m i : Nat) :
    bitGet m i = if m.testBit i then 1 else 0 := by
  rw [Nat.testBit_to_div_mod, bitGet_eq_div_mod]
  rcases Nat.mod_two_eq_zero_or_one (m / 2 ^ i) with h | h <;> simp [h]

theorem bitGet_zero (i : Nat) : bitGet 0 i = 0 := by
  simp [bitGet_eq_div_mod]

theorem testBit_one_iff (k : Nat) : (1 : Nat).testBit k = decide (k = 0) := by
  cases k with
  | zero => decide
  | succ k => simp [Nat.testBit_succ]

theorem bitGet_bitSet1 (m j i : Nat) :
    bitGet (bitSet1 m j) i = if i = j then 1 else bitGet m i := by
  rw [bitGet_eq_testBit, bitGet_eq_testBit, bitSet1, Nat.testBit_or,
    Nat.testBit_shiftLeft, testBit_one_iff]
  by_cases h : i = j
  · subst h; simp
  · by_cases hij : j ≤ i
    · have : i - j ≠ 0 := by omega
      simp [hij, this, h]
    · have : ¬ (i ≥ j) := by omega
      simp [this, h]

theorem sub_pow_div_mod (m j i : Nat) (h : m / 2 ^ j % 2 = 1) :
    (m - 2 ^ j) / 2 ^ i % 2 = if i = j then 0 else m / 2 ^ i % 2 := by
  have hj : 0 < 2 ^ j := pow_pos (by norm_num) j
  have h1 : m / 2 ^ j = 2 * (m / 2 ^ (j + 1)) + 1 := by
    have hd : m / 2 ^ (j + 1) = m / 2 ^ j / 2 := by
      rw [pow_succ, Nat.div_div_eq_div_mul]
    rw [hd]; omega
  set a := m / 2 ^ (j + 1) with ha
  set b := m % 2 ^ j with hbdef
  have hb : b < 2 ^ j := Nat.mod_lt _ hj
  have hps : 2 ^ (j + 1) = 2 ^ j * 2 := pow_succ 2 j
  have hm : m = a * 2 ^ (j + 1) + 2 ^ j + b := by
    calc m = 2 ^ j * (m / 2 ^ j) + m % 2 ^ j := (Nat.div_add_mod m (2 ^ j)).symm
    _ = 2 ^ j * (2 * a + 1) + b := by rw [h1]
    _ = a * 2 ^ (j + 1) + 2 ^ j + b := by rw [hps]; ring
  have hsub : m - 2 ^ j = b + a * 2 ^ (j + 1) := by omega
  rcases Nat.lt_trichotomy i j with hij | rfl | hij
  · -- i < j
    have hne : ¬ (i = j) := by omega
    rw [if_neg hne]
    set e := j - i with hedef
    have he : j = i + e := by omega
    have hep : 1 ≤ e := by omega
    have hi2 : 0 < 2 ^ i := pow_pos (by norm_num) i
    have hpj : 2 ^ j = 2 ^ i * 2 ^ e := by rw [he, pow_add]
    have hpj1 : 2 ^ (j + 1) = 2 ^ i * (2 ^ e * 2) := by
      rw [hps, hpj]; ring
    have hpe : 2 ^ e = 2 * 2 ^ (e - 1) := by
      have he1 : e = (e - 1) + 1 := by omega
      calc 2 ^ e = 2 ^ ((e - 1) + 1) := by rw [← he1]
      _ = 2 * 2 ^ (e - 1) := by rw [pow_succ]; ring
    have hmm : m = b + (a * (2 ^ e * 2) + 2 ^ e) * 2 ^ i := by
      rw [hm, hpj, hpj1]; ring
    have hms : m - 2 ^ j = b + a * (2 ^ e * 2) * 2 ^ i := by
      rw [hsub, hpj1]; ring
    have h2a : a * (2 ^ e * 2) + 2 ^ e = 2 * (a * 2 ^ e + 2 ^ (e - 1)) := by
      rw [hpe]; ring
    have h2b : a * (2 ^ e * 2) = 2 * (a * 2 ^ e) := by ring
    have hL : (m - 2 ^ j) / 2 ^ i % 2 = b / 2 ^ i % 2 := by
      rw [hms, Nat.add_mul_div_right _ _ hi2, h2b, Nat.add_mul_mod_self_left]
    have hR : m / 2 ^ i % 2 = b / 2 ^ i % 2 := by
      rw [hmm, Nat.add_mul_div_right _ _ hi2, h2a, Nat.add_mul_mod_self_left]
    rw [hL, hR]
  · -- i = j
    rw [if_pos rfl]
    have h2 : m - 2 ^ i = b + 2 * a * 2 ^ i := by
      rw [hsub, hps]; ring
    rw [h2, Nat.add_mul_div_right _ _ hj, Nat.div_eq_of_lt hb]
    omega
  · -- j < i
    have hne : ¬ (i = j) := by omega
    rw [if_neg hne]
    have he : i = (j + 1) + (i - j - 1) := by omega
    have hpi : 2 ^ i = 2 ^ (j + 1) * 2 ^ (i - j - 1) := by
      rw [← pow_add]
      have h3 : j + 1 + (i - j - 1) = i := by omega
      rw [h3]
    have hj1 : 0 < 2 ^ (j + 1) := pow_pos (by norm_num) (j + 1)
    have hb1 : b / 2 ^ (j + 1) = 0 := by
      apply Nat.div_eq_of_lt; rw [hps]; omega
    have hd1 : m / 2 ^ (j + 1) = a := ha.symm
    have hd2 : (m - 2 ^ j) / 2 ^ (j + 1) = a := by
      rw [hsub, Nat.add_mul_div_right _ _ hj1, hb1]; omega
    rw [hpi, ← Nat.div_div_eq_div_mul, ← Nat.div_div_eq_div_mul, hd1, hd2]

theorem bitGet_bitClear (m j i : Nat) :
    bitGet (bitClear m j) i = if i = j then 0 else bitGet m i := by
  rw [bitClear]
  by_cases h : bitGet m j = 1
  · rw [if_pos h, Nat.one_shiftLeft, bitGet_eq_div_mod, bitGet_eq_div_mod]
    exact sub_pow_div_mod m j i (by rw [← bitGet_eq_div_mod]; exact h)
  · rw [if_neg h]
    by_cases hij : i = j
    · subst hij
      have := bitGet_lt_two m i
      rw [if_pos rfl]; omega
    · rw [if_neg hij]

theorem bitGet_foldl_bitClear (R : List Nat) (m i : Nat) :
    bitGet (R.foldl (fun r j => bitClear r j) m) i =
      if i ∈ R then 0 else bitGet m i := by
  induction R generalizing m with
  | nil => simp
  | cons a R ih =>
    rw [List.foldl_cons, ih]
    by_cases hR : i ∈ R
    · simp [hR]
    · rw [if_neg hR, bitGet_bitClear]
      by_cases hia : i = a
      · simp [hia]
      · simp [hia, hR]

theorem bitGet_foldl_bitSet1 (R : List Nat) (m i : Nat) :
    bitGet (R.foldl (fun r j => bitSet1 r j) m) i =
      if i ∈ R then 1 else bitGet m i := by
  induction R generalizing m with
  | nil => simp
  | cons a R ih =>
    rw [List.foldl_cons, ih]
    by_cases hR : i ∈ R
    · simp [hR]
    · rw [if_neg hR, bitGet_bitSet1]
      by_cases hia : i = a
      · simp [hia]
      · simp [hia, hR]

/-! ### Coercion and coordinate helpers -/

theorem toNat_ofNat_add_zero (n : Nat) : (Int.ofNat n + 0).toNat = n := by
  simp only [Int.ofNat_eq_coe]; omega

theorem toNat_ofNat_add_one (n : Nat) : (Int.ofNat n + 1).toNat = n + 1 := by
  simp only [Int.ofNat_eq_coe]; omega

theorem toNat_ofNat_add_negOne (n : Nat) : (Int.ofNat n + -1).toNat = n - 1 := by
  simp only [Int.ofNat_eq_coe]; omega

theorem ofNat_negOne_nonneg {n : Nat} (h : 0 ≤ Int.ofNat n + -1) : 1 ≤ n := by
  simp only [Int.ofNat_eq_coe] at h; omega

theorem ofNat_add_one_lt {n m : Nat} (h : Int.ofNat n + 1 < (m : Int)) :
    n + 1 < m := by
  simp only [Int.ofNat_eq_coe] at h; omega

theorem ofNat_add_zero_lt {n m : Nat} (h : Int.ofNat n + 0 < (m : Int)) :
    n < m := by
  simp only [Int.ofNat_eq_coe] at h; omega

theorem ofNat_add_zero_nonneg (n : Nat) : 0 ≤ Int.ofNat n + 0 := by
  simp only [Int.ofNat_eq_coe]; omega

theorem ofNat_add_one_nonneg (n : Nat) : 0 ≤ Int.ofNat n + 1 := by
  simp only [Int.ofNat_eq_coe]; omega

theorem ofNat_negOne_nonneg_intro {n : Nat} (h : 1 ≤ n) :
    0 ≤ Int.ofNat n + -1 := by
  simp only [Int.ofNat_eq_coe]; omega

theorem ofNat_add_zero_lt_intro {n m : Nat} (h : n < m) :
    Int.ofNat n + 0 < (m : Int) := by
  simp only [Int.ofNat_eq_coe]; omega

theorem ofNat_add_one_lt_intro {n m : Nat} (h : n + 1 < m) :
    Int.ofNat n + 1 < (m : Int) := by
  simp only [Int.ofNat_eq_coe]; omega

theorem ofNat_negOne_lt_intro {n m : Nat} (h : n < m) :
    Int.ofNat n + -1 < (m : Int) := by
  simp only [Int.ofNat_eq_coe]; omega

theorem row_div (w q r : Nat) (hr : r < w) : (q * w + r) / w = q := by
  have hw : 0 < w := by omega
  rw [Nat.add_comm, Nat.add_mul_div_right _ _ hw, Nat.div_eq_of_lt hr]
  omega

theorem row_mod (w q r : Nat) (hr : r < w) : (q * w + r) % w = r := by
  rw [Nat.add_comm, Nat.add_mul_mod_self_right, Nat.mod_eq_of_lt hr]

/-! ### Adjacency lemmas -/

theorem offOk_elim {width height a : Nat} {d : Int × Int}
    (h : offOk width height a d = true) :
    0 ≤ Int.ofNat (a % width) + d.1 ∧
    Int.ofNat (a % width) + d.1 < (width : Int) ∧
    0 ≤ Int.ofNat (a / width) + d.2 ∧
    Int.ofNat (a / width) + d.2 < (height : Int) := by
  simp only [offOk, inBounds, Bool.and_eq_true, decide_eq_true_eq] at h
  tauto

theorem offOk_intro {width height a : Nat} {d : Int × Int}
    (h1 : 0 ≤ Int.ofNat (a % width) + d.1)
    (h2 : Int.ofNat (a % width) + d.1 < (width : Int))
    (h3 : 0 ≤ Int.ofNat (a / width) + d.2)
    (h4 : Int.ofNat (a / width) + d.2 < (height : Int)) :
    offOk width height a d = true := by
  simp only [offOk, inBounds, Bool.and_eq_true, decide_eq_true_eq]
  exact ⟨⟨⟨h1, h2⟩, h3⟩, h4⟩

theorem cellAdj_lt {width height a b : Nat} (h : cellAdj width height a b) :
    b < width * height ∧ 0 < width ∧ 0 < height := by
  obtain ⟨d, hd, hok, rfl⟩ := h
  obtain ⟨h1, h2, h3, h4⟩ := offOk_elim hok
  have hw : 0 < width := by
    simp only [Int.ofNat_eq_coe] at h1 h2; omega
  have hh : 0 < height := by
    simp only [Int.ofNat_eq_coe] at h3 h4; omega
  refine ⟨?_, hw, hh⟩
  have hx : (Int.ofNat (a % width) + d.1).toNat < width := by
    simp only [Int.ofNat_eq_coe] at h1 h2 ⊢; omega
  have hy : (Int.ofNat (a / width) + d.2).toNat < height := by
    simp only [Int.ofNat_eq_coe] at h3 h4 ⊢; omega
  rw [offTarget]
  have hstep : ((Int.ofNat (a / width) + d.2).toNat + 1) * width ≤
      height * width :=
    Nat.mul_le_mul_right _ (by omega)
  have hone : ((Int.ofNat (a / width) + d.2).toNat + 1) * width =
      (Int.ofNat (a / width) + d.2).toNat * width + width := by ring
  have hcomm : height * width = width * height := Nat.mul_comm _ _
  omega

theorem cellAdj_iff {width height a b : Nat} (ha : a < width * height) :
    cellAdj width height a b ↔
      (b < width * height ∧
        ((b / width = a / width ∧ (b = a + 1 ∨ a = b + 1)) ∨
         (b % width = a % width ∧ (b = a + width ∨ a = b + width)))) := by
  have hw : 0 < width := by
    rcases Nat.eq_zero_or_pos width with h0 | h0
    · subst h0; simp at ha
    · exact h0
  have hh : 0 < height := by
    rcases Nat.eq_zero_or_pos height with h0 | h0
    · subst h0; simp at ha
    · exact h0
  have hdm : a / width * width + a % width = a := by
    rw [Nat.mul_comm]; exact Nat.div_add_mod a width
  have hr : a % width < width := Nat.mod_lt _ hw
  have hq : a / width < height := by
    rw [Nat.div_lt_iff_lt_mul hw]
    calc a < width * height := ha
    _ = height * width := Nat.mul_comm _ _
  constructor
  · rintro ⟨d, hd, hok, rfl⟩
    obtain ⟨h1, h2, h3, h4⟩ := offOk_elim hok
    simp only [neighborOffsets, List.mem_cons, List.not_mem_nil, or_false] at hd
    rcases hd with rfl | rfl | rfl | rfl
    · -- d = (-1, 0)
      dsimp only at h1 h2 h3 h4
      have hr1 : 1 ≤ a % width := ofNat_negOne_nonneg h1
      have hb : offTarget width a (-1, 0) =
          a / width * width + (a % width - 1) := by
        rw [offTarget]; dsimp only
        rw [toNat_ofNat_add_zero, toNat_ofNat_add_negOne]
      refine ⟨by omega, Or.inl ⟨?_, Or.inr (by omega)⟩⟩
      rw [hb, row_div _ _ _ (by omega)]
    · -- d = (1, 0)
      dsimp only at h1 h2 h3 h4
      have hr2 : a % width + 1 < width := ofNat_add_one_lt h2
      have hb : offTarget width a (1, 0) =
          a / width * width + (a % width + 1) := by
        rw [offTarget]; dsimp only
        rw [toNat_ofNat_add_zero, toNat_ofNat_add_one]
      have hone : (a / width + 1) * width = a / width * width + width := by
        ring
      have hle : (a / width + 1) * width ≤ height * width :=
        Nat.mul_le_mul_right _ (by omega)
      have hcomm : height * width = width * height := Nat.mul_comm _ _
      refine ⟨by omega, Or.inl ⟨?_, Or.inl (by omega)⟩⟩
      rw [hb, row_div _ _ _ (by omega)]
    · -- d = (0, -1)
      dsimp only at h1 h2 h3 h4
      have hq1 : 1 ≤ a / width := ofNat_negOne_nonneg h3
      have hb : offTarget width a (0, -1) =
          (a / width - 1) * width + a % width := by
        rw [offTarget]; dsimp only
        rw [toNat_ofNat_add_zero, toNat_ofNat_add_negOne]
      have hone : (a / width - 1) * width + width = a / width * width := by
        have h5 : a / width - 1 + 1 = a / width := by omega
        calc (a / width - 1) * width + width
            = (a / width - 1 + 1) * width := by ring
        _ = a / width * width := by rw [h5]
      refine ⟨by omega, Or.inr ⟨?_, Or.inr (by omega)⟩⟩
      rw [hb, row_mod _ _ _ hr]
    · -- d = (0, 1)
      dsimp only at h1 h2 h3 h4
      have hq2 : a / width + 1 < height := ofNat_add_one_lt h4
      have hb : offTarget width a (0, 1) =
          (a / width + 1) * width + a % width := by
        rw [offTarget]; dsimp only
        rw [toNat_ofNat_add_one, toNat_ofNat_add_zero]
      have hone : (a / width + 1) * width = a / width * width + width := by
        ring
      have htwo : (a / width + 2) * width = (a / width + 1) * width + width := by
        ring
      have hle : (a / width + 2) * width ≤ height * width :=
        Nat.mul_le_mul_right _ (by omega)
      have hcomm : height * width = width * height := Nat.mul_comm _ _
      refine ⟨by omega, Or.inr ⟨?_, Or.inl (by omega)⟩⟩
      rw [hb, row_mod _ _ _ hr]
  · rintro ⟨hblt, hc⟩
    have hbq : b / width < height := by
      rw [Nat.div_lt_iff_lt_mul hw]
      calc b < width * height := hblt
      _ = height * width := Nat.mul_comm _ _
    rcases hc with ⟨hrow, hgo | hgo⟩ | ⟨hcol, hgo | hgo⟩
    · -- b = a + 1, same row
      have hone : (a / width + 1) * width = a / width * width + width := by
        ring
      have hx : a % width + 1 < width := by
        by_contra hcon
        have hx2 : a % width + 1 = width := by omega
        have hb2 : b = (a / width + 1) * width + 0 := by omega
        have : b / width = a / width + 1 := by
          rw [hb2, row_div _ _ _ hw]
        omega
      refine ⟨(1, 0), by simp [neighborOffsets], ?_, ?_⟩
      · exact offOk_intro (ofNat_add_one_nonneg _)
          (ofNat_add_one_lt_intro hx) (ofNat_add_zero_nonneg _)
          (ofNat_add_zero_lt_intro hq)
      · rw [offTarget]; dsimp only
        rw [toNat_ofNat_add_zero, toNat_ofNat_add_one]
        omega
    · -- a = b + 1, same row
      have hx : 1 ≤ a % width := by
        by_contra hcon
        have hx0 : a % width = 0 := by omega
        rcases Nat.eq_zero_or_pos (a / width) with h0 | h0
        · rw [h0] at hdm; omega
        · have hone : (a / width - 1) * width + width = a / width * width := by
            have h5 : a / width - 1 + 1 = a / width := by omega
            calc (a / width - 1) * width + width
                = (a / width - 1 + 1) * width := by ring
            _ = a / width * width := by rw [h5]
          have hb2 : b = (a / width - 1) * width + (width - 1) := by omega
          have : b / width = a / width - 1 := by
            rw [hb2, row_div _ _ _ (by omega)]
          omega
      refine ⟨(-1, 0), by simp [neighborOffsets], ?_, ?_⟩
      · exact offOk_intro (ofNat_negOne_nonneg_intro hx)
          (ofNat_negOne_lt_intro hr) (ofNat_add_zero_nonneg _)
          (ofNat_add_zero_lt_intro hq)
      · rw [offTarget]; dsimp only
        rw [toNat_ofNat_add_zero, toNat_ofNat_add_negOne]
        omega
    · -- b = a + width
      have hone : (a / width + 1) * width = a / width * width + width := by
        ring
      have hb2 : b = (a / width + 1) * width + a % width := by omega
      have hy : a / width + 1 < height := by
        have : b / width = a / width + 1 := by
          rw [hb2, row_div _ _ _ hr]
        omega
      refine ⟨(0, 1), by simp [neighborOffsets], ?_, ?_⟩
      · exact offOk_intro (ofNat_add_zero_nonneg _)
          (ofNat_add_zero_lt_intro hr) (ofNat_add_one_nonneg _)
          (ofNat_add_one_lt_intro hy)
      · rw [offTarget]; dsimp only
        rw [toNat_ofNat_add_one, toNat_ofNat_add_zero]
        omega
    · -- a = b + width
      have hy : 1 ≤ a / width := by
        rw [Nat.one_le_div_iff hw]; omega
      have hone : (a / width - 1) * width + width = a / width * width := by
        have h5 : a / width - 1 + 1 = a / width := by omega
        calc (a / width - 1) * width + width
            = (a / width - 1 + 1) * width := by ring
        _ = a / width * width := by rw [h5]
      refine ⟨(0, -1), by simp [neighborOffsets], ?_, ?_⟩
      · exact offOk_intro (ofNat_add_zero_nonneg _)
          (ofNat_add_zero_lt_intro hr) (ofNat_negOne_nonneg_intro hy)
          (ofNat_negOne_lt_intro hq)
      · rw [offTarget]; dsimp only
        rw [toNat_ofNat_add_zero, toNat_ofNat_add_negOne]
        omega

theorem cellAdj_symm {width height a b : Nat} (ha : a < width * height)
    (h : cellAdj width height a b) : cellAdj width height b a := by
  obtain ⟨hb, hc⟩ := (cellAdj_iff ha).mp h
  refine (cellAdj_iff hb).mpr ⟨ha, ?_⟩
  rcases hc with ⟨hrow, hgo⟩ | ⟨hcol, hgo⟩
  · exact Or.inl ⟨hrow.symm, hgo.symm⟩
  · exact Or.inr ⟨hcol.symm, hgo.symm⟩

theorem cellAdj_pred {width height t : Nat} (ht : t < width * height)
    (hr : 1 ≤ t % width) : cellAdj width height t (t - 1) := by
  have hw : 0 < width := by
    rcases Nat.eq_zero_or_pos width with h0 | h0
    · subst h0; simp at ht
    · exact h0
  have hdm : t / width * width + t % width = t := by
    rw [Nat.mul_comm]; exact Nat.div_add_mod t width
  have hrw : t % width < width := Nat.mod_lt _ hw
  refine (cellAdj_iff ht).mpr ⟨by omega, Or.inl ⟨?_, Or.inr (by omega)⟩⟩
  have hb2 : t - 1 = t / width * width + (t % width - 1) := by omega
  rw [hb2, row_div _ _ _ (by omega)]

/-! ### Reach lemmas -/

theorem Reach_lt {width height g v i j : Nat} (hi : i < width * height)
    (h : Reach width height g v i j) : j < width * height := by
  induction h with
  | refl => exact hi
  | tail _ hstep _ => exact (cellAdj_lt hstep.1).1

theorem Reach_val {width height g v i j : Nat}
    (h : Reach width height g v i j) : j = i ∨ bitGet g j = v := by
  induction h with
  | refl => exact Or.inl rfl
  | tail _ hstep _ => exact Or.inr hstep.2

theorem Reach_rev {width height g v i j : Nat} (hi : i < width * height)
    (hv : bitGet g i = v) (h : Reach width height g v i j) :
    Reach width height g v j i := by
  induction h with
  | refl => exact Relation.ReflTransGen.refl
  | @tail b c hp hstep ih =>
    have hbv : bitGet g b = v := by
      rcases Reach_val hp with rfl | hbv
      · exact hv
      · exact hbv
    exact Relation.ReflTransGen.head
      ⟨cellAdj_symm (Reach_lt hi hp) hstep.1, hbv⟩ ih

theorem Reach_mono {width height g g2 v i j : Nat}
    (hg : ∀ t, bitGet g t = v → bitGet g2 t = v)
    (h : Reach width height g v i j) : Reach width height g2 v i j := by
  induction h with
  | refl => exact Relation.ReflTransGen.refl
  | @tail b c _ hstep ih =>
    exact Relation.ReflTransGen.tail ih ⟨hstep.1, hg c hstep.2⟩

theorem Reach_transfer {width height g g2 v i j : Nat}
    (hag : ∀ t, Reach width height g v i t → bitGet g2 t = bitGet g t)
    (h : Reach width height g v i j) : Reach width height g2 v i j := by
  induction h with
  | refl => exact Relation.ReflTransGen.refl
  | @tail b c hp hstep ih =>
    exact Relation.ReflTransGen.tail ih
      ⟨hstep.1, by rw [hag c (Relation.ReflTransGen.tail hp hstep)]
                   exact hstep.2⟩

theorem Reach_back {width height g g2 v i j : Nat} (S : Nat → Prop)
    (hout : ∀ t, ¬ S t → bitGet g2 t = bitGet g t)
    (hin : ∀ t, S t → bitGet g2 t ≠ v)
    (h : Reach width height g2 v i j) : Reach width height g v i j := by
  induction h with
  | refl => exact Relation.ReflTransGen.refl
  | @tail b c _ hstep ih =>
    have hcS : ¬ S c := fun hS => hin c hS hstep.2
    exact Relation.ReflTransGen.tail ih
      ⟨hstep.1, by rw [← hout c hcS]; exact hstep.2⟩

theorem Reach_fill_lift {width height g g2 i j : Nat}
    (hfill : ∀ t, Reach width height g 0 i t → bitGet g2 t = 1)
    (h : Reach width height g 0 i j) : Reach width height g2 1 i j := by
  induction h with
  | refl => exact Relation.ReflTransGen.refl
  | @tail b c hp hstep ih =>
    exact Relation.ReflTransGen.tail ih
      ⟨hstep.1, hfill c (Relation.ReflTransGen.tail hp hstep)⟩

theorem regionVisit_eq (width height g v idx : Nat) (visited : Nat)
    (queue region : List Nat) (d : Int × Int) :
    regionVisit width height g v idx (visited, queue, region) d =
      if offOk width height idx d then
        (if bitGet g (offTarget width idx d) = v &&
            !(bitGet visited (offTarget width idx d) = 1) then
          (bitSet1 visited (offTarget width idx d),
            queue ++ [offTarget width idx d],
            region ++ [offTarget width idx d])
        else (visited, queue, region))
      else (visited, queue, region) := rfl

theorem nodup_append_singleton {α : Type} {l : List α} {t : α}
    (hl : l.Nodup) (ht : t ∉ l) : (l ++ [t]).Nodup := by
  rw [List.nodup_append]
  refine ⟨hl, List.nodup_singleton t, ?_⟩
  intro a ha hat
  rw [List.mem_singleton] at hat
  subst hat; exact ht ha

theorem regionVisit_mid {width height g v V root : Nat}
    {rest region0 : List Nat} {st : Nat × List Nat × List Nat}
    {d : Int × Int} (hd : d ∈ neighborOffsets)
    (hqsub : ∀ j, j ∈ rest → j ∈ region0)
    (hmid : FloodMid width height g v V root rest region0 st) :
    FloodMid width height g v V root rest region0
      (regionVisit width height g v root st d) := by
  obtain ⟨visited, queue, region⟩ := st
  obtain ⟨new, hq, hr, hnr, hnq, hsound, hchar⟩ := hmid
  dsimp only at hq hr hchar
  rw [regionVisit_eq]
  by_cases hok : offOk width height root d = true
  · rw [if_pos hok]
    by_cases hgv : bitGet g (offTarget width root d) = v
    · by_cases hvt : bitGet visited (offTarget width root d) = 1
      · rw [if_neg (by simp [hgv, hvt])]
        exact ⟨new, hq, hr, hnr, hnq, hsound, hchar⟩
      · rw [if_pos (by simp [hgv, hvt])]
        have htnew : offTarget width root d ∉ region0 ++ new := fun hmem =>
          hvt ((hchar _).mpr (Or.inr hmem))
        have htq : offTarget width root d ∉ rest ++ new := by
          intro hmem
          rcases List.mem_append.mp hmem with hmem | hmem
          · exact htnew (List.mem_append_left _ (hqsub _ hmem))
          · exact htnew (List.mem_append_right _ hmem)
        refine ⟨new ++ [offTarget width root d], ?_, ?_, ?_, ?_, ?_, ?_⟩
        · dsimp only; rw [hq, List.append_assoc]
        · dsimp only; rw [hr, List.append_assoc]
        · rw [← List.append_assoc]
          exact nodup_append_singleton hnr htnew
        · rw [← List.append_assoc]
          exact nodup_append_singleton hnq htq
        · intro j hj
          rcases List.mem_append.mp hj with hj | hj
          · exact hsound j hj
          · rw [List.mem_singleton] at hj
            subst hj
            exact ⟨⟨d, hd, hok, rfl⟩, hgv⟩
        · intro j
          dsimp only
          rw [bitGet_bitSet1]
          by_cases hjt : j = offTarget width root d
          · subst hjt
            simp only [if_pos rfl]
            constructor
            · intro _
              refine Or.inr ?_
              rw [← List.append_assoc]
              exact List.mem_append_right _ (List.mem_singleton_self _)
            · intro _; rfl
          · rw [if_neg hjt, hchar j]
            constructor
            · rintro (hV | hmem)
              · exact Or.inl hV
              · refine Or.inr ?_
                rw [← List.append_assoc]
                exact List.mem_append_left _ hmem
            · rintro (hV | hmem)
              · exact Or.inl hV
              · refine Or.inr ?_
                rw [← List.append_assoc] at hmem
                rcases List.mem_append.mp hmem with hmem | hmem
                · exact hmem
                · rw [List.mem_singleton] at hmem
                  exact absurd hmem hjt
    · rw [if_neg (by simp [hgv])]
      exact ⟨new, hq, hr, hnr, hnq, hsound, hchar⟩
  · rw [if_neg hok]
    exact ⟨new, hq, hr, hnr, hnq, hsound, hchar⟩

theorem regionVisit_region_mono {width height g v root : Nat}
    {st : Nat × List Nat × List Nat} {d : Int × Int} {j : Nat}
    (hj : j ∈ st.2.2) : j ∈ (regionVisit width height g v root st d).2.2 := by
  obtain ⟨visited, queue, region⟩ := st
  dsimp only at hj
  rw [regionVisit_eq]
  by_cases hok : offOk width height root d = true
  · rw [if_pos hok]
    by_cases hguard : (bitGet g (offTarget width root d) = v &&
        !(bitGet visited (offTarget width root d) = 1)) = true
    · rw [if_pos hguard]
      exact List.mem_append_left _ hj
    · rw [if_neg hguard]; exact hj
  · rw [if_neg hok]; exact hj

theorem regionVisit_covered {width height g v V root i : Nat}
    {rest region0 : List Nat} {st : Nat × List Nat × List Nat}
    {d : Int × Int} (hd : d ∈ neighborOffsets)
    (hmid : FloodMid width height g v V root rest region0 st)
    (hdis : ∀ j, Reach width height g v i j → ¬ (bitGet V j = 1))
    (hreach : Reach width height g v i root)
    (hok : offOk width height root d = true)
    (hgv : bitGet g (offTarget width root d) = v) :
    offTarget width root d ∈
      (regionVisit width height g v root st d).2.2 := by
  obtain ⟨visited, queue, region⟩ := st
  obtain ⟨new, hq, hr, hnr, hnq, hsound, hchar⟩ := hmid
  dsimp only at hr hchar
  rw [regionVisit_eq, if_pos hok]
  have hreacht : Reach width height g v i (offTarget width root d) :=
    Relation.ReflTransGen.tail hreach ⟨⟨d, hd, hok, rfl⟩, hgv⟩
  by_cases hvt : bitGet visited (offTarget width root d) = 1
  · have hmem : offTarget width root d ∈ region0 ++ new := by
      rcases (hchar _).mp hvt with hV | hmem
      · exact absurd hV (hdis _ hreacht)
      · exact hmem
    rw [if_neg (by simp [hgv, hvt])]
    dsimp only
    rw [hr]; exact hmem
  · rw [if_pos (by simp [hgv, hvt])]
    dsimp only
    exact List.mem_append_right _ (List.mem_singleton_self _)

theorem floodFold_spec {width height g v V i idx : Nat}
    {rest region0 : List Nat} {visited : Nat}
    (hdis : ∀ j, Reach width height g v i j → ¬ (bitGet V j = 1))
    (hreach : Reach width height g v i idx)
    (hqsub : ∀ j, j ∈ rest → j ∈ region0)
    (hnr : region0.Nodup) (hnq : rest.Nodup)
    (hchar : ∀ j, bitGet visited j = 1 ↔ (bitGet V j = 1 ∨ j ∈ region0)) :
    FloodMid width height g v V idx rest region0
      (neighborOffsets.foldl (regionVisit width height g v idx)
        (visited, rest, region0)) ∧
    (∀ k, cellStep width height g v idx k →
      k ∈ (neighborOffsets.foldl (regionVisit width height g v idx)
        (visited, rest, region0)).2.2) := by
  have hd1 : ((-1 : Int), (0 : Int)) ∈ neighborOffsets := by
    simp [neighborOffsets]
  have hd2 : ((1 : Int), (0 : Int)) ∈ neighborOffsets := by
    simp [neighborOffsets]
  have hd3 : ((0 : Int), (-1 : Int)) ∈ neighborOffsets := by
    simp [neighborOffsets]
  have hd4 : ((0 : Int), (1 : Int)) ∈ neighborOffsets := by
    simp [neighborOffsets]
  have h0 : FloodMid width height g v V idx rest region0
      (visited, rest, region0) := by
    refine ⟨[], by simp, by simp, by simpa using hnr, by simpa using hnq,
      by simp, ?_⟩
    intro j
    dsimp only
    rw [hchar j]
    simp
  have hm1 := regionVisit_mid hd1 hqsub h0
  have hm2 := regionVisit_mid hd2 hqsub hm1
  have hm3 := regionVisit_mid hd3 hqsub hm2
  have hm4 := regionVisit_mid hd4 hqsub hm3
  have hfold : neighborOffsets.foldl (regionVisit width height g v idx)
      (visited, rest, region0) =
      regionVisit width height g v idx
        (regionVisit width height g v idx
          (regionVisit width height g v idx
            (regionVisit width height g v idx
              (visited, rest, region0) ((-1 : Int), (0 : Int)))
            ((1 : Int), (0 : Int)))
          ((0 : Int), (-1 : Int)))
        ((0 : Int), (1 : Int)) := rfl
  rw [hfold]
  refine ⟨hm4, ?_⟩
  rintro k ⟨⟨d, hd, hok, rfl⟩, hval⟩
  simp only [neighborOffsets, List.mem_cons, List.not_mem_nil, or_false]
    at hd
  rcases hd with rfl | rfl | rfl | rfl
  · exact regionVisit_region_mono (regionVisit_region_mono
      (regionVisit_region_mono
        (regionVisit_covered hd1 h0 hdis hreach hok hval)))
  · exact regionVisit_region_mono (regionVisit_region_mono
      (regionVisit_covered hd2 hm1 hdis hreach hok hval))
  · exact regionVisit_region_mono
      (regionVisit_covered hd3 hm2 hdis hreach hok hval)
  · exact regionVisit_covered hd4 hm3 hdis hreach hok hval

theorem region_length_le {width height g v i : Nat} {region : List Nat}
    (hi : i < width * height) (hnr : region.Nodup)
    (hsound : ∀ j, j ∈ region → Reach width height g v i j) :
    region.length ≤ width * height := by
  have hsub : region ⊆ List.range (width * height) := by
    intro j hj
    rw [List.mem_range]
    exact Reach_lt hi (hsound j hj)
  calc region.length ≤ (List.range (width * height)).length :=
    (hnr.subperm hsub).length_le
  _ = width * height := List.length_range _

theorem islandFlood_loop (width height g i V : Nat) (hi : i < width * height)
    (hdis : ∀ j, Reach width height g 1 i j → ¬ (bitGet V j = 1)) :
    ∀ (fuel : Nat) (queue : List Nat) (visited : Nat) (region : List Nat),
      FloodInv width height g 1 i V queue visited region →
      queue.length + (width * height - region.length) < fuel →
      FloodInv width height g 1 i V []
        (islandFlood width height g fuel queue visited region).1
        (islandFlood width height g fuel queue visited region).2 ∧
      (∀ j, j ∈ region →
        j ∈ (islandFlood width height g fuel queue visited region).2) := by
  intro fuel
  induction fuel with
  | zero => intro queue visited region _ hm; omega
  | succ fuel ih =>
    intro queue visited region hinv hm
    cases queue with
    | nil => exact ⟨hinv, fun j hj => hj⟩
    | cons idx rest =>
      obtain ⟨hnr, hnq, hqsub, hsound, hchar, hdich⟩ := hinv
      have hidx : idx ∈ region := hqsub idx (List.mem_cons_self _ _)
      have hreach : Reach width height g 1 i idx := hsound idx hidx
      have hrsub : ∀ j, j ∈ rest → j ∈ region := fun j hj =>
        hqsub j (List.mem_cons_of_mem _ hj)
      have hrq : rest.Nodup := hnq.of_cons
      obtain ⟨hmid, hcov⟩ :=
        floodFold_spec (v := 1) hdis hreach hrsub hnr hrq hchar
      set st := neighborOffsets.foldl (regionVisit width height g 1 idx)
        (visited, rest, region) with hst
      obtain ⟨new, e_q, e_r, nod_r, nod_q, hsnew, hchar2⟩ := hmid
      have heq : islandFlood width height g (fuel + 1) (idx :: rest) visited
          region = islandFlood width height g fuel st.2.1 st.1 st.2.2 := rfl
      rw [heq]
      have hsound2 : ∀ j, j ∈ st.2.2 → Reach width height g 1 i j := by
        intro j hj
        rw [e_r] at hj
        rcases List.mem_append.mp hj with hj | hj
        · exact hsound j hj
        · exact Relation.ReflTransGen.tail hreach (hsnew j hj)
      have hinv2 : FloodInv width height g 1 i V st.2.1 st.1 st.2.2 := by
        refine ⟨by rw [e_r]; exact nod_r, by rw [e_q]; exact nod_q,
          ?_, hsound2, ?_, ?_⟩
        · intro j hj
          rw [e_q] at hj
          rw [e_r]
          rcases List.mem_append.mp hj with hj | hj
          · exact List.mem_append_left _ (hrsub j hj)
          · exact List.mem_append_right _ hj
        · intro j
          rw [e_r]
          exact hchar2 j
        · intro j hj
          rw [e_r] at hj
          rcases List.mem_append.mp hj with hj | hj
          · rcases hdich j hj with hq | hclosed
            · rcases List.mem_cons.mp hq with rfl | hq
              · exact Or.inr fun k hk => hcov k hk
              · exact Or.inl (by rw [e_q]; exact List.mem_append_left _ hq)
            · refine Or.inr fun k hk => ?_
              rw [e_r]
              exact List.mem_append_left _ (hclosed k hk)
          · exact Or.inl (by rw [e_q]; exact List.mem_append_right _ hj)
      have hlen : st.2.2.length ≤ width * height := by
        rw [e_r]
        rw [e_r] at hsound2
        exact region_length_le hi nod_r hsound2
      have hm2 : st.2.1.length + (width * height - st.2.2.length) < fuel := by
        rw [e_q, e_r]
        rw [e_r] at hlen
        have h1 : (idx :: rest).length = rest.length + 1 := by simp
        rw [h1] at hm
        rw [List.length_append] at hlen ⊢
        rw [List.length_append]
        omega
      obtain ⟨hfin, hsub2⟩ := ih st.2.1 st.1 st.2.2 hinv2 hm2
      refine ⟨hfin, ?_⟩
      intro j hj
      exact hsub2 j (by rw [e_r]; exact List.mem_append_left _ hj)

theorem islandFlood_spec (width height g i V : Nat) (hi : i < width * height)
    (hdis : ∀ j, Reach width height g 1 i j → ¬ (bitGet V j = 1)) :
    (islandFlood width height g (width * height + 1) [i] (bitSet1 V i)
        [i]).2.Nodup ∧
    (∀ j, j ∈ (islandFlood width height g (width * height + 1) [i]
        (bitSet1 V i) [i]).2 ↔ Reach width height g 1 i j) ∧
    (∀ j, bitGet (islandFlood width height g (width * height + 1) [i]
        (bitSet1 V i) [i]).1 j = 1 ↔
      (bitGet V j = 1 ∨ j ∈ (islandFlood width height g (width * height + 1)
        [i] (bitSet1 V i) [i]).2)) := by
  have hinv : FloodInv width height g 1 i V [i] (bitSet1 V i) [i] := by
    refine ⟨List.nodup_singleton _, List.nodup_singleton _,
      fun j hj => hj, ?_, ?_, ?_⟩
    · intro j hj
      rw [List.mem_singleton] at hj
      subst hj
      exact Relation.ReflTransGen.refl
    · intro j
      rw [bitGet_bitSet1, List.mem_singleton]
      by_cases hji : j = i
      · subst hji; simp
      · rw [if_neg hji]; simp [hji]
    · intro j hj
      exact Or.inl hj
  have hmea : ([i] : List Nat).length +
      (width * height - ([i] : List Nat).length) < width * height + 1 := by
    simp only [List.length_singleton]
    omega
  obtain ⟨⟨hnr, _, _, hsound, hchar, hdich⟩, hsub⟩ :=
    islandFlood_loop width height g i V hi hdis (width * height + 1) [i]
      (bitSet1 V i) [i] hinv hmea
  refine ⟨hnr, ?_, hchar⟩
  intro j
  constructor
  · exact hsound j
  · intro hreach
    induction hreach with
    | refl => exact hsub i (List.mem_singleton_self _)
    | @tail b c hp hstep ihp =>
      rcases hdich b ihp with hq | hclosed
      · exact absurd hq (List.not_mem_nil _)
      · exact hclosed c hstep

theorem touches_chain (t : Bool) (width height idx : Nat) :
    (t || decide (idx % width = 0) || decide (idx % width = width - 1) ||
      decide (idx / width = 0) || decide (idx / width = height - 1)) =
    (t || onBorder width height idx) := by
  rw [onBorder]
  cases t <;> simp [Bool.or_assoc]

theorem holeFlood_loop (width height g i V : Nat) (hi : i < width * height)
    (hdis : ∀ j, Reach width height g 0 i j → ¬ (bitGet V j = 1)) :
    ∀ (fuel : Nat) (queue : List Nat) (visited : Nat) (region : List Nat)
      (touches : Bool),
      FloodInv width height g 0 i V queue visited region →
      TouchInv width height queue region touches →
      queue.length + (width * height - region.length) < fuel →
      FloodInv width height g 0 i V []
        (holeFlood width height g fuel queue visited region touches).1
        (holeFlood width height g fuel queue visited region touches).2.1 ∧
      TouchInv width height []
        (holeFlood width height g fuel queue visited region touches).2.1
        (holeFlood width height g fuel queue visited region touches).2.2 ∧
      (∀ j, j ∈ region →
        j ∈ (holeFlood width height g fuel queue visited region
          touches).2.1) := by
  intro fuel
  induction fuel with
  | zero => intro queue visited region touches _ _ hm; omega
  | succ fuel ih =>
    intro queue visited region touches hinv htinv hm
    cases queue with
    | nil => exact ⟨hinv, htinv, fun j hj => hj⟩
    | cons idx rest =>
      obtain ⟨hnr, hnq, hqsub, hsound, hchar, hdich⟩ := hinv
      obtain ⟨htc1, htc2⟩ := htinv
      have hidx : idx ∈ region := hqsub idx (List.mem_cons_self _ _)
      have hreach : Reach width height g 0 i idx := hsound idx hidx
      have hrsub : ∀ j, j ∈ rest → j ∈ region := fun j hj =>
        hqsub j (List.mem_cons_of_mem _ hj)
      have hrq : rest.Nodup := hnq.of_cons
      obtain ⟨hmid, hcov⟩ :=
        floodFold_spec (v := 0) hdis hreach hrsub hnr hrq hchar
      set st := neighborOffsets.foldl (regionVisit width height g 0 idx)
        (visited, rest, region) with hst
      obtain ⟨new, e_q, e_r, nod_r, nod_q, hsnew, hchar2⟩ := hmid
      have heq : holeFlood width height g (fuel + 1) (idx :: rest) visited
          region touches = holeFlood width height g fuel st.2.1 st.1 st.2.2
          (touches || decide (idx % width = 0) ||
            decide (idx % width = width - 1) || decide (idx / width = 0) ||
            decide (idx / width = height - 1)) := rfl
      rw [heq, touches_chain]
      have hsound2 : ∀ j, j ∈ st.2.2 → Reach width height g 0 i j := by
        intro j hj
        rw [e_r] at hj
        rcases List.mem_append.mp hj with hj | hj
        · exact hsound j hj
        · exact Relation.ReflTransGen.tail hreach (hsnew j hj)
      have hinv2 : FloodInv width height g 0 i V st.2.1 st.1 st.2.2 := by
        refine ⟨by rw [e_r]; exact nod_r, by rw [e_q]; exact nod_q,
          ?_, hsound2, ?_, ?_⟩
        · intro j hj
          rw [e_q] at hj
          rw [e_r]
          rcases List.mem_append.mp hj with hj | hj
          · exact List.mem_append_left _ (hrsub j hj)
          · exact List.mem_append_right _ hj
        · intro j
          rw [e_r]
          exact hchar2 j
        · intro j hj
          rw [e_r] at hj
          rcases List.mem_append.mp hj with hj | hj
          · rcases hdich j hj with hq | hclosed
            · rcases List.mem_cons.mp hq with rfl | hq
              · exact Or.inr fun k hk => hcov k hk
              · exact Or.inl (by rw [e_q]; exact List.mem_append_left _ hq)
            · refine Or.inr fun k hk => ?_
              rw [e_r]
              exact List.mem_append_left _ (hclosed k hk)
          · exact Or.inl (by rw [e_q]; exact List.mem_append_right _ hj)
      have htinv2 : TouchInv width height st.2.1 st.2.2
          (touches || onBorder width height idx) := by
        constructor
        · intro ht
          rcases Bool.or_eq_true_iff.mp ht with ht | ht
          · obtain ⟨j, hj, hb⟩ := htc1 ht
            exact ⟨j, by rw [e_r]; exact List.mem_append_left _ hj, hb⟩
          · exact ⟨idx, by rw [e_r]; exact List.mem_append_left _ hidx, ht⟩
        · intro j hjmem hjq hb
          rw [e_r] at hjmem
          rw [e_q] at hjq
          rcases List.mem_append.mp hjmem with hjm | hjm
          · by_cases hji : j = idx
            · subst hji
              rw [hb, Bool.or_true]
            · have hjrest : j ∉ rest := fun hjr =>
                hjq (List.mem_append_left _ hjr)
              have hnotc : j ∉ idx :: rest := by
                intro hc
                rcases List.mem_cons.mp hc with rfl | hc
                · exact hji rfl
                · exact hjrest hc
              rw [htc2 j hjm hnotc hb, Bool.true_or]
          · exact absurd (List.mem_append_right rest hjm) hjq
      have hlen : st.2.2.length ≤ width * height := by
        rw [e_r]
        rw [e_r] at hsound2
        exact region_length_le hi nod_r hsound2
      have hm2 : st.2.1.length + (width * height - st.2.2.length) < fuel := by
        rw [e_q, e_r]
        rw [e_r] at hlen
        have h1 : (idx :: rest).length = rest.length + 1 := by simp
        rw [h1] at hm
        rw [List.length_append] at hlen ⊢
        rw [List.length_append]
        omega
      obtain ⟨hfin, htfin, hsub2⟩ := ih st.2.1 st.1 st.2.2
        (touches || onBorder width height idx) hinv2 htinv2 hm2
      refine ⟨hfin, htfin, ?_⟩
      intro j hj
      exact hsub2 j (by rw [e_r]; exact List.mem_append_left _ hj)

theorem holeFlood_spec (width height g i V : Nat) (hi : i < width * height)
    (hdis : ∀ j, Reach width height g 0 i j → ¬ (bitGet V j = 1)) :
    (holeFlood width height g (width * height + 1) [i] (bitSet1 V i) [i]
        false).2.1.Nodup ∧
    (∀ j, j ∈ (holeFlood width height g (width * height + 1) [i]
        (bitSet1 V i) [i] false).2.1 ↔ Reach width height g 0 i j) ∧
    (∀ j, bitGet (holeFlood width height g (width * height + 1) [i]
        (bitSet1 V i) [i] false).1 j = 1 ↔
      (bitGet V j = 1 ∨ j ∈ (holeFlood width height g (width * height + 1)
        [i] (bitSet1 V i) [i] false).2.1)) ∧
    ((holeFlood width height g (width * height + 1) [i] (bitSet1 V i) [i]
        false).2.2 = true ↔
      ∃ t ∈ (holeFlood width height g (width * height + 1) [i] (bitSet1 V i)
        [i] false).2.1, onBorder width height t = true) := by
  have hinv : FloodInv width height g 0 i V [i] (bitSet1 V i) [i] := by
    refine ⟨List.nodup_singleton _, List.nodup_singleton _,
      fun j hj => hj, ?_, ?_, ?_⟩
    · intro j hj
      rw [List.mem_singleton] at hj
      subst hj
      exact Relation.ReflTransGen.refl
    · intro j
      rw [bitGet_bitSet1, List.mem_singleton]
      by_cases hji : j = i
      · subst hji; simp
      · rw [if_neg hji]; simp [hji]
    · intro j hj
      exact Or.inl hj
  have htinv : TouchInv width height [i] [i] false := by
    constructor
    · intro ht; exact absurd ht (by simp)
    · intro j hj hjq _
      exact absurd hj hjq
  have hmea : ([i] : List Nat).length +
      (width * height - ([i] : List Nat).length) < width * height + 1 := by
    simp only [List.length_singleton]
    omega
  obtain ⟨⟨hnr, _, _, hsound, hchar, hdich⟩, ⟨htc1, htc2⟩, hsub⟩ :=
    holeFlood_loop width height g i V hi hdis (width * height + 1) [i]
      (bitSet1 V i) [i] false hinv htinv hmea
  refine ⟨hnr, ?_, hchar, ?_⟩
  · intro j
    constructor
    · exact hsound j
    · intro hreach
      induction hreach with
      | refl => exact hsub i (List.mem_singleton_self _)
      | @tail b c hp hstep ihp =>
        rcases hdich b ihp with hq | hclosed
        · exact absurd hq (List.not_mem_nil _)
        · exact hclosed c hstep
  · constructor
    · exact htc1
    · rintro ⟨t, ht, hb⟩
      exact htc2 t ht (List.not_mem_nil _) hb

/-! ### Scan-level machinery -/

theorem islandStep_eq (width height minIsland result visited i : Nat) :
    islandStep width height minIsland (result, visited) i =
      if bitGet result i = 1 && !(bitGet visited i = 1) then
        (if (islandFlood width height result (width * height + 1) [i]
            (bitSet1 visited i) [i]).2.length < minIsland then
          ((islandFlood width height result (width * height + 1) [i]
              (bitSet1 visited i) [i]).2.foldl (fun r j => bitClear r j)
            result,
           (islandFlood width height result (width * height + 1) [i]
              (bitSet1 visited i) [i]).1)
        else (result,
          (islandFlood width height result (width * height + 1) [i]
            (bitSet1 visited i) [i]).1))
      else (result, visited) := rfl

theorem holeStep_eq (width height holeFill result visited i : Nat) :
    holeStep width height holeFill (result, visited) i =
      if bitGet result i = 0 && !(bitGet visited i = 1) then
        (if !(holeFlood width height result (width * height + 1) [i]
              (bitSet1 visited i) [i] false).2.2 &&
            (holeFlood width height result (width * height + 1) [i]
              (bitSet1 visited i) [i] false).2.1.length < holeFill then
          ((holeFlood width height result (width * height + 1) [i]
              (bitSet1 visited i) [i] false).2.1.foldl
            (fun r j => bitSet1 r j) result,
           (holeFlood width height result (width * height + 1) [i]
              (bitSet1 visited i) [i] false).1)
        else (result,
          (holeFlood width height result (width * height + 1) [i]
            (bitSet1 visited i) [i] false).1))
      else (result, visited) := rfl

theorem foldl_inv_mem {α β : Type} (f : α → β → α) (P : α → Prop) :
    ∀ (l : List β) (init : α), P init →
      (∀ st x, x ∈ l → P st → P (f st x)) → P (l.foldl f init)
  | [], _, h, _ => h
  | x :: xs, init, h, hstep => by
    rw [List.foldl_cons]
    exact foldl_inv_mem f P xs (f init x)
      (hstep init x (List.mem_cons_self _ _) h)
      (fun st y hy hP => hstep st y (List.mem_cons_of_mem _ hy) hP)

theorem foldl_elem {α β : Type} (f : α → β → α) (Q : α → Prop)
    (P : β → α → Prop) :
    ∀ (l : List β) (init : α), Q init →
      (∀ st x, x ∈ l → Q st → Q (f st x)) →
      (∀ st x, x ∈ l → Q st → P x (f st x)) →
      (∀ st x y, y ∈ l → P x st → P x (f st y)) →
      ∀ x ∈ l, P x (l.foldl f init)
  | [], _, _, _, _, _ => by
    intro x hx; exact absurd hx (List.not_mem_nil _)
  | y :: ys, init, hQ, hQstep, hestab, hmono => by
    intro x hx
    rw [List.foldl_cons]
    rcases List.mem_cons.mp hx with rfl | hx
    · refine foldl_inv_mem f (P x) ys (f init x)
        (hestab init x (List.mem_cons_self _ _) hQ) ?_
      exact fun st z hz hP => hmono st x z (List.mem_cons_of_mem _ hz) hP
    · exact foldl_elem f Q P ys (f init y)
        (hQstep init y (List.mem_cons_self _ _) hQ)
        (fun st z hz h => hQstep st z (List.mem_cons_of_mem _ hz) h)
        (fun st z hz h => hestab st z (List.mem_cons_of_mem _ hz) h)
        (fun st z w hw h => hmono st z w (List.mem_cons_of_mem _ hw) h)
        x hx

theorem regionVisit_visited_le {width height g v root : Nat}
    {st : Nat × List Nat × List Nat} {d : Int × Int} {j : Nat}
    (hj : bitGet st.1 j = 1) :
    bitGet (regionVisit width height g v root st d).1 j = 1 := by
  obtain ⟨visited, queue, region⟩ := st
  dsimp only at hj
  rw [regionVisit_eq]
  by_cases hok : offOk width height root d = true
  · rw [if_pos hok]
    by_cases hguard : (bitGet g (offTarget width root d) = v &&
        !(bitGet visited (offTarget width root d) = 1)) = true
    · rw [if_pos hguard]
      dsimp only
      rw [bitGet_bitSet1]
      by_cases hjt : j = offTarget width root d
      · rw [if_pos hjt]
      · rw [if_neg hjt]; exact hj
    · rw [if_neg hguard]; exact hj
  · rw [if_neg hok]; exact hj

theorem islandFlood_visited_le (width height g : Nat) :
    ∀ (fuel : Nat) (queue : List Nat) (visited : Nat) (region : List Nat)
      (j : Nat), bitGet visited j = 1 →
      bitGet (islandFlood width height g fuel queue visited region).1 j = 1
  | 0, _, _, _, _, hj => hj
  | _ + 1, [], _, _, _, hj => hj
  | fuel + 1, idx :: rest, visited, region, j, hj => by
    have hstep : bitGet ((neighborOffsets.foldl
        (regionVisit width height g 1 idx) (visited, rest, region))).1 j = 1 :=
      foldl_inv_mem _ (fun st => bitGet st.1 j = 1) neighborOffsets
        (visited, rest, region) hj
        (fun st d _ h => regionVisit_visited_le h)
    exact islandFlood_visited_le width height g fuel _ _ _ j hstep

theorem holeFlood_visited_le (width height g : Nat) :
    ∀ (fuel : Nat) (queue : List Nat) (visited : Nat) (region : List Nat)
      (touches : Bool) (j : Nat), bitGet visited j = 1 →
      bitGet (holeFlood width height g fuel queue visited region
        touches).1 j = 1
  | 0, _, _, _, _, _, hj => hj
  | _ + 1, [], _, _, _, _, hj => hj
  | fuel + 1, idx :: rest, visited, region, touches, j, hj => by
    have hstep : bitGet ((neighborOffsets.foldl
        (regionVisit width height g 0 idx) (visited, rest, region))).1 j = 1 :=
      foldl_inv_mem _ (fun st => bitGet st.1 j = 1) neighborOffsets
        (visited, rest, region) hj
        (fun st d _ h => regionVisit_visited_le h)
    exact holeFlood_visited_le width height g fuel _ _ _ _ j hstep

theorem islandStep_visited_le {width height minIsland : Nat}
    {st : Nat × Nat} {i j : Nat} (hj : bitGet st.2 j = 1) :
    bitGet (islandStep width height minIsland st i).2 j = 1 := by
  obtain ⟨result, visited⟩ := st
  dsimp only at hj
  rw [islandStep_eq]
  by_cases hg : (bitGet result i = 1 && !(bitGet visited i = 1)) = true
  · rw [if_pos hg]
    have h1 : bitGet (bitSet1 visited i) j = 1 := by
      rw [bitGet_bitSet1]
      by_cases hji : j = i
      · rw [if_pos hji]
      · rw [if_neg hji]; exact hj
    have h2 := islandFlood_visited_le width height result
      (width * height + 1) [i] (bitSet1 visited i) [i] j h1
    by_cases hlen : (islandFlood width height result (width * height + 1) [i]
        (bitSet1 visited i) [i]).2.length < minIsland
    · rw [if_pos hlen]; exact h2
    · rw [if_neg hlen]; exact h2
  · rw [if_neg hg]; exact hj

theorem holeStep_visited_le {width height holeFill : Nat}
    {st : Nat × Nat} {i j : Nat} (hj : bitGet st.2 j = 1) :
    bitGet (holeStep width height holeFill st i).2 j = 1 := by
  obtain ⟨result, visited⟩ := st
  dsimp only at hj
  rw [holeStep_eq]
  by_cases hg : (bitGet result i = 0 && !(bitGet visited i = 1)) = true
  · rw [if_pos hg]
    have h1 : bitGet (bitSet1 visited i) j = 1 := by
      rw [bitGet_bitSet1]
      by_cases hji : j = i
      · rw [if_pos hji]
      · rw [if_neg hji]; exact hj
    have h2 := holeFlood_visited_le width height result
      (width * height + 1) [i] (bitSet1 visited i) [i] false j h1
    by_cases hlen : (!(holeFlood width height result (width * height + 1) [i]
          (bitSet1 visited i) [i] false).2.2 &&
        (holeFlood width height result (width * height + 1) [i]
          (bitSet1 visited i) [i] false).2.1.length < holeFill) = true
    · rw [if_pos hlen]; exact h2
    · rw [if_neg hlen]; exact h2
  · rw [if_neg hg]; exact hj

theorem islandStep_result_le {width height minIsland : Nat}
    {st : Nat × Nat} {i j : Nat}
    (hj : bitGet (islandStep width height minIsland st i).1 j = 1) :
    bitGet st.1 j = 1 := by
  obtain ⟨result, visited⟩ := st
  rw [islandStep_eq] at hj
  by_cases hg : (bitGet result i = 1 && !(bitGet visited i = 1)) = true
  · rw [if_pos hg] at hj
    by_cases hlen : (islandFlood width height result (width * height + 1) [i]
        (bitSet1 visited i) [i]).2.length < minIsland
    · rw [if_pos hlen] at hj
      dsimp only at hj
      rw [bitGet_foldl_bitClear] at hj
      by_cases hjR : j ∈ (islandFlood width height result
          (width * height + 1) [i] (bitSet1 visited i) [i]).2
      · rw [if_pos hjR] at hj; exact absurd hj (by simp)
      · rw [if_neg hjR] at hj; exact hj
    · rw [if_neg hlen] at hj; exact hj
  · rw [if_neg hg] at hj; exact hj

theorem holeStep_result_ge {width height holeFill : Nat}
    {st : Nat × Nat} {i j : Nat} (hj : bitGet st.1 j = 1) :
    bitGet (holeStep width height holeFill st i).1 j = 1 := by
  obtain ⟨result, visited⟩ := st
  dsimp only at hj
  rw [holeStep_eq]
  by_cases hg : (bitGet result i = 0 && !(bitGet visited i = 1)) = true
  · rw [if_pos hg]
    by_cases hlen : (!(holeFlood width height result (width * height + 1) [i]
          (bitSet1 visited i) [i] false).2.2 &&
        (holeFlood width height result (width * height + 1) [i]
          (bitSet1 visited i) [i] false).2.1.length < holeFill) = true
    · rw [if_pos hlen]
      dsimp only
      rw [bitGet_foldl_bitSet1]
      by_cases hjR : j ∈ (holeFlood width height result
          (width * height + 1) [i] (bitSet1 visited i) [i] false).2.1
      · rw [if_pos hjR]
      · rw [if_neg hjR]; exact hj
    · rw [if_neg hlen]; exact hj
  · rw [if_neg hg]; exact hj

theorem holeStep_result_zero {width height holeFill : Nat}
    {st : Nat × Nat} {i j : Nat}
    (hj : bitGet (holeStep width height holeFill st i).1 j = 0) :
    bitGet st.1 j = 0 := by
  have h2 := bitGet_lt_two st.1 j
  by_cases h : bitGet st.1 j = 1
  · have := @holeStep_result_ge width height holeFill st i j h
    omega
  · omega

theorem comp1_exists (width height g i : Nat) (hi : i < width * height) :
    ∃ R : List Nat, R.Nodup ∧
      ∀ j, j ∈ R ↔ Reach width height g 1 i j := by
  have hdis : ∀ j, Reach width height g 1 i j → ¬ (bitGet 0 j = 1) := by
    intro j _
    rw [bitGet_zero]; simp
  obtain ⟨hnr, hiff, _⟩ := islandFlood_spec width height g i 0 hi hdis
  exact ⟨_, hnr, hiff⟩

theorem comp0_exists (width height g i : Nat) (hi : i < width * height) :
    ∃ R : List Nat, R.Nodup ∧
      ∀ j, j ∈ R ↔ Reach width height g 0 i j := by
  have hdis : ∀ j, Reach width height g 0 i j → ¬ (bitGet 0 j = 1) := by
    intro j _
    rw [bitGet_zero]; simp
  obtain ⟨hnr, hiff, _, _⟩ := holeFlood_spec width height g i 0 hi hdis
  exact ⟨_, hnr, hiff⟩

theorem islandStep_fix {width height minIsland m : Nat} {st : Nat × Nat}
    {k : Nat} (hk : k < width * height)
    (H : ∀ i, i < width * height → bitGet m i = 1 →
      CompBig width height m i minIsland)
    (hinv : IslandFixInv width height m st) :
    IslandFixInv width height m (islandStep width height minIsland st k) := by
  obtain ⟨result, visited⟩ := st
  obtain ⟨hres, hvis⟩ := hinv
  dsimp only at hres hvis
  subst hres
  rw [islandStep_eq]
  by_cases hg1 : bitGet result k = 1
  · by_cases hg2 : bitGet visited k = 1
    · rw [if_neg (by simp [hg1, hg2])]
      exact ⟨rfl, hvis⟩
    · rw [if_pos (by simp [hg1, hg2])]
      have hdis : ∀ t, Reach width height result 1 k t →
          ¬ (bitGet visited t = 1) := by
        intro t hreach hvt
        rcases Reach_val hreach with rfl | htv
        · exact hg2 hvt
        · exact hg2 ((hvis t hvt).2.2 k (Reach_rev hk hg1 hreach))
      obtain ⟨hnr, hiff, hchar⟩ :=
        islandFlood_spec width height result k visited hk hdis
      obtain ⟨RH, hRHnodup, hRHiff, hRHlen⟩ := H k hk hg1
      have hsub : RH ⊆ (islandFlood width height result
          (width * height + 1) [k] (bitSet1 visited k) [k]).2 := by
        intro t ht
        exact (hiff t).mpr ((hRHiff t).mp ht)
      have hlen : minIsland ≤ (islandFlood width height result
          (width * height + 1) [k] (bitSet1 visited k) [k]).2.length :=
        le_trans hRHlen (hRHnodup.subperm hsub).length_le
      rw [if_neg (by omega)]
      refine ⟨rfl, ?_⟩
      intro j hj
      rcases (hchar j).mp hj with hjv | hjR
      · obtain ⟨hjlt, hjval, hjclos⟩ := hvis j hjv
        exact ⟨hjlt, hjval, fun t ht => (hchar t).mpr (Or.inl (hjclos t ht))⟩
      · have hreachj : Reach width height result 1 k j := (hiff j).mp hjR
        have hjlt : j < width * height := Reach_lt hk hreachj
        have hjval : bitGet result j = 1 := by
          rcases Reach_val hreachj with rfl | h
          · exact hg1
          · exact h
        refine ⟨hjlt, hjval, ?_⟩
        intro t hreacht
        have hkt : Reach width height result 1 k t :=
          Relation.ReflTransGen.trans hreachj hreacht
        exact (hchar t).mpr (Or.inr ((hiff t).mpr hkt))
  · rw [if_neg (by simp [hg1])]
    exact ⟨rfl, hvis⟩

theorem islandPass_fix (width height minIsland m : Nat)
    (H : ∀ i, i < width * height → bitGet m i = 1 →
      CompBig width height m i minIsland) :
    islandPass width height minIsland m = m := by
  rw [islandPass]
  by_cases h0 : minIsland > 0
  · rw [if_pos h0]
    have hfin : IslandFixInv width height m
        ((List.range (width * height)).foldl
          (islandStep width height minIsland) (m, 0)) := by
      refine foldl_inv_mem _ (IslandFixInv width height m) _ (m, 0)
        ⟨rfl, fun j hj => absurd hj (by simp [bitGet_zero])⟩ ?_
      intro st k hk hinv
      exact islandStep_fix (List.mem_range.mp hk) H hinv
    exact hfin.1
  · rw [if_neg h0]

theorem holeStep_fix {width height holeFill m : Nat} {st : Nat × Nat}
    {k : Nat} (hk : k < width * height)
    (H : ∀ i, i < width * height → bitGet m i = 0 →
      HoleOk width height m i holeFill)
    (hinv : HoleFixInv width height m st) :
    HoleFixInv width height m (holeStep width height holeFill st k) := by
  obtain ⟨result, visited⟩ := st
  obtain ⟨hres, hvis⟩ := hinv
  dsimp only at hres hvis
  subst hres
  rw [holeStep_eq]
  by_cases hg1 : bitGet result k = 0
  · by_cases hg2 : bitGet visited k = 1
    · rw [if_neg (by simp [hg1, hg2])]
      exact ⟨rfl, hvis⟩
    · rw [if_pos (by simp [hg1, hg2])]
      have hdis : ∀ t, Reach width height result 0 k t →
          ¬ (bitGet visited t = 1) := by
        intro t hreach hvt
        rcases Reach_val hreach with rfl | htv
        · exact hg2 hvt
        · exact hg2 ((hvis t hvt).2.2 k (Reach_rev hk hg1 hreach))
      obtain ⟨hnr, hiff, hchar, htchiff⟩ :=
        holeFlood_spec width height result k visited hk hdis
      obtain ⟨RH, hRHnodup, hRHiff, hRHok⟩ := H k hk hg1
      have hguard2 : ¬ ((!(holeFlood width height result
            (width * height + 1) [k] (bitSet1 visited k) [k] false).2.2 &&
          (holeFlood width height result (width * height + 1) [k]
            (bitSet1 visited k) [k] false).2.1.length < holeFill) = true) := by
        rcases hRHok with ⟨t, htR, hbt⟩ | hlenH
        · have htch : (holeFlood width height result (width * height + 1)
              [k] (bitSet1 visited k) [k] false).2.2 = true :=
            htchiff.mpr ⟨t, (hiff t).mpr ((hRHiff t).mp htR), hbt⟩
          simp [htch]
        · have hsub : RH ⊆ (holeFlood width height result
              (width * height + 1) [k] (bitSet1 visited k) [k] false).2.1 := by
            intro t ht
            exact (hiff t).mpr ((hRHiff t).mp ht)
          have hlen : holeFill ≤ (holeFlood width height result
              (width * height + 1) [k] (bitSet1 visited k) [k]
                false).2.1.length :=
            le_trans hlenH (hRHnodup.subperm hsub).length_le
          intro hcon
          rw [Bool.and_eq_true] at hcon
          have := of_decide_eq_true hcon.2
          omega
      rw [if_neg hguard2]
      refine ⟨rfl, ?_⟩
      intro j hj
      rcases (hchar j).mp hj with hjv | hjR
      · obtain ⟨hjlt, hjval, hjclos⟩ := hvis j hjv
        exact ⟨hjlt, hjval, fun t ht => (hchar t).mpr (Or.inl (hjclos t ht))⟩
      · have hreachj : Reach width height result 0 k j := (hiff j).mp hjR
        have hjlt : j < width * height := Reach_lt hk hreachj
        have hjval : bitGet result j = 0 := by
          rcases Reach_val hreachj with rfl | h
          · exact hg1
          · exact h
        refine ⟨hjlt, hjval, ?_⟩
        intro t hreacht
        have hkt : Reach width height result 0 k t :=
          Relation.ReflTransGen.trans hreachj hreacht
        exact (hchar t).mpr (Or.inr ((hiff t).mpr hkt))
  · rw [if_neg (by simp [hg1])]
    exact ⟨rfl, hvis⟩

theorem holePass_fix (width height holeFill m : Nat)
    (H : ∀ i, i < width * height → bitGet m i = 0 →
      HoleOk width height m i holeFill) :
    holePass width height holeFill m = m := by
  rw [holePass]
  by_cases h0 : holeFill > 0
  · rw [if_pos h0]
    have hfin : HoleFixInv width height m
        ((List.range (width * height)).foldl
          (holeStep width height holeFill) (m, 0)) := by
      refine foldl_inv_mem _ (HoleFixInv width height m) _ (m, 0)
        ⟨rfl, fun j hj => absurd hj (by simp [bitGet_zero])⟩ ?_
      intro st k hk hinv
      exact holeStep_fix (List.mem_range.mp hk) H hinv
    exact hfin.1
  · rw [if_neg h0]

theorem islandStep_post {width height minIsland : Nat} {st : Nat × Nat}
    {k : Nat} (hk : k < width * height)
    (hinv : IslandScanInv width height minIsland st) :
    IslandScanInv width height minIsland
      (islandStep width height minIsland st k) := by
  obtain ⟨result, visited⟩ := st
  obtain ⟨hVlt, hRB⟩ := hinv
  dsimp only at hVlt hRB
  rw [islandStep_eq]
  by_cases hg1 : bitGet result k = 1
  swap
  · rw [if_neg (by simp [hg1])]
    exact ⟨hVlt, hRB⟩
  by_cases hg2 : bitGet visited k = 1
  · rw [if_neg (by simp [hg1, hg2])]
    exact ⟨hVlt, hRB⟩
  rw [if_pos (by simp [hg1, hg2])]
  have hdis : ∀ t, Reach width height result 1 k t →
      ¬ (bitGet visited t = 1) := by
    intro t hreach hvt
    rcases Reach_val hreach with rfl | htv
    · exact hg2 hvt
    · exact hg2 ((hRB t hvt htv).2 k (Reach_rev hk hg1 hreach))
  obtain ⟨hnr, hiff, hchar⟩ :=
    islandFlood_spec width height result k visited hk hdis
  have hVlt2 : ∀ j, bitGet (islandFlood width height result
      (width * height + 1) [k] (bitSet1 visited k) [k]).1 j = 1 →
      j < width * height := by
    intro j hj
    rcases (hchar j).mp hj with hjv | hjR
    · exact hVlt j hjv
    · exact Reach_lt hk ((hiff j).mp hjR)
  by_cases hlen : (islandFlood width height result (width * height + 1) [k]
      (bitSet1 visited k) [k]).2.length < minIsland
  · rw [if_pos hlen]
    have hres2 : ∀ j, bitGet ((islandFlood width height result
        (width * height + 1) [k] (bitSet1 visited k) [k]).2.foldl
          (fun r j2 => bitClear r j2) result) j =
        if j ∈ (islandFlood width height result (width * height + 1) [k]
          (bitSet1 visited k) [k]).2 then 0 else bitGet result j := fun j =>
      bitGet_foldl_bitClear _ _ _
    refine ⟨hVlt2, ?_⟩
    intro j hjvis hjres
    dsimp only at hjvis hjres ⊢
    have hjR : j ∉ (islandFlood width height result (width * height + 1) [k]
        (bitSet1 visited k) [k]).2 := by
      intro hjR
      rw [hres2 j, if_pos hjR] at hjres
      exact absurd hjres (by simp)
    have hjresold : bitGet result j = 1 := by
      rw [hres2 j, if_neg hjR] at hjres
      exact hjres
    have hjvisold : bitGet visited j = 1 := by
      rcases (hchar j).mp hjvis with h | h
      · exact h
      · exact absurd h hjR
    obtain ⟨⟨Rj, hRjnd, hRjiff, hRjlen⟩, hclosj⟩ := hRB j hjvisold hjresold
    have hjlt := hVlt j hjvisold
    have hdisj : ∀ t, Reach width height result 1 j t →
        t ∉ (islandFlood width height result (width * height + 1) [k]
          (bitSet1 visited k) [k]).2 := by
      intro t hreach htR
      have htj : Reach width height result 1 t j :=
        Reach_rev hjlt hjresold hreach
      have hkj : Reach width height result 1 k j :=
        Relation.ReflTransGen.trans ((hiff t).mp htR) htj
      exact hjR ((hiff j).mpr hkj)
    have hag : ∀ s, Reach width height result 1 j s →
        bitGet ((islandFlood width height result (width * height + 1) [k]
          (bitSet1 visited k) [k]).2.foldl (fun r j2 => bitClear r j2)
            result) s = bitGet result s := by
      intro s hs
      rw [hres2 s, if_neg (hdisj s hs)]
    have hback : ∀ t, Reach width height ((islandFlood width height result
        (width * height + 1) [k] (bitSet1 visited k) [k]).2.foldl
          (fun r j2 => bitClear r j2) result) 1 j t →
        Reach width height result 1 j t := by
      intro t ht
      refine Reach_back (fun s => s ∈ (islandFlood width height result
        (width * height + 1) [k] (bitSet1 visited k) [k]).2) ?_ ?_ ht
      · intro s hs
        rw [hres2 s, if_neg hs]
      · intro s hs
        rw [hres2 s, if_pos hs]
        simp
    refine ⟨⟨Rj, hRjnd, ?_, hRjlen⟩, ?_⟩
    · intro t
      constructor
      · intro ht
        exact Reach_transfer hag ((hRjiff t).mp ht)
      · intro ht
        exact (hRjiff t).mpr (hback t ht)
    · intro t ht
      exact (hchar t).mpr (Or.inl (hclosj t (hback t ht)))
  · rw [if_neg hlen]
    refine ⟨hVlt2, ?_⟩
    intro j hjvis hjres
    dsimp only at hjvis hjres ⊢
    rcases (hchar j).mp hjvis with hjvisold | hjR
    · obtain ⟨hcb, hclosj⟩ := hRB j hjvisold hjres
      exact ⟨hcb, fun t ht => (hchar t).mpr (Or.inl (hclosj t ht))⟩
    · have hreachj := (hiff j).mp hjR
      have hjk : Reach width height result 1 j k := Reach_rev hk hg1 hreachj
      have hiffj : ∀ t, t ∈ (islandFlood width height result
          (width * height + 1) [k] (bitSet1 visited k) [k]).2 ↔
          Reach width height result 1 j t := by
        intro t
        rw [hiff t]
        exact ⟨fun ht => Relation.ReflTransGen.trans hjk ht,
          fun ht => Relation.ReflTransGen.trans hreachj ht⟩
      refine ⟨⟨(islandFlood width height result (width * height + 1) [k]
        (bitSet1 visited k) [k]).2, hnr, hiffj, by omega⟩, ?_⟩
      intro t ht
      exact (hchar t).mpr (Or.inr ((hiffj t).mpr ht))

theorem islandStep_estab {width height minIsland : Nat} {st : Nat × Nat}
    {k : Nat} :
    bitGet (islandStep width height minIsland st k).1 k = 1 →
    bitGet (islandStep width height minIsland st k).2 k = 1 := by
  obtain ⟨result, visited⟩ := st
  rw [islandStep_eq]
  by_cases hg : (bitGet result k = 1 && !(bitGet visited k = 1)) = true
  · rw [if_pos hg]
    have hvk : bitGet (bitSet1 visited k) k = 1 := by
      rw [bitGet_bitSet1, if_pos rfl]
    have h2 := islandFlood_visited_le width height result
      (width * height + 1) [k] (bitSet1 visited k) [k] k hvk
    by_cases hlen : (islandFlood width height result (width * height + 1)
        [k] (bitSet1 visited k) [k]).2.length < minIsland
    · rw [if_pos hlen]
      intro _
      exact h2
    · rw [if_neg hlen]
      intro _
      exact h2
  · rw [if_neg hg]
    intro hres
    by_cases h1 : bitGet result k = 1
    · by_cases h2 : bitGet visited k = 1
      · exact h2
      · exact absurd (by simp [h1, h2]) hg
    · exact absurd hres h1

theorem islandPass_post (width height minIsland mask : Nat) :
    ∀ i, i < width * height →
      bitGet (islandPass width height minIsland mask) i = 1 →
      CompBig width height (islandPass width height minIsland mask) i
        minIsland := by
  intro i hi hbit
  by_cases h0 : minIsland > 0
  · rw [islandPass, if_pos h0] at hbit ⊢
    have hQ0 : IslandScanInv width height minIsland (mask, 0) := by
      constructor
      · intro j hj
        exact absurd hj (by simp [bitGet_zero])
      · intro j hj
        exact absurd hj (by simp [bitGet_zero])
    have hQstep : ∀ (st : Nat × Nat) (x : Nat),
        x ∈ List.range (width * height) →
        IslandScanInv width height minIsland st →
        IslandScanInv width height minIsland
          (islandStep width height minIsland st x) :=
      fun st x hx hQ => islandStep_post (List.mem_range.mp hx) hQ
    have hQ : IslandScanInv width height minIsland
        ((List.range (width * height)).foldl
          (islandStep width height minIsland) (mask, 0)) :=
      foldl_inv_mem _ _ _ (mask, 0) hQ0 hQstep
    have hP : ∀ x ∈ List.range (width * height),
        (bitGet ((List.range (width * height)).foldl
          (islandStep width height minIsland) (mask, 0)).1 x = 1 →
         bitGet ((List.range (width * height)).foldl
          (islandStep width height minIsland) (mask, 0)).2 x = 1) := by
      refine foldl_elem _ (IslandScanInv width height minIsland)
        (fun x st => bitGet st.1 x = 1 → bitGet st.2 x = 1) _ (mask, 0)
        hQ0 hQstep ?_ ?_
      · intro st x _ _
        exact islandStep_estab
      · intro st x y _ hP hres
        exact islandStep_visited_le (hP (islandStep_result_le hres))
    have hvis := hP i (List.mem_range.mpr hi) hbit
    exact (hQ.2 i hvis hbit).1
  · rw [islandPass, if_neg h0] at hbit ⊢
    obtain ⟨R, hnd, hiffR⟩ := comp1_exists width height mask i hi
    exact ⟨R, hnd, hiffR, by omega⟩

/-! ### Hole pass postcondition -/

theorem hole_march (width height g k : Nat) (hk : k < width * height)
    (hnb : ∀ t, Reach width height g 0 k t →
      onBorder width height t = false) :
    ∃ t c, Reach width height g 0 k t ∧ cellAdj width height t c ∧
      bitGet g c = 1 := by
  suffices haux : ∀ x t, Reach width height g 0 k t → t % width = x →
      ∃ t2 c, Reach width height g 0 k t2 ∧ cellAdj width height t2 c ∧
        bitGet g c = 1 by
    exact haux (k % width) k Relation.ReflTransGen.refl rfl
  intro x
  induction x using Nat.strong_induction_on with
  | _ x ih =>
    intro t hreach hx
    have htlt : t < width * height := Reach_lt hk hreach
    have hb := hnb t hreach
    have hx0 : t % width ≠ 0 := by
      intro h0
      rw [onBorder] at hb
      simp [h0] at hb
    have hadj : cellAdj width height t (t - 1) :=
      cellAdj_pred htlt (by omega)
    by_cases h1 : bitGet g (t - 1) = 1
    · exact ⟨t, t - 1, hreach, hadj, h1⟩
    · have h0 : bitGet g (t - 1) = 0 := by
        have := bitGet_lt_two g (t - 1)
        omega
      have hreach2 : Reach width height g 0 k (t - 1) :=
        Relation.ReflTransGen.tail hreach ⟨hadj, h0⟩
      have hw : 0 < width := (cellAdj_lt hadj).2.1
      have hdm : t / width * width + t % width = t := by
        rw [Nat.mul_comm]
        exact Nat.div_add_mod t width
      have hrw : t % width < width := Nat.mod_lt _ hw
      have ht1 : t - 1 = t / width * width + (t % width - 1) := by omega
      have hmod : (t - 1) % width = t % width - 1 := by
        rw [ht1, row_mod _ _ _ (by omega)]
      exact ih (t % width - 1) (by omega) (t - 1) hreach2 hmod

theorem holeStep_post {width height holeFill m1 : Nat} {st : Nat × Nat}
    {k : Nat} (hk : k < width * height)
    (hinv : HoleScanInv width height holeFill m1 st) :
    HoleScanInv width height holeFill m1
      (holeStep width height holeFill st k) := by
  obtain ⟨result, visited⟩ := st
  obtain ⟨hGrow, hFill, hVlt, hRB⟩ := hinv
  dsimp only at hGrow hFill hVlt hRB
  rw [holeStep_eq]
  by_cases hg1 : bitGet result k = 0
  swap
  · rw [if_neg (by simp [hg1])]
    exact ⟨hGrow, hFill, hVlt, hRB⟩
  by_cases hg2 : bitGet visited k = 1
  · rw [if_neg (by simp [hg1, hg2])]
    exact ⟨hGrow, hFill, hVlt, hRB⟩
  rw [if_pos (by simp [hg1, hg2])]
  have hdis : ∀ t, Reach width height result 0 k t →
      ¬ (bitGet visited t = 1) := by
    intro t hreach hvt
    rcases Reach_val hreach with rfl | htv
    · exact hg2 hvt
    · exact hg2 ((hRB t hvt htv).2 k (Reach_rev hk hg1 hreach))
  obtain ⟨hnr, hiff, hchar, htchiff⟩ :=
    holeFlood_spec width height result k visited hk hdis
  have hVlt2 : ∀ j, bitGet (holeFlood width height result
      (width * height + 1) [k] (bitSet1 visited k) [k] false).1 j = 1 →
      j < width * height := by
    intro j hj
    rcases (hchar j).mp hj with hjv | hjR
    · exact hVlt j hjv
    · exact Reach_lt hk ((hiff j).mp hjR)
  by_cases hguard2 : (!(holeFlood width height result (width * height + 1)
        [k] (bitSet1 visited k) [k] false).2.2 &&
      (holeFlood width height result (width * height + 1) [k]
        (bitSet1 visited k) [k] false).2.1.length < holeFill) = true
  · -- FILL
    rw [if_pos hguard2]
    rw [Bool.and_eq_true] at hguard2
    have htch : (holeFlood width height result (width * height + 1) [k]
        (bitSet1 visited k) [k] false).2.2 = false := by
      have h := hguard2.1
      revert h
      cases (holeFlood width height result (width * height + 1) [k]
        (bitSet1 visited k) [k] false).2.2 <;> simp
    have hnoborder : ∀ t, t ∈ (holeFlood width height result
        (width * height + 1) [k] (bitSet1 visited k) [k] false).2.1 →
        onBorder width height t = false := by
      intro t ht
      cases hob : onBorder width height t
      · rfl
      · have := htchiff.mpr ⟨t, ht, hob⟩
        rw [htch] at this
        exact absurd this (by simp)
    have hres2 : ∀ j, bitGet ((holeFlood width height result
        (width * height + 1) [k] (bitSet1 visited k) [k]
          false).2.1.foldl (fun r j2 => bitSet1 r j2) result) j =
        if j ∈ (holeFlood width height result (width * height + 1) [k]
          (bitSet1 visited k) [k] false).2.1 then 1
        else bitGet result j := fun j => bitGet_foldl_bitSet1 _ _ _
    have hRval : ∀ j, j ∈ (holeFlood width height result
        (width * height + 1) [k] (bitSet1 visited k) [k] false).2.1 →
        bitGet result j = 0 := by
      intro j hj
      rcases Reach_val ((hiff j).mp hj) with rfl | h
      · exact hg1
      · exact h
    have hup : ∀ t, bitGet result t = 1 →
        bitGet ((holeFlood width height result (width * height + 1) [k]
          (bitSet1 visited k) [k] false).2.1.foldl
            (fun r j2 => bitSet1 r j2) result) t = 1 := by
      intro t ht
      rw [hres2 t]
      by_cases htR : t ∈ (holeFlood width height result
          (width * height + 1) [k] (bitSet1 visited k) [k] false).2.1
      · rw [if_pos htR]
      · rw [if_neg htR]
        exact ht
    obtain ⟨tm, cm, htm, hcm, hcm1⟩ := hole_march width height result k hk
      (fun t ht => hnoborder t ((hiff t).mpr ht))
    refine ⟨?_, ?_, hVlt2, ?_⟩
    · intro j hj
      exact hup j (hGrow j hj)
    · intro j hj
      dsimp only at hj ⊢
      by_cases hjR : j ∈ (holeFlood width height result
          (width * height + 1) [k] (bitSet1 visited k) [k] false).2.1
      · refine Or.inr ⟨Reach_lt hk ((hiff j).mp hjR), ?_⟩
        have hreachj : Reach width height result 0 k j := (hiff j).mp hjR
        have hreachjt : Reach width height result 0 j tm :=
          Relation.ReflTransGen.trans (Reach_rev hk hg1 hreachj) htm
        have hfill2 : ∀ s, Reach width height result 0 j s →
            bitGet ((holeFlood width height result (width * height + 1) [k]
              (bitSet1 visited k) [k] false).2.1.foldl
                (fun r j2 => bitSet1 r j2) result) s = 1 := by
          intro s hs
          have hks : Reach width height result 0 k s :=
            Relation.ReflTransGen.trans hreachj hs
          rw [hres2 s, if_pos ((hiff s).mpr hks)]
        have hj2tm := Reach_fill_lift hfill2 hreachjt
        have hj2cm : Reach width height ((holeFlood width height result
            (width * height + 1) [k] (bitSet1 visited k) [k]
              false).2.1.foldl (fun r j2 => bitSet1 r j2) result) 1 j cm :=
          Relation.ReflTransGen.tail hj2tm ⟨hcm, hup cm hcm1⟩
        rcases hFill cm hcm1 with hcmold |
          ⟨hcmlt, c0, hc0lt, hc0m1, hc0reach⟩
        · exact ⟨cm, (cellAdj_lt hcm).1, hcmold, hj2cm⟩
        · exact ⟨c0, hc0lt, hc0m1, Relation.ReflTransGen.trans hj2cm
            (Reach_mono hup hc0reach)⟩
      · rw [hres2 j, if_neg hjR] at hj
        rcases hFill j hj with hold | ⟨hjlt, c0, hc0lt, hc0m1, hc0reach⟩
        · exact Or.inl hold
        · exact Or.inr ⟨hjlt, c0, hc0lt, hc0m1, Reach_mono hup hc0reach⟩
    · intro j hjvis hjres0
      dsimp only at hjvis hjres0 ⊢
      have hjR : j ∉ (holeFlood width height result (width * height + 1)
          [k] (bitSet1 visited k) [k] false).2.1 := by
        intro hjR
        rw [hres2 j, if_pos hjR] at hjres0
        exact absurd hjres0 (by simp)
      have hjres : bitGet result j = 0 := by
        rw [hres2 j, if_neg hjR] at hjres0
        exact hjres0
      have hjvisold : bitGet visited j = 1 := by
        rcases (hchar j).mp hjvis with h | h
        · exact h
        · exact absurd h hjR
      obtain ⟨⟨Rj, hRjnd, hRjiff, hRjok⟩, hclosj⟩ := hRB j hjvisold hjres
      have hjlt := hVlt j hjvisold
      have hdisj : ∀ t, Reach width height result 0 j t →
          t ∉ (holeFlood width height result (width * height + 1) [k]
            (bitSet1 visited k) [k] false).2.1 := by
        intro t hreach htR
        have htj : Reach width height result 0 t j :=
          Reach_rev hjlt hjres hreach
        have hkj : Reach width height result 0 k j :=
          Relation.ReflTransGen.trans ((hiff t).mp htR) htj
        exact hjR ((hiff j).mpr hkj)
      have hag : ∀ s, Reach width height result 0 j s →
          bitGet ((holeFlood width height result (width * height + 1) [k]
            (bitSet1 visited k) [k] false).2.1.foldl
              (fun r j2 => bitSet1 r j2) result) s = bitGet result s := by
        intro s hs
        rw [hres2 s, if_neg (hdisj s hs)]
      have hback : ∀ t, Reach width height ((holeFlood width height result
          (width * height + 1) [k] (bitSet1 visited k) [k]
            false).2.1.foldl (fun r j2 => bitSet1 r j2) result) 0 j t →
          Reach width height result 0 j t := by
        intro t ht
        refine Reach_back (fun s => s ∈ (holeFlood width height result
          (width * height + 1) [k] (bitSet1 visited k) [k]
            false).2.1) ?_ ?_ ht
        · intro s hs
          rw [hres2 s, if_neg hs]
        · intro s hs
          rw [hres2 s, if_pos hs]
          simp
      refine ⟨⟨Rj, hRjnd, ?_, hRjok⟩, ?_⟩
      · intro t
        constructor
        · intro ht
          exact Reach_transfer hag ((hRjiff t).mp ht)
        · intro ht
          exact (hRjiff t).mpr (hback t ht)
      · intro t ht
        exact (hchar t).mpr (Or.inl (hclosj t (hback t ht)))
  · -- NO FILL
    rw [if_neg hguard2]
    refine ⟨hGrow, hFill, hVlt2, ?_⟩
    intro j hjvis hjres
    dsimp only at hjvis hjres ⊢
    rcases (hchar j).mp hjvis with hjvisold | hjR
    · obtain ⟨hok, hclosj⟩ := hRB j hjvisold hjres
      exact ⟨hok, fun t ht => (hchar t).mpr (Or.inl (hclosj t ht))⟩
    · have hreachj : Reach width height result 0 k j := (hiff j).mp hjR
      have hjk : Reach width height result 0 j k :=
        Reach_rev hk hg1 hreachj
      have hiffj : ∀ t, t ∈ (holeFlood width height result
          (width * height + 1) [k] (bitSet1 visited k) [k] false).2.1 ↔
          Reach width height result 0 j t := by
        intro t
        rw [hiff t]
        exact ⟨fun ht => Relation.ReflTransGen.trans hjk ht,
          fun ht => Relation.ReflTransGen.trans hreachj ht⟩
      refine ⟨⟨(holeFlood width height result (width * height + 1) [k]
        (bitSet1 visited k) [k] false).2.1, hnr, hiffj, ?_⟩, ?_⟩
      · by_cases htch : (holeFlood width height result
            (width * height + 1) [k] (bitSet1 visited k) [k]
              false).2.2 = true
        · obtain ⟨t, htR, hbt⟩ := htchiff.mp htch
          exact Or.inl ⟨t, htR, hbt⟩
        · refine Or.inr ?_
          have htchf : (holeFlood width height result (width * height + 1)
              [k] (bitSet1 visited k) [k] false).2.2 = false := by
            revert htch
            cases (holeFlood width height result (width * height + 1) [k]
              (bitSet1 visited k) [k] false).2.2 <;> simp
          by_contra hlt
          exact hguard2 (by simp [htchf]; omega)
      · intro t ht
        exact (hchar t).mpr (Or.inr ((hiffj t).mpr ht))

theorem holeStep_estab {width height holeFill : Nat} {st : Nat × Nat}
    {k : Nat} :
    bitGet (holeStep width height holeFill st k).1 k = 0 →
    bitGet (holeStep width height holeFill st k).2 k = 1 := by
  obtain ⟨result, visited⟩ := st
  rw [holeStep_eq]
  by_cases hg : (bitGet result k = 0 && !(bitGet visited k = 1)) = true
  · rw [if_pos hg]
    have hvk : bitGet (bitSet1 visited k) k = 1 := by
      rw [bitGet_bitSet1, if_pos rfl]
    have h2 := holeFlood_visited_le width height result
      (width * height + 1) [k] (bitSet1 visited k) [k] false k hvk
    by_cases hlen : (!(holeFlood width height result (width * height + 1)
          [k] (bitSet1 visited k) [k] false).2.2 &&
        (holeFlood width height result (width * height + 1) [k]
          (bitSet1 visited k) [k] false).2.1.length < holeFill) = true
    · rw [if_pos hlen]
      intro _
      exact h2
    · rw [if_neg hlen]
      intro _
      exact h2
  · rw [if_neg hg]
    intro hres
    by_cases h1 : bitGet result k = 0
    · by_cases h2 : bitGet visited k = 1
      · exact h2
      · exact absurd (by simp [h1, h2]) hg
    · exact absurd hres h1

theorem holePass_post (width height holeFill m1 : Nat) :
    (∀ j, bitGet m1 j = 1 →
      bitGet (holePass width height holeFill m1) j = 1) ∧
    (∀ j, bitGet (holePass width height holeFill m1) j = 1 →
      bitGet m1 j = 1 ∨
      (j < width * height ∧ ∃ c, c < width * height ∧ bitGet m1 c = 1 ∧
        Reach width height (holePass width height holeFill m1) 1 j c)) ∧
    (∀ j, j < width * height →
      bitGet (holePass width height holeFill m1) j = 0 →
      HoleOk width height (holePass width height holeFill m1) j
        holeFill) := by
  by_cases h0 : holeFill > 0
  · rw [holePass, if_pos h0]
    have hQ0 : HoleScanInv width height holeFill m1 (m1, 0) := by
      refine ⟨fun j hj => hj, fun j hj => Or.inl hj, ?_, ?_⟩
      · intro j hj
        exact absurd hj (by simp [bitGet_zero])
      · intro j hj
        exact absurd hj (by simp [bitGet_zero])
    have hQstep : ∀ (st : Nat × Nat) (x : Nat),
        x ∈ List.range (width * height) →
        HoleScanInv width height holeFill m1 st →
        HoleScanInv width height holeFill m1
          (holeStep width height holeFill st x) :=
      fun st x hx hQ => holeStep_post (List.mem_range.mp hx) hQ
    have hQ : HoleScanInv width height holeFill m1
        ((List.range (width * height)).foldl
          (holeStep width height holeFill) (m1, 0)) :=
      foldl_inv_mem _ _ _ (m1, 0) hQ0 hQstep
    have hP : ∀ x ∈ List.range (width * height),
        (bitGet ((List.range (width * height)).foldl
          (holeStep width height holeFill) (m1, 0)).1 x = 0 →
         bitGet ((List.range (width * height)).foldl
          (holeStep width height holeFill) (m1, 0)).2 x = 1) := by
      refine foldl_elem _ (HoleScanInv width height holeFill m1)
        (fun x st => bitGet st.1 x = 0 → bitGet st.2 x = 1) _ (m1, 0)
        hQ0 hQstep ?_ ?_
      · intro st x _ _
        exact holeStep_estab
      · intro st x y _ hP hres
        exact holeStep_visited_le (hP (holeStep_result_zero hres))
    refine ⟨hQ.1, hQ.2.1, ?_⟩
    intro j hj hbit
    have hvis := hP j (List.mem_range.mpr hj) hbit
    exact (hQ.2.2.2 j hvis hbit).1
  · rw [holePass, if_neg h0]
    refine ⟨fun j hj => hj, fun j hj => Or.inl hj, ?_⟩
    intro j hj hbit
    obtain ⟨R, hnd, hiffR⟩ := comp0_exists width height m1 j hj
    exact ⟨R, hnd, hiffR, Or.inr (by omega)⟩

/-! ### Idempotence assembly -/

theorem holePass_preserves_big (width height minIsland holeFill m1 : Nat)
    (H1 : ∀ i, i < width * height → bitGet m1 i = 1 →
      CompBig width height m1 i minIsland) :
    ∀ i, i < width * height →
      bitGet (holePass width height holeFill m1) i = 1 →
      CompBig width height (holePass width height holeFill m1) i
        minIsland := by
  obtain ⟨hGrow, hFill, _⟩ := holePass_post width height holeFill m1
  intro i hi hbit
  obtain ⟨R2, hR2nd, hR2iff⟩ :=
    comp1_exists width height (holePass width height holeFill m1) i hi
  rcases hFill i hbit with hold | ⟨hilt, c0, hc0lt, hc0m1, hc0reach⟩
  · obtain ⟨R1, hR1nd, hR1iff, hR1len⟩ := H1 i hi hold
    have hsub : R1 ⊆ R2 := by
      intro t ht
      exact (hR2iff t).mpr (Reach_mono hGrow ((hR1iff t).mp ht))
    exact ⟨R2, hR2nd, hR2iff,
      le_trans hR1len (hR1nd.subperm hsub).length_le⟩
  · obtain ⟨R1, hR1nd, hR1iff, hR1len⟩ := H1 c0 hc0lt hc0m1
    have hsub : R1 ⊆ R2 := by
      intro t ht
      refine (hR2iff t).mpr (Relation.ReflTransGen.trans hc0reach ?_)
      exact Reach_mono hGrow ((hR1iff t).mp ht)
    exact ⟨R2, hR2nd, hR2iff,
      le_trans hR1len (hR1nd.subperm hsub).length_le⟩

/-- C7 (amended): `post_process_mask` is *not* idempotent in general (see
the counterexample: one smoothing pass shrinks a 4×4 block to 12 cells and
a second application erases it), but with `smoothing_passes = 0` it is
idempotent for every mask, width, height, `min_island_area` and
`hole_fill_area`: after island removal every four-connected `1`-component
holds at least `min_island_area` cells; hole filling only enlarges
surviving `1`-components and leaves every remaining `0`-component
border-touching or at least `hole_fill_area` cells; hence a second
application removes and fills nothing. -/
theorem c7_idempotent_no_smoothing (mask width height : Nat)
    (p : RefinementParams) (hp : p.smoothing_passes = 0) :
    postProcessMask (postProcessMask mask width height p) width height p =
      postProcessMask mask width height p := by
  obtain ⟨mi, hf, sp⟩ := p
  dsimp only at hp
  subst hp
  rw [postProcessMask, postProcessMask]
  dsimp only
  have hsm : ∀ m : Nat, smoothPass width height 0 m = m := fun m => rfl
  rw [hsm, hsm]
  have H1 := islandPass_post width height mi mask
  have H2a := holePass_preserves_big width height mi hf
    (islandPass width height mi mask) H1
  have H2b := (holePass_post width height hf
    (islandPass width height mi mask)).2.2
  rw [islandPass_fix width height mi
    (holePass width height hf (islandPass width height mi mask)) H2a,
    holePass_fix width height hf
    (holePass width height hf (islandPass width height mi mask)) H2b]

/-- Witness for `c7_idempotent_no_smoothing` at the 4×4-block mask with
the wand parameters `(16, 16, 0)`. -/
theorem c7_idempotent_no_smoothing_witness :
    (⟨16, 16, 0⟩ : RefinementParams).smoothing_passes = 0 ∧
    postProcessMask (postProcessMask blockMask16 10 10 ⟨16, 16, 0⟩) 10 10
        ⟨16, 16, 0⟩ =
      postProcessMask blockMask16 10 10 ⟨16, 16, 0⟩ :=
  ⟨rfl, c7_idempotent_no_smoothing blockMask16 10 10 ⟨16, 16, 0⟩ rfl⟩

end Magpie
